import Mathlib

/-! Queue on a doubly linked list: embedding of `queue_implementation.cpp`.

The C++ program keeps its nodes on the free store and its `Queue` objects in
variables of `main`.  The embedding makes both explicit:

* `Heap` is the free store: cell `a` holds `some node` while the node at
  address `a` is live and `none` once it has been deleted.  `new` takes the
  next unused address, so an address is never handed out twice.
* `World` is the heap together with the `Queue` objects; a queue is named by
  its index, which is what lets `merge` receive the same object twice.
* A run that dereferences a null or deleted pointer stops with
  `Stop.fault`; a loop that exhausts its iteration budget stops with
  `Stop.timeout`.
* `int` values are modelled as unbounded integers.  Stored data is only
  copied and compared, never computed with; the counter `size` and the
  search position only move by one per node, so they stay in range as long
  as fewer than 2^31 nodes are live.
-/

namespace LinkedQueue

/-! ## Data model -/

/-- Why a run stopped without producing a result. -/
inductive Stop where
  | fault
  | timeout
deriving DecidableEq

/-- A line written to standard output by `dequeue` or `search`. -/
inductive Line where
  | underflow
  | found (value : Int) (position : Nat)
  | notFound (value : Int)
deriving DecidableEq

/-- Class `Node` (lines 6-18): a value and two raw pointers. -/
structure Node where
  data : Int
  next : Option Nat
  prev : Option Nat
deriving DecidableEq

/-- The free store, indexed by address. -/
abbrev Heap := List (Option Node)

/-- The private fields of class `Queue` (lines 23-25). -/
structure Queue where
  front : Option Nat
  rear : Option Nat
  size : Int
deriving DecidableEq

/-- The heap and the queue objects of a program state. -/
structure World where
  heap : Heap
  queues : List Queue
deriving DecidableEq

/-! ## Heap primitives -/

/-- The cell at address `a`: `none` when nothing live is stored there. -/
def Heap.read (h : Heap) (a : Nat) : Option Node :=
  h.getD a none

/-- Evaluation of `p->...` for reading: the node `p` points to. -/
def Heap.deref (h : Heap) : Option Nat → Except Stop Node
  | none => .error .fault
  | some a =>
    match h.read a with
    | none => .error .fault
    | some n => .ok n

/-- Evaluation of `p->field = ...`: the node `p` points to is replaced by `f` of it. -/
def Heap.update (h : Heap) (p : Option Nat) (f : Node → Node) : Except Stop Heap :=
  match p with
  | none => .error .fault
  | some a =>
    match h.read a with
    | none => .error .fault
    | some n => .ok (h.set a (some (f n)))

/-- Expression `new Node(value)` (lines 13-17): a fresh cell with null links. -/
def Heap.alloc (h : Heap) (value : Int) : Heap × Nat :=
  (h ++ [some { data := value, next := none, prev := none }], h.length)

/-- Statement `delete p`: a no-op on null, a fault on a pointer that is not live. -/
def Heap.free (h : Heap) : Option Nat → Except Stop Heap
  | none => .ok h
  | some a =>
    match h.read a with
    | none => .error .fault
    | some _ => .ok (h.set a none)

/-! ## Member functions of `Queue`, on one queue object and the heap -/

/-- Constructor `Queue()` (lines 30-34). -/
def Queue.new : Queue :=
  { front := none, rear := none, size := 0 }

/-- Member `isEmpty` (lines 46-48). -/
def Queue.isEmpty (q : Queue) : Bool :=
  q.front == none

/-- Member `getSize` (lines 52-54). -/
def Queue.getSize (q : Queue) : Int :=
  q.size

/-- Member `enqueue` (lines 78-92). -/
def Queue.enqueue (h : Heap) (q : Queue) (value : Int) : Except Stop (Heap × Queue) :=
  let (h1, newNode) := h.alloc value
  if q.isEmpty then
    .ok (h1, { q with front := some newNode, rear := some newNode, size := q.size + 1 })
  else do
    let h2 ← h1.update q.rear (fun n => { n with next := some newNode })
    let h3 ← h2.update (some newNode) (fun n => { n with prev := q.rear })
    pure (h3, { q with rear := some newNode, size := q.size + 1 })

/-- What a call of `dequeue` yields: the heap and queue it leaves, the returned
`int`, and the lines it printed. -/
structure Dequeued where
  heap : Heap
  queue : Queue
  value : Int
  printed : List Line
deriving DecidableEq

/-- Member `dequeue` (lines 96-117). -/
def Queue.dequeue (h : Heap) (q : Queue) : Except Stop Dequeued :=
  if q.isEmpty then
    .ok { heap := h, queue := q, value := -1, printed := [Line.underflow] }
  else do
    let temp := q.front
    let t ← h.deref temp
    let value := t.data
    if q.front = q.rear then
      let h1 ← h.free temp
      pure { heap := h1, queue := { front := none, rear := none, size := q.size - 1 },
             value := value, printed := [] }
    else
      let f ← h.deref q.front
      let front1 := f.next
      let h1 ← h.update front1 (fun n => { n with prev := none })
      let h2 ← h1.free temp
      pure { heap := h2, queue := { q with front := front1, size := q.size - 1 },
             value := value, printed := [] }

/-- What a call of `search` yields: the returned `bool` and the line it printed. -/
structure Searched where
  found : Bool
  printed : Line
deriving DecidableEq

/-- The `while` loop of `search` (lines 125-135); `fuel` bounds its iterations. -/
def Queue.searchLoop (h : Heap) (value : Int) : Nat → Option Nat → Nat → Except Stop Searched
  | _, none, _ => .ok { found := false, printed := Line.notFound value }
  | 0, some _, _ => .error .timeout
  | fuel + 1, some a, position => do
    let c ← h.deref (some a)
    if c.data = value then
      pure { found := true, printed := Line.found value position }
    else
      Queue.searchLoop h value fuel c.next (position + 1)

/-- Member `search` (lines 121-136). -/
def Queue.search (fuel : Nat) (h : Heap) (q : Queue) (value : Int) : Except Stop Searched :=
  Queue.searchLoop h value fuel q.front 0

/-- The inner `while` loop of `sort` (lines 153-162): from `current`, with boundary
`last` and the flag `swapped`, to the heap, the final `current` and the flag. -/
def Queue.sortScan (last : Option Nat) :
    Nat → Heap → Option Nat → Bool → Except Stop (Heap × Option Nat × Bool)
  | 0, _, _, _ => .error .timeout
  | fuel + 1, h, current, swapped => do
    let c ← h.deref current
    if c.next = last then
      pure (h, current, swapped)
    else do
      let n ← h.deref c.next
      if c.data > n.data then
        let temp := c.data
        let h1 ← h.update current (fun x => { x with data := n.data })
        let c1 ← h1.deref current
        let h2 ← h1.update c1.next (fun x => { x with data := temp })
        let c2 ← h2.deref current
        Queue.sortScan last fuel h2 c2.next true
      else
        Queue.sortScan last fuel h c.next swapped

/-- The `do ... while (swapped)` loop of `sort` (lines 149-164): `passes` bounds the
number of passes, `fuel` the iterations of each inner loop. -/
def Queue.sortLoop (fuel : Nat) (front : Option Nat) :
    Nat → Heap → Option Nat → Except Stop Heap
  | 0, _, _ => .error .timeout
  | passes + 1, h, last => do
    let (h1, current, swapped) ← Queue.sortScan last fuel h front false
    if swapped then
      Queue.sortLoop fuel front passes h1 current
    else
      pure h1

/-- Member `sort` (lines 140-165). -/
def Queue.sort (fuel : Nat) (h : Heap) (q : Queue) : Except Stop Heap :=
  if q.isEmpty || q.size == 1 then
    .ok h
  else
    Queue.sortLoop fuel q.front fuel h none

/-! ## The same member functions on a queue object of the world -/

/-- The queue object named `q`. -/
def World.queue (w : World) (q : Nat) : Except Stop Queue :=
  match w.queues[q]? with
  | none => .error .fault
  | some Q => .ok Q

/-- The world before any object exists. -/
def World.init : World :=
  { heap := [], queues := [] }

/-- Declaration of a `Queue` variable: a new object built by the constructor. -/
def World.newQueue (w : World) : World :=
  { w with queues := w.queues ++ [Queue.new] }

/-- Call `q.isEmpty()`. -/
def isEmpty (w : World) (q : Nat) : Except Stop Bool := do
  let Q ← w.queue q
  pure Q.isEmpty

/-- Call `q.getSize()`. -/
def getSize (w : World) (q : Nat) : Except Stop Int := do
  let Q ← w.queue q
  pure Q.getSize

/-- Call `q.enqueue(value)`. -/
def enqueue (w : World) (q : Nat) (value : Int) : Except Stop World := do
  let Q ← w.queue q
  let (h, Q1) ← Queue.enqueue w.heap Q value
  pure { heap := h, queues := w.queues.set q Q1 }

/-- What a call `q.dequeue()` yields in the world. -/
structure Popped where
  world : World
  value : Int
  printed : List Line
deriving DecidableEq

/-- Call `q.dequeue()`. -/
def dequeue (w : World) (q : Nat) : Except Stop Popped := do
  let Q ← w.queue q
  let r ← Queue.dequeue w.heap Q
  pure { world := { heap := r.heap, queues := w.queues.set q r.queue },
         value := r.value, printed := r.printed }

/-- Call `q.search(value)`. -/
def search (fuel : Nat) (w : World) (q : Nat) (value : Int) : Except Stop Searched := do
  let Q ← w.queue q
  Queue.search fuel w.heap Q value

/-- Call `q.sort()`. -/
def sort (fuel : Nat) (w : World) (q : Nat) : Except Stop World := do
  let Q ← w.queue q
  let h ← Queue.sort fuel w.heap Q
  pure { w with heap := h }

/-- The copy loop of `merge` (lines 176-180 and 183-187): `current->data` is read
before the call of `enqueue`, `current->next` after it. -/
def mergeCopy (self : Nat) : Nat → World → Option Nat → Except Stop World
  | _, w, none => .ok w
  | 0, _, some _ => .error .timeout
  | fuel + 1, w, some a => do
    let c ← w.heap.deref (some a)
    let w1 ← enqueue w self c.data
    let c1 ← w1.heap.deref (some a)
    mergeCopy self fuel w1 c1.next

/-- The clearing loop of `merge` (lines 191-193).  The call of `dequeue` is guarded
by `!otherQueue.isEmpty()`, so it prints nothing. -/
def mergeDrain (other : Nat) : Nat → World → Except Stop World
  | fuel, w => do
    let O ← w.queue other
    if O.isEmpty then
      pure w
    else
      match fuel with
      | 0 => .error .timeout
      | fuel1 + 1 => do
        let r ← dequeue w other
        mergeDrain other fuel1 r.world

/-- Call `self.merge(other)` (lines 169-194). -/
def merge (fuel : Nat) (w : World) (self other : Nat) : Except Stop World := do
  let O ← w.queue other
  if O.isEmpty then
    pure w
  else do
    let S ← w.queue self
    let w1 ← if S.isEmpty then mergeCopy self fuel w O.front else mergeCopy self fuel w O.front
    mergeDrain other fuel w1

/-! ## Observation of a queue -/

/-- The values met when following `next` from `current` until null, as `display`
does (lines 65-72); `none` if the walk meets a dead cell or does not end within
`fuel` nodes. -/
def walk (h : Heap) : Nat → Option Nat → Option (List Int)
  | _, none => some []
  | 0, some _ => none
  | fuel + 1, some a =>
    match h.read a with
    | none => none
    | some n => (walk h fuel n.next).map (fun vs => n.data :: vs)

/-- The front-to-rear sequence of queue `q`.  A chain of distinct live nodes is no
longer than the heap, which bounds the walk. -/
def contents (w : World) (q : Nat) : Option (List Int) :=
  match w.queues[q]? with
  | none => none
  | some Q => walk w.heap w.heap.length Q.front

/-! ## Reachable states -/

/-- The worlds a program can be in: it starts with nothing, declares queues and
calls `enqueue`, `dequeue`, `sort` and `merge` (on two different queues). -/
inductive Reachable : World → Prop where
  | init : Reachable World.init
  | newQueue {w : World} : Reachable w → Reachable w.newQueue
  | enqueue {w w1 : World} {q : Nat} {value : Int} :
      Reachable w → enqueue w q value = .ok w1 → Reachable w1
  | dequeue {w : World} {q : Nat} {r : Popped} :
      Reachable w → dequeue w q = .ok r → Reachable r.world
  | sort {w w1 : World} {q fuel : Nat} :
      Reachable w → sort fuel w q = .ok w1 → Reachable w1
  | merge {w w1 : World} {self other fuel : Nat} :
      Reachable w → self ≠ other → merge fuel w self other = .ok w1 → Reachable w1

/-! ## Call sequences used by `main` -/

/-- Calls `q.enqueue(v)` for the values of a list in order (as lines 215-219). -/
def enqueueAll (q : Nat) : List Int → World → Except Stop World
  | [], w => .ok w
  | v :: vs, w => do
    let w1 ← enqueue w q v
    enqueueAll q vs w1

/-- Calls `q.dequeue()` `n` times (as lines 224-226): the final world and, for each
call in order, the returned value and the printed lines. -/
def dequeueTimes (q : Nat) : Nat → World → Except Stop (World × List (Int × List Line))
  | 0, w => .ok (w, [])
  | n + 1, w => do
    let r ← dequeue w q
    let (w2, rs) ← dequeueTimes q n r.world
    pure (w2, (r.value, r.printed) :: rs)

/-! ## Concrete worlds -/

/-- One queue, holding nothing. -/
def oneEmpty : World :=
  World.init.newQueue

/-- One queue holding 30, 10, 20, 10 from front to rear. -/
def oneFour : World :=
  { heap := [some { data := 30, next := some 1, prev := none },
             some { data := 10, next := some 2, prev := some 0 },
             some { data := 20, next := some 3, prev := some 1 },
             some { data := 10, next := none, prev := some 2 }],
    queues := [{ front := some 0, rear := some 3, size := 4 }] }

/-- One queue holding the single value -1. -/
def oneMinusOne : World :=
  { heap := [some { data := -1, next := none, prev := none }],
    queues := [{ front := some 0, rear := some 0, size := 1 }] }

/-- Queue 0 holding 30, 40, 50 and queue 1 holding 5, 15, 25 (as `q1` and `q2` before
the call of `merge` at line 256, without the sort). -/
def twoQueues : World :=
  { heap := [some { data := 30, next := some 1, prev := none },
             some { data := 40, next := some 2, prev := some 0 },
             some { data := 50, next := none, prev := some 1 },
             some { data := 5, next := some 4, prev := none },
             some { data := 15, next := some 5, prev := some 3 },
             some { data := 25, next := none, prev := some 4 }],
    queues := [{ front := some 0, rear := some 2, size := 3 },
               { front := some 3, rear := some 5, size := 3 }] }

/-! ## Representation of a queue in the heap -/

/-- The two pointers of a node. -/
def Node.links (n : Node) : Option Nat × Option Nat :=
  (n.next, n.prev)

/-- The cells at the addresses `as` are live and doubly linked in that order:
each `next` is the following address (null at the end of the list), each `prev`
the preceding one (`p` for the first). -/
def Links (h : Heap) : Option Nat → List Nat → Prop
  | _, [] => True
  | p, a :: rest =>
    (∃ n, h.read a = some n ∧ n.next = rest.head? ∧ n.prev = p) ∧ Links h (some a) rest

/-- The values stored at the addresses `as`. -/
def vals (h : Heap) (as : List Nat) : List Int :=
  as.map (fun a => match h.read a with | some n => n.data | none => 0)

/-- Queue object `Q` owns exactly the nodes at the distinct addresses `as`, front first. -/
structure Rep (h : Heap) (Q : Queue) (as : List Nat) : Prop where
  nodup : as.Nodup
  front : Q.front = as.head?
  rear : Q.rear = as.getLast?
  size : Q.size = as.length
  links : Links h none as

/-- The ownership map `owns` describes world `w`: every queue object owns a doubly
linked chain, no node belongs to two queues, and every live node belongs to some
queue. -/
structure Owns (w : World) (owns : Nat → List Nat) : Prop where
  rep : ∀ i Q, w.queues[i]? = some Q → Rep w.heap Q (owns i)
  disjoint : ∀ i j, i < w.queues.length → j < w.queues.length → i ≠ j →
    List.Disjoint (owns i) (owns j)
  covered : ∀ a n, w.heap.read a = some n → ∃ i, i < w.queues.length ∧ a ∈ owns i

/-- Well-formedness of a world. -/
def WF (w : World) : Prop :=
  ∃ owns : Nat → List Nat, Owns w owns

/-- Two heaps have the same cells alive, with the same pointers in them. -/
def SameLinks (h h1 : Heap) : Prop :=
  h1.length = h.length ∧ ∀ a, (h1.read a).map Node.links = (h.read a).map Node.links

/-- What `enqueue` establishes, given the chain `as` of the queue before the call. -/
def EnqueuePost (h : Heap) (Q : Queue) (as : List Nat) (v : Int) (h1 : Heap) (Q1 : Queue) : Prop :=
  Rep h1 Q1 (as ++ [h.length]) ∧ vals h1 (as ++ [h.length]) = vals h as ++ [v] ∧
    Q1.size = Q.size + 1 ∧ h1.length = h.length + 1 ∧
    (∀ b, b ∉ as → b ≠ h.length → h1.read b = h.read b)

/-- What `dequeue` establishes on a queue whose chain is `a :: rest`. -/
def DequeuePost (h : Heap) (Q : Queue) (a : Nat) (rest : List Nat) (r : Dequeued) : Prop :=
  Rep r.heap r.queue rest ∧ vals r.heap rest = vals h rest ∧ vals h [a] = [r.value] ∧
    r.printed = [] ∧ r.queue.size = Q.size - 1 ∧ r.heap.length = h.length ∧
    r.heap.read a = none ∧ (∀ b, b ∉ a :: rest → r.heap.read b = h.read b)

/-! ## One pass of the exchange loop, on the sequence of values -/

/-- The effect of the inner loop of `sort` on the values `x :: rest` it scans: the
values after the pass, and whether an exchange happened. -/
def bubble : Int → List Int → List Int × Bool
  | x, [] => ([x], false)
  | x, y :: rest =>
    if x > y then (y :: (bubble x rest).1, true)
    else (x :: (bubble y rest).1, (bubble y rest).2)

/-! ## Following pointers -/

/-- The pointer `p->next`, null when `p` is null or dead. -/
def Heap.nextOf (h : Heap) : Option Nat → Option Nat
  | none => none
  | some a => (h.read a).bind Node.next

/-- The pointer `p->prev`, null when `p` is null or dead. -/
def Heap.prevOf (h : Heap) : Option Nat → Option Nat
  | none => none
  | some a => (h.read a).bind Node.prev

/-! ## The passes of `sort`, one by one -/

/-- The first `k` passes of the `do ... while (swapped)` loop of `sort` (lines 149-164),
from the heap `h` and the boundary `last`: the heap and the boundary after them, and
whether the loop goes on.  The loop is over once a pass has left `swapped` false. -/
def Queue.sortPasses (fuel : Nat) (front : Option Nat) :
    Nat → Heap → Option Nat → Except Stop (Heap × Option Nat × Bool)
  | 0, h, last => .ok (h, last, true)
  | k + 1, h, last => do
    let (h1, current, swapped) ← Queue.sortScan last fuel h front false
    if swapped then
      Queue.sortPasses fuel front k h1 current
    else
      pure (h1, current, false)

/-- The inner loop of `sort` on a sequence `x :: rest` of elements that carry their value
under `key`: the comparison reads the values only, an exchange moves whole elements. -/
def bubbleBy {α : Type} (key : α → Int) : α → List α → List α × Bool
  | x, [] => ([x], false)
  | x, y :: rest =>
    if key x > key y then (y :: (bubbleBy key x rest).1, true)
    else (x :: (bubbleBy key y rest).1, (bubbleBy key y rest).2)

/-- The first `k` passes of the outer loop of `sort` on such a sequence, split into the
part `seg` still to be scanned and the part `tail` behind the boundary `last`: the two
parts after the passes, and whether the loop goes on.  Each pass moves the boundary one
element towards the front. -/
def passesBy {α : Type} (key : α → Int) : Nat → List α → List α → List α × List α × Bool
  | 0, seg, tail => (seg, tail, true)
  | _ + 1, [], tail => ([], tail, false)
  | k + 1, x :: rest, tail =>
    if (bubbleBy key x rest).2 then
      passesBy key k (bubbleBy key x rest).1.dropLast
        ((bubbleBy key x rest).1.getLast?.toList ++ tail)
    else
      ((bubbleBy key x rest).1.dropLast, (bubbleBy key x rest).1.getLast?.toList ++ tail, false)

/-- The effect of `sort` on a sequence of elements that carry their value under `key`. -/
def sortBy {α : Type} (key : α → Int) (l : List α) : List α :=
  (passesBy key l.length l []).1 ++ (passesBy key l.length l []).2.1

/-- The world after the first `k` passes of the loop of `q.sort()`, and whether the loop
goes on.  It describes the loop itself, entered as `sort` enters it when the guard of
line 141 does not return. -/
def sortPasses (fuel k : Nat) (w : World) (q : Nat) : Except Stop (World × Bool) := do
  let Q ← w.queue q
  let (h, _, running) ← Queue.sortPasses fuel Q.front k w.heap none
  pure ({ w with heap := h }, running)

/-! ## The observers in state-passing style -/

/-- Evaluation of `p->...` for reading, with the world it leaves. -/
def World.load (w : World) (p : Option Nat) : Except Stop (Node × World) := do
  let n ← w.heap.deref p
  pure (n, w)

/-- Access to the fields of queue object `q` for reading, with the world it leaves. -/
def World.loadQueue (w : World) (q : Nat) : Except Stop (Queue × World) := do
  let Q ← w.queue q
  pure (Q, w)

/-- Call `q.isEmpty()` (lines 46-48), with the world it leaves. -/
def isEmptyRun (w : World) (q : Nat) : Except Stop (Bool × World) := do
  let (Q, w1) ← w.loadQueue q
  pure (Q.front == none, w1)

/-- Call `q.getSize()` (lines 52-54), with the world it leaves. -/
def getSizeRun (w : World) (q : Nat) : Except Stop (Int × World) := do
  let (Q, w1) ← w.loadQueue q
  pure (Q.size, w1)

/-- The `while` loop of `search` (lines 125-132), with the world it leaves. -/
def searchLoopRun (value : Int) : Nat → World → Option Nat → Nat → Except Stop (Searched × World)
  | _, w, none, _ => .ok ({ found := false, printed := Line.notFound value }, w)
  | 0, _, some _, _ => .error .timeout
  | fuel + 1, w, some a, position => do
    let (c, w1) ← w.load (some a)
    if c.data = value then
      pure ({ found := true, printed := Line.found value position }, w1)
    else do
      let (c1, w2) ← w1.load (some a)
      searchLoopRun value fuel w2 c1.next (position + 1)

/-- Call `q.search(value)` (lines 121-136), with the world it leaves. -/
def searchRun (fuel : Nat) (w : World) (q : Nat) (value : Int) : Except Stop (Searched × World) := do
  let (Q, w1) ← w.loadQueue q
  searchLoopRun value fuel w1 Q.front 0

/-- The first `k` iterations of the copy loop of `merge` (lines 176-180 and 183-187):
the world and the cursor `current` after them.  Once the cursor is null the loop is
over and nothing changes any more. -/
def mergeCopyIter (self : Nat) : Nat → World → Option Nat → Except Stop (World × Option Nat)
  | 0, w, current => .ok (w, current)
  | _ + 1, w, none => .ok (w, none)
  | k + 1, w, some a => do
    let c ← w.heap.deref (some a)
    let w1 ← enqueue w self c.data
    let c1 ← w1.heap.deref (some a)
    mergeCopyIter self k w1 c1.next

/-- Calls `q.enqueue(v)` and then `q.dequeue()` for each value of a list in order (as
lines 271-282 do once): the final world and, for each `dequeue` in order, the returned
value and the printed lines. -/
def enqueueDequeuePairs (q : Nat) : List Int → World → Except Stop (World × List (Int × List Line))
  | [], w => .ok (w, [])
  | v :: vs, w => do
    let w1 ← enqueue w q v
    let r ← dequeue w1 q
    let (w2, rs) ← enqueueDequeuePairs q vs r.world
    pure (w2, (r.value, r.printed) :: rs)

/-- The number of live nodes. -/
def Heap.liveCount (h : Heap) : Nat :=
  h.countP Option.isSome

/-- The sum of the counts of all queue objects. -/
def World.totalSize (w : World) : Int :=
  (w.queues.map Queue.size).sum

/-! ## `sort` followed with a tag on every stored value -/

/-- The tags after an exchange of the values of the nodes `p1` and `p2`: each of the two
values takes its tag along to the node it moves to. -/
def swapTags {τ : Type} (g : Nat → τ) : Option Nat → Option Nat → Nat → τ
  | some a, some b => Function.update (Function.update g a (g b)) b (g a)
  | _, _ => g

/-- The inner `while` loop of `sort` (lines 153-162), as `Queue.sortScan`, run together
with tags: `g a` is the tag of the value stored in the node at address `a`.  The tags are
not program state; they move when, and only when, the loop exchanges two values. -/
def Queue.sortScanTagged {τ : Type} (last : Option Nat) :
    Nat → Heap → (Nat → τ) → Option Nat → Bool →
      Except Stop (Heap × (Nat → τ) × Option Nat × Bool)
  | 0, _, _, _, _ => .error .timeout
  | fuel + 1, h, g, current, swapped => do
    let c ← h.deref current
    if c.next = last then
      pure (h, g, current, swapped)
    else do
      let n ← h.deref c.next
      if c.data > n.data then
        let temp := c.data
        let h1 ← h.update current (fun x => { x with data := n.data })
        let c1 ← h1.deref current
        let h2 ← h1.update c1.next (fun x => { x with data := temp })
        let c2 ← h2.deref current
        Queue.sortScanTagged last fuel h2 (swapTags g current c1.next) c2.next true
      else
        Queue.sortScanTagged last fuel h g c.next swapped

/-- The `do ... while (swapped)` loop of `sort` (lines 149-164), as `Queue.sortLoop`, run
together with tags. -/
def Queue.sortLoopTagged {τ : Type} (fuel : Nat) (front : Option Nat) :
    Nat → Heap → (Nat → τ) → Option Nat → Except Stop (Heap × (Nat → τ))
  | 0, _, _, _ => .error .timeout
  | passes + 1, h, g, last => do
    let (h1, g1, current, swapped) ← Queue.sortScanTagged last fuel h g front false
    if swapped then
      Queue.sortLoopTagged fuel front passes h1 g1 current
    else
      pure (h1, g1)

/-- Member `sort` (lines 140-165), as `Queue.sort`, run together with tags. -/
def Queue.sortTagged {τ : Type} (fuel : Nat) (h : Heap) (g : Nat → τ) (q : Queue) :
    Except Stop (Heap × (Nat → τ)) :=
  if q.isEmpty || q.size == 1 then
    .ok (h, g)
  else
    Queue.sortLoopTagged fuel q.front fuel h g none

/-- Call `q.sort()`, as `sort`, run together with tags. -/
def sortTagged {τ : Type} (fuel : Nat) (w : World) (g : Nat → τ) (q : Nat) :
    Except Stop (World × (Nat → τ)) := do
  let Q ← w.queue q
  let (h, g1) ← Queue.sortTagged fuel w.heap g Q
  pure ({ w with heap := h }, g1)

/-- The values met when following `next` from `current` until null, each with its tag. -/
def walkTagged {τ : Type} (h : Heap) (g : Nat → τ) : Nat → Option Nat → Option (List (Int × τ))
  | _, none => some []
  | 0, some _ => none
  | fuel + 1, some a =>
    match h.read a with
    | none => none
    | some n => (walkTagged h g fuel n.next).map (fun vs => (n.data, g a) :: vs)

/-- The front-to-rear sequence of queue `q`, each value with its tag. -/
def contentsTagged {τ : Type} (w : World) (g : Nat → τ) (q : Nat) : Option (List (Int × τ)) :=
  match w.queues[q]? with
  | none => none
  | some Q => walkTagged w.heap g w.heap.length Q.front

/-- The values stored at the addresses `as`, each with its tag. -/
def tagged {τ : Type} (h : Heap) (g : Nat → τ) (as : List Nat) : List (Int × τ) :=
  as.map (fun a => ((match h.read a with | some n => n.data | none => 0), g a))

/-! ## Lemmas on the heap -/

theorem Heap.read_eq (h : Heap) (a : Nat) : h.read a = (h[a]?).getD none := by
  simp [Heap.read, List.getD_eq_getElem?_getD]

theorem Heap.read_lt {h : Heap} {a : Nat} {n : Node} (e : h.read a = some n) : a < h.length := by
  by_contra hge
  rw [Heap.read_eq, List.getElem?_eq_none (by omega)] at e
  simp at e

theorem Heap.read_set_same {h : Heap} {a : Nat} (x : Option Node) (hlt : a < h.length) :
    Heap.read (h.set a x) a = x := by
  simp [Heap.read_eq, hlt]

theorem Heap.read_set_ne {h : Heap} {a b : Nat} (x : Option Node) (hne : a ≠ b) :
    Heap.read (h.set a x) b = h.read b := by
  simp [Heap.read_eq, List.getElem?_set_ne hne]

theorem Heap.read_append_lt {h : Heap} {a : Nat} (l : Heap) (hlt : a < h.length) :
    Heap.read (h ++ l) a = h.read a := by
  simp [Heap.read_eq, List.getElem?_append_left hlt]

theorem Heap.read_append_new (h : Heap) (x : Option Node) :
    Heap.read (h ++ [x]) h.length = x := by
  simp [Heap.read_eq]

/-! ### Links -/

theorem Links.lt {h : Heap} : ∀ {as : List Nat} {p : Option Nat}, Links h p as →
    ∀ a ∈ as, a < h.length
  | [], _, _, a, ha => by simp at ha
  | b :: rest, _, hl, a, ha => by
    obtain ⟨⟨n, hn, -, -⟩, hrest⟩ := hl
    rcases List.mem_cons.1 ha with rfl | ha
    · exact Heap.read_lt hn
    · exact Links.lt hrest a ha

theorem Links.live {h : Heap} : ∀ {as : List Nat} {p : Option Nat}, Links h p as →
    ∀ a ∈ as, ∃ n, h.read a = some n
  | [], _, _, a, ha => by simp at ha
  | b :: rest, _, hl, a, ha => by
    obtain ⟨⟨n, hn, -, -⟩, hrest⟩ := hl
    rcases List.mem_cons.1 ha with rfl | ha
    · exact ⟨n, hn⟩
    · exact Links.live hrest a ha

/-- Links only depend on the pointers stored at the addresses of the chain. -/
theorem Links.congr {h h1 : Heap} : ∀ {as : List Nat} {p : Option Nat}, Links h p as →
    (∀ a ∈ as, (h1.read a).map Node.links = (h.read a).map Node.links) → Links h1 p as
  | [], _, _, _ => trivial
  | b :: rest, p, hl, hs => by
    obtain ⟨⟨n, hn, hnx, hpv⟩, hrest⟩ := hl
    refine ⟨?_, Links.congr hrest (fun a ha => hs a (List.mem_cons_of_mem _ ha))⟩
    have := hs b (List.mem_cons_self _ _)
    rw [hn] at this
    cases hb : h1.read b with
    | none => simp [hb] at this
    | some m =>
      simp [hb, Node.links] at this
      exact ⟨m, rfl, by rw [this.1, hnx], by rw [this.2, hpv]⟩

theorem Links.frame {h h1 : Heap} {as : List Nat} {p : Option Nat} (hl : Links h p as)
    (hs : ∀ a ∈ as, h1.read a = h.read a) : Links h1 p as :=
  hl.congr (fun a ha => by rw [hs a ha])

theorem vals_frame {h h1 : Heap} {as : List Nat} (hs : ∀ a ∈ as, h1.read a = h.read a) :
    vals h1 as = vals h as := by
  unfold vals
  apply List.map_congr_left
  intro a ha
  rw [hs a ha]

theorem vals_length (h : Heap) (as : List Nat) : (vals h as).length = as.length := by
  simp [vals]

/-- Walking a linked chain reads off its values. -/
theorem walk_links {h : Heap} : ∀ {as : List Nat} {p : Option Nat} {fuel : Nat}, Links h p as →
    as.length ≤ fuel → walk h fuel as.head? = some (vals h as)
  | [], _, fuel, _, _ => by cases fuel <;> simp [walk, vals]
  | a :: rest, _, 0, _, hf => by simp at hf
  | a :: rest, _, fuel + 1, hl, hf => by
    obtain ⟨⟨n, hn, hnx, -⟩, hrest⟩ := hl
    have ih : walk h fuel rest.head? = some (vals h rest) :=
      walk_links hrest (by simpa using hf)
    simp [walk, hn, hnx, ih, vals]

theorem Links.length_le {h : Heap} {as : List Nat} {p : Option Nat} (hl : Links h p as)
    (nd : as.Nodup) : as.length ≤ h.length := by
  have hsub : as ⊆ List.range h.length := fun a ha => List.mem_range.2 (hl.lt a ha)
  simpa using (List.subperm_of_subset nd hsub).length_le

/-! ## Specification of `enqueue` and `dequeue` on one queue -/

theorem head?_append_singleton (l : List Nat) (r : Nat) (x : List Nat) :
    (l ++ r :: x).head? = (l ++ [r]).head? := by
  cases l <;> simp

/-- Linking a new last node behind the chain `pre ++ [r]`. -/
theorem Links.snoc {h h1 : Heap} {r new : Nat} {v : Int} : ∀ {pre : List Nat} {p : Option Nat},
    Links h p (pre ++ [r]) →
    (∀ a ∈ pre, h1.read a = h.read a) →
    (∀ n, h.read r = some n → h1.read r = some { n with next := some new }) →
    h1.read new = some { data := v, next := none, prev := some r } →
    Links h1 p (pre ++ [r, new])
  | [], p, hl, _, hr, hnew => by
    obtain ⟨⟨n, hn, hnx, hpv⟩, -⟩ := hl
    exact ⟨⟨_, hr n hn, rfl, hpv⟩, ⟨_, hnew, rfl, rfl⟩, trivial⟩
  | a :: pre, p, hl, hpre, hr, hnew => by
    obtain ⟨⟨n, hn, hnx, hpv⟩, hrest⟩ := hl
    refine ⟨⟨n, ?_, ?_, hpv⟩, Links.snoc hrest (fun b hb => hpre b (List.mem_cons_of_mem _ hb)) hr hnew⟩
    · rw [hpre a (List.mem_cons_self _ _), hn]
    · rw [hnx]; exact (head?_append_singleton pre r [new]).symm

theorem Heap.read_append_other {h : Heap} {b : Nat} (x : Option Node) (hb : b ≠ h.length) :
    Heap.read (h ++ [x]) b = h.read b := by
  rcases Nat.lt_or_gt_of_ne hb with hb | hb
  · exact Heap.read_append_lt _ hb
  · rw [Heap.read_eq, Heap.read_eq, List.getElem?_eq_none (by simp; omega),
      List.getElem?_eq_none (by omega)]

theorem Queue.enqueue_nil {h : Heap} {Q : Queue} (hr : Rep h Q []) (v : Int) :
    ∃ h1 Q1, Queue.enqueue h Q v = .ok (h1, Q1) ∧ EnqueuePost h Q [] v h1 Q1 := by
  have hf : Q.front = none := hr.front
  refine ⟨h ++ [some (Node.mk v none none)],
    { Q with front := some h.length, rear := some h.length, size := Q.size + 1 }, ?_, ?_, ?_, rfl,
    by simp, ?_⟩
  · simp [Queue.enqueue, Heap.alloc, Queue.isEmpty, hf]
  · refine ⟨by simp, rfl, rfl, by simp [hr.size], ?_⟩
    exact ⟨⟨_, Heap.read_append_new h _, rfl, rfl⟩, trivial⟩
  · simp [vals, Heap.read_append_new]
  · intro b _ hb
    exact Heap.read_append_other _ hb

theorem Queue.enqueue_snoc {h : Heap} {Q : Queue} {pre : List Nat} {r : Nat}
    (hr : Rep h Q (pre ++ [r])) (v : Int) :
    ∃ h1 Q1, Queue.enqueue h Q v = .ok (h1, Q1) ∧ EnqueuePost h Q (pre ++ [r]) v h1 Q1 := by
  have hlt := hr.links.lt
  have hfresh : h.length ∉ pre ++ [r] := fun hm => lt_irrefl _ (hlt _ hm)
  have hfront : Q.front ≠ none := by
    rw [hr.front]; cases pre <;> simp
  have hrear : Q.rear = some r := by rw [hr.rear]; simp
  have hrlt : r < h.length := hlt r (by simp)
  obtain ⟨nr, hnr⟩ := hr.links.live r (by simp)
  have hne : r ≠ h.length := Nat.ne_of_lt hrlt
  have hnd := hr.nodup
  rw [List.nodup_append] at hnd
  let h1 : Heap := h ++ [some (Node.mk v none none)]
  let h2 : Heap := h1.set r (some { nr with next := some h.length })
  let h3 : Heap := h2.set h.length (some (Node.mk v none (some r)))
  have e1 : h1.read r = some nr := by
    rw [Heap.read_append_lt _ hrlt, hnr]
  have e2 : h2.read h.length = some (Node.mk v none none) := by
    rw [Heap.read_set_ne _ hne, Heap.read_append_new]
  have e3 : ∀ b, b ≠ r → b ≠ h.length → h3.read b = h.read b := by
    intro b hb1 hb2
    rw [Heap.read_set_ne _ (Ne.symm hb2), Heap.read_set_ne _ (Ne.symm hb1),
      Heap.read_append_other _ hb2]
  have e4 : h3.read r = some { nr with next := some h.length } := by
    rw [Heap.read_set_ne _ (Ne.symm hne), Heap.read_set_same _ (by simp [h1]; omega)]
  have e5 : h3.read h.length = some (Node.mk v none (some r)) := by
    rw [Heap.read_set_same _ (by simp [h2, h1])]
  refine ⟨h3, { Q with rear := some h.length, size := Q.size + 1 }, ?_, ?_, ?_, rfl,
    by simp [h3, h2, h1], ?_⟩
  · simp [Queue.enqueue, Heap.alloc, Queue.isEmpty, hfront, hrear, Heap.update, e1, e2,
      bind, Except.bind, pure, Except.pure, h3, h2, h1]
  · refine ⟨?_, ?_, ?_, ?_, ?_⟩
    · rw [List.nodup_append]
      exact ⟨hr.nodup, by simp, by simpa using hfresh⟩
    · show Q.front = _
      rw [hr.front, List.append_assoc]
      exact (head?_append_singleton pre r [h.length]).symm
    · simp
    · simp [hr.size]; ring
    · rw [List.append_assoc]
      refine Links.snoc (v := v) hr.links ?_ ?_ e5
      · intro a ha
        exact e3 a (fun e => hnd.2.2 ha (by simp [e])) (Nat.ne_of_lt (hlt a (by simp [ha])))
      · intro n hn
        rw [hnr] at hn
        cases hn
        exact e4
  · have hv : vals h3 (pre ++ [r]) = vals h (pre ++ [r]) := by
      unfold vals
      apply List.map_congr_left
      intro a ha
      by_cases har : a = r
      · subst har; rw [e4, hnr]
      · rw [e3 a har (Nat.ne_of_lt (hlt a ha))]
    rw [vals, List.map_append, ← vals, hv]
    simp [e5]
  · intro b hb1 hb2
    exact e3 b (fun e => hb1 (by simp [e])) hb2

theorem Queue.enqueue_spec {h : Heap} {Q : Queue} {as : List Nat} (hr : Rep h Q as) (v : Int) :
    ∃ h1 Q1, Queue.enqueue h Q v = .ok (h1, Q1) ∧ EnqueuePost h Q as v h1 Q1 := by
  rcases List.eq_nil_or_concat as with rfl | ⟨pre, r, hcat⟩
  · exact Queue.enqueue_nil hr v
  · rw [List.concat_eq_append] at hcat
    subst hcat
    exact Queue.enqueue_snoc hr v

/-! ### `dequeue` -/

theorem Queue.dequeue_empty {h : Heap} {Q : Queue} (he : Q.isEmpty = true) :
    Queue.dequeue h Q = .ok { heap := h, queue := Q, value := -1, printed := [Line.underflow] } := by
  simp [Queue.dequeue, he]

theorem Queue.dequeue_one {h : Heap} {Q : Queue} {a : Nat} (hr : Rep h Q [a]) :
    ∃ r, Queue.dequeue h Q = .ok r ∧ DequeuePost h Q a [] r := by
  have hf : Q.front = some a := hr.front
  have hre : Q.rear = some a := hr.rear
  obtain ⟨⟨n, hn, -, -⟩, -⟩ := hr.links
  have hlt := Heap.read_lt hn
  refine ⟨{ heap := h.set a none, queue := { front := none, rear := none, size := Q.size - 1 },
            value := n.data, printed := [] }, ?_, ?_⟩
  · simp [Queue.dequeue, Queue.isEmpty, hf, hre, Heap.deref, Heap.free, hn, bind, Except.bind,
      pure, Except.pure]
  · refine ⟨⟨by simp, rfl, rfl, by simp [hr.size], trivial⟩, rfl, by simp [vals, hn], rfl, rfl,
      by simp, Heap.read_set_same _ hlt, ?_⟩
    intro b hb
    exact Heap.read_set_ne _ (fun e => hb (by simp [e]))

theorem Queue.dequeue_more {h : Heap} {Q : Queue} {a b : Nat} {rest : List Nat}
    (hr : Rep h Q (a :: b :: rest)) :
    ∃ r, Queue.dequeue h Q = .ok r ∧ DequeuePost h Q a (b :: rest) r := by
  have hf : Q.front = some a := hr.front
  have hnd := hr.nodup
  have hab : a ≠ b := fun e => by simp [e] at hnd
  have hre : Q.rear = some ((b :: rest).getLast (by simp)) := by
    rw [hr.rear, List.getLast?_cons_cons, List.getLast?_eq_getLast]
  have hne : Q.front ≠ Q.rear := by
    rw [hf, hre]
    intro e
    have hm : (b :: rest).getLast (by simp) ∈ b :: rest := List.getLast_mem _
    rw [← Option.some.inj e] at hm
    exact (List.nodup_cons.1 hnd).1 hm
  obtain ⟨⟨n, hn, hnx, -⟩, ⟨nb, hnb, hbx, -⟩, hrest⟩ := hr.links
  have hnx1 : n.next = some b := hnx
  have halt := Heap.read_lt hn
  have hblt := Heap.read_lt hnb
  let h1 : Heap := h.set b (some { nb with prev := none })
  have e1 : h1.read a = some n := by rw [Heap.read_set_ne _ (Ne.symm hab), hn]
  have e2 : ∀ c, c ≠ a → c ≠ b → Heap.read (h1.set a none) c = h.read c := by
    intro c hca hcb
    rw [Heap.read_set_ne _ (Ne.symm hca), Heap.read_set_ne _ (Ne.symm hcb)]
  have e3 : Heap.read (h1.set a none) b = some { nb with prev := none } := by
    rw [Heap.read_set_ne _ hab, Heap.read_set_same _ hblt]
  refine ⟨{ heap := h1.set a none, queue := { Q with front := some b, size := Q.size - 1 },
            value := n.data, printed := [] }, ?_, ?_⟩
  · simp [Queue.dequeue, Queue.isEmpty, hf, Heap.deref, Heap.free, Heap.update, hn, hnb, hnx1, e1,
      bind, Except.bind, pure, Except.pure, h1]
    intro e
    exact absurd (hf ▸ e) hne
  · have hfr : ∀ c ∈ rest, Heap.read (h1.set a none) c = h.read c := by
      intro c hc
      refine e2 c (fun e => ?_) (fun e => ?_)
      · subst e; simp [hc] at hnd
      · subst e; simp [hc] at hnd
    refine ⟨⟨(List.nodup_cons.1 hnd).2, rfl, ?_, ?_, ?_⟩, ?_, by simp [vals, hn], rfl, rfl,
      by simp [h1], ?_, ?_⟩
    · show Q.rear = _
      rw [hr.rear, List.getLast?_cons_cons]
    · simp [hr.size]
    · exact ⟨⟨_, e3, hbx, rfl⟩, hrest.frame hfr⟩
    · unfold vals
      apply List.map_congr_left
      intro c hc
      rcases List.mem_cons.1 hc with rfl | hc
      · rw [e3, hnb]
      · rw [hfr c hc]
    · exact Heap.read_set_same _ (by simp [h1]; exact halt)
    · intro c hc
      exact e2 c (fun e => hc (by simp [e])) (fun e => hc (by simp [e]))

theorem Queue.dequeue_spec {h : Heap} {Q : Queue} {a : Nat} {rest : List Nat}
    (hr : Rep h Q (a :: rest)) : ∃ r, Queue.dequeue h Q = .ok r ∧ DequeuePost h Q a rest r := by
  cases rest with
  | nil => exact Queue.dequeue_one hr
  | cons b rest => exact Queue.dequeue_more hr

/-! ### `search` -/

theorem vals_cons (h : Heap) (a : Nat) (as : List Nat) :
    vals h (a :: as) = vals h [a] ++ vals h as := rfl

theorem vals_cons_of_read {h : Heap} {a : Nat} {n : Node} (hn : h.read a = some n)
    (as : List Nat) : vals h (a :: as) = n.data :: vals h as := by
  simp [vals, hn]

theorem Queue.searchLoop_absent {h : Heap} {v : Int} : ∀ {as : List Nat} {p : Option Nat}
    (fuel : Nat) (pos : Nat), Links h p as → as.length ≤ fuel → v ∉ vals h as →
    Queue.searchLoop h v fuel as.head? pos = .ok { found := false, printed := Line.notFound v }
  | [], _, fuel, _, _, _, _ => by cases fuel <;> simp [Queue.searchLoop]
  | a :: rest, _, 0, _, _, hf, _ => by simp at hf
  | a :: rest, _, fuel + 1, pos, hl, hf, hv => by
    obtain ⟨⟨n, hn, hnx, -⟩, hrest⟩ := hl
    rw [vals_cons_of_read hn] at hv
    have hne : n.data ≠ v := fun e => hv (by simp [e])
    have ih := Queue.searchLoop_absent fuel (pos + 1) hrest (by simpa using hf)
      (fun hm => hv (List.mem_cons_of_mem _ hm))
    simp [Queue.searchLoop, Heap.deref, hn, hne, bind, Except.bind, hnx, ih]

theorem Queue.searchLoop_present {h : Heap} {v : Int} : ∀ {as : List Nat} {p : Option Nat}
    (fuel : Nat) (pos : Nat) (pre post : List Int), Links h p as → as.length ≤ fuel →
    vals h as = pre ++ v :: post → v ∉ pre →
    Queue.searchLoop h v fuel as.head? pos
      = .ok { found := true, printed := Line.found v (pos + pre.length) }
  | [], _, _, _, pre, post, _, _, hv, _ => by simp [vals] at hv
  | a :: rest, _, 0, _, _, _, _, hf, _, _ => by simp at hf
  | a :: rest, _, fuel + 1, pos, pre, post, hl, hf, hv, hpre => by
    obtain ⟨⟨n, hn, hnx, -⟩, hrest⟩ := hl
    rw [vals_cons_of_read hn] at hv
    cases pre with
    | nil =>
      have hd : n.data = v := by simpa using (List.cons.inj hv).1
      simp [Queue.searchLoop, Heap.deref, hn, hd, bind, Except.bind, pure, Except.pure]
    | cons x pre =>
      have hx : n.data = x := (List.cons.inj hv).1
      have hne : n.data ≠ v := by
        rw [hx]; intro e; exact hpre (by simp [e])
      have ih := Queue.searchLoop_present fuel (pos + 1) pre post hrest
        (by simpa using hf) (List.cons.inj hv).2 (fun hm => hpre (List.mem_cons_of_mem _ hm))
      simp [Queue.searchLoop, Heap.deref, hn, hne, bind, Except.bind, hnx, ih]
      omega

/-! ## One pass of the exchange loop on values -/

theorem bubble_length : ∀ (rest : List Int) (x : Int), (bubble x rest).1.length = rest.length + 1
  | [], x => rfl
  | y :: rest, x => by
    unfold bubble
    split <;> simp [bubble_length rest]

theorem bubble_perm : ∀ (rest : List Int) (x : Int), (bubble x rest).1.Perm (x :: rest)
  | [], x => List.Perm.refl _
  | y :: rest, x => by
    unfold bubble
    split
    · exact ((bubble_perm rest x).cons y).trans (List.Perm.swap x y rest)
    · exact (bubble_perm rest y).cons x

/-- After a pass the largest value is last. -/
theorem bubble_last : ∀ (rest : List Int) (x : Int),
    ∃ init m, (bubble x rest).1 = init ++ [m] ∧ x ≤ m ∧ ∀ y ∈ init, y ≤ m
  | [], x => ⟨[], x, rfl, le_refl _, by simp⟩
  | y :: rest, x => by
    unfold bubble
    split
    · rename_i hxy
      obtain ⟨init, m, e, hxm, hinit⟩ := bubble_last rest x
      refine ⟨y :: init, m, by simp [e], hxm, ?_⟩
      intro z hz
      rcases List.mem_cons.1 hz with rfl | hz
      · omega
      · exact hinit z hz
    · rename_i hxy
      obtain ⟨init, m, e, hym, hinit⟩ := bubble_last rest y
      refine ⟨x :: init, m, by simp [e], by omega, ?_⟩
      intro z hz
      rcases List.mem_cons.1 hz with rfl | hz
      · omega
      · exact hinit z hz

/-- A pass without exchange leaves the values as they were, and they were ascending. -/
theorem bubble_noswap : ∀ (rest : List Int) (x : Int), (bubble x rest).2 = false →
    (bubble x rest).1 = x :: rest ∧ List.Chain (· ≤ ·) x rest
  | [], x, _ => ⟨rfl, List.Chain.nil⟩
  | y :: rest, x, hf => by
    unfold bubble at hf ⊢
    split at hf
    · simp at hf
    · rename_i hxy
      obtain ⟨e, hc⟩ := bubble_noswap rest y hf
      rw [if_neg hxy]
      exact ⟨by simp [e], List.Chain.cons (by omega) hc⟩

theorem bubble_nil (x : Int) : bubble x [] = ([x], false) := rfl

/-! ## Specification of `sort` on one queue -/

theorem SameLinks.refl (h : Heap) : SameLinks h h := ⟨rfl, fun _ => rfl⟩

theorem SameLinks.trans {h h1 h2 : Heap} (a : SameLinks h h1) (b : SameLinks h1 h2) :
    SameLinks h h2 :=
  ⟨b.1.trans a.1, fun x => (b.2 x).trans (a.2 x)⟩

/-- Overwriting the value of a live node keeps all pointers. -/
theorem SameLinks.set_data {h : Heap} {a : Nat} {n : Node} (hn : h.read a = some n) (d : Int) :
    SameLinks h (h.set a (some { n with data := d })) := by
  refine ⟨by simp, fun b => ?_⟩
  by_cases hb : a = b
  · subst hb
    rw [Heap.read_set_same _ (Heap.read_lt hn), hn]
    rfl
  · rw [Heap.read_set_ne _ hb]

theorem SameLinks.links {h h1 : Heap} (s : SameLinks h h1) {as : List Nat} {p : Option Nat}
    (hl : Links h p as) : Links h1 p as :=
  hl.congr (fun a _ => s.2 a)

theorem bubble_cons_gt {x y : Int} (rest : List Int) (hxy : x > y) :
    bubble x (y :: rest) = (y :: (bubble x rest).1, true) := by
  rw [bubble, if_pos hxy]

theorem bubble_cons_le {x y : Int} (rest : List Int) (hxy : ¬ x > y) :
    bubble x (y :: rest) = (x :: (bubble y rest).1, (bubble y rest).2) := by
  rw [bubble, if_neg hxy]

theorem Queue.sortScan_stop {last : Option Nat} {h : Heap} {c : Nat} {n : Node} (sw : Bool)
    (fuel : Nat) (hn : h.read c = some n) (hnx : n.next = last) :
    Queue.sortScan last (fuel + 1) h (some c) sw = .ok (h, some c, sw) := by
  simp [Queue.sortScan, Heap.deref, hn, hnx, bind, Except.bind, pure, Except.pure]

theorem Queue.sortScan_keep {last : Option Nat} {h : Heap} {c b : Nat} {n nb : Node} (sw : Bool)
    (fuel : Nat) (hn : h.read c = some n) (hnx : n.next = some b) (hne : ¬ (some b = last))
    (hnb : h.read b = some nb) (hle : ¬ n.data > nb.data) :
    Queue.sortScan last (fuel + 1) h (some c) sw = Queue.sortScan last fuel h (some b) sw := by
  simp [Queue.sortScan, Heap.deref, hn, hnx, hne, hnb, hle, bind, Except.bind]

theorem Queue.sortScan_swap {last : Option Nat} {h : Heap} {c b : Nat} {n nb : Node} (sw : Bool)
    (fuel : Nat) (hn : h.read c = some n) (hnx : n.next = some b) (hne : ¬ (some b = last))
    (hnb : h.read b = some nb) (hcb : c ≠ b) (hgt : n.data > nb.data) :
    Queue.sortScan last (fuel + 1) h (some c) sw
      = Queue.sortScan last fuel
          ((h.set c (some { n with data := nb.data })).set b (some { nb with data := n.data }))
          (some b) true := by
  obtain ⟨d, nx, pv⟩ := n
  simp only at hnx hgt
  subst hnx
  have r1c : Heap.read (h.set c (some ⟨nb.data, some b, pv⟩)) c = some ⟨nb.data, some b, pv⟩ :=
    Heap.read_set_same _ (Heap.read_lt hn)
  have r1b : Heap.read (h.set c (some ⟨nb.data, some b, pv⟩)) b = some nb := by
    rw [Heap.read_set_ne _ hcb, hnb]
  have r2c : Heap.read ((h.set c (some ⟨nb.data, some b, pv⟩)).set b
      (some ⟨d, nb.next, nb.prev⟩)) c = some ⟨nb.data, some b, pv⟩ := by
    rw [Heap.read_set_ne _ (Ne.symm hcb), r1c]
  simp [Queue.sortScan, Heap.deref, Heap.update, hn, hne, hnb, hgt, r1c, r1b, r2c, bind,
    Except.bind]

theorem Queue.sortScan_spec (last : Option Nat) : ∀ (seg : List Nat) (c : Nat) (tail : List Nat)
    (h : Heap) (p : Option Nat) (sw : Bool) (fuel : Nat) (n : Node),
    Links h p (c :: seg ++ tail) → (c :: seg ++ tail).Nodup → last = tail.head? →
    seg.length + 1 ≤ fuel → h.read c = some n →
    ∃ h1, Queue.sortScan last fuel h (some c) sw
        = .ok (h1, (c :: seg).getLast?, sw || (bubble n.data (vals h seg)).2) ∧
      SameLinks h h1 ∧ (∀ b, b ∉ c :: seg → h1.read b = h.read b) ∧
      vals h1 (c :: seg) = (bubble n.data (vals h seg)).1
  | _, _, _, _, _, _, 0, _, _, _, _, hf, _ => by simp at hf
  | [], c, tail, h, p, sw, fuel + 1, n, hl, _, hlast, _, hn => by
    obtain ⟨⟨n1, hn1, hnx, -⟩, -⟩ := hl
    rw [hn] at hn1
    cases hn1
    have hnx1 : n.next = last := by rw [hlast]; simpa using hnx
    refine ⟨h, ?_, SameLinks.refl h, fun _ _ => rfl, by simp [vals, hn, bubble]⟩
    rw [Queue.sortScan_stop sw fuel hn hnx1]
    simp [vals, bubble]
  | b :: seg, c, tail, h, p, sw, fuel + 1, n, hl, hnd, hlast, hf, hn => by
    obtain ⟨⟨n1, hn1, hnx, -⟩, hrest⟩ := hl
    rw [hn] at hn1
    cases hn1
    have hnx1 : n.next = some b := by simpa using hnx
    have hrest1 := hrest
    obtain ⟨⟨nb, hnb, -, -⟩, -⟩ := hrest1
    have hcb : c ≠ b := fun e => by simp [e] at hnd
    have hnd1 : (b :: seg ++ tail).Nodup := (List.nodup_cons.1 hnd).2
    have hcseg : c ∉ b :: seg := fun hm =>
      (List.nodup_cons.1 hnd).1 (List.mem_append_left tail hm)
    have hne : ¬ (some b = last) := by
      rw [hlast]
      cases tail with
      | nil => simp
      | cons t tail =>
        intro e
        have : b = t := by simpa using e
        subst this
        simp at hnd1
    have hf1 : seg.length + 1 ≤ fuel := by simpa using hf
    have hlast2 : (c :: b :: seg).getLast? = (b :: seg).getLast? := List.getLast?_cons_cons
    rw [hlast2, vals_cons_of_read hnb]
    by_cases hgt : n.data > nb.data
    · -- exchange
      let h1 : Heap := h.set c (some { n with data := nb.data })
      let h2 : Heap := h1.set b (some { nb with data := n.data })
      have r1c : h1.read c = some { n with data := nb.data } :=
        Heap.read_set_same _ (Heap.read_lt hn)
      have r1b : h1.read b = some nb := by rw [Heap.read_set_ne _ hcb, hnb]
      have r2b : h2.read b = some { nb with data := n.data } :=
        Heap.read_set_same _ (Heap.read_lt r1b)
      have r2c : h2.read c = some { n with data := nb.data } := by
        rw [Heap.read_set_ne _ (Ne.symm hcb), r1c]
      have s2 : SameLinks h h2 := (SameLinks.set_data hn _).trans (SameLinks.set_data r1b _)
      have fr2 : ∀ x, x ≠ c → x ≠ b → h2.read x = h.read x := by
        intro x hxc hxb
        rw [Heap.read_set_ne _ (Ne.symm hxb), Heap.read_set_ne _ (Ne.symm hxc)]
      obtain ⟨h3, hrun, s3, fr3, hv3⟩ := Queue.sortScan_spec last seg b tail h2 (some c)
        true fuel _ (s2.links hrest) hnd1 hlast hf1 r2b
      have hv2 : vals h2 seg = vals h seg := by
        apply vals_frame
        intro x hx
        refine fr2 x (fun e => ?_) (fun e => ?_)
        · subst e; simp [hx] at hnd
        · subst e; simp [hx] at hnd1
      rw [hv2] at hrun hv3
      have r3c : h3.read c = some { n with data := nb.data } := by
        rw [fr3 c hcseg, r2c]
      refine ⟨h3, ?_, s2.trans s3, ?_, ?_⟩
      · rw [Queue.sortScan_swap sw fuel hn hnx1 hne hnb hcb hgt, bubble_cons_gt _ hgt, hrun]
        simp
      · intro x hx
        have hxc : x ≠ c := fun e => hx (by simp [e])
        have hxb : x ≠ b := fun e => hx (by simp [e])
        rw [fr3 x (fun hm => hx (List.mem_cons_of_mem _ hm)), fr2 x hxc hxb]
      · rw [vals_cons_of_read r3c, hv3, bubble_cons_gt _ hgt]
    · -- no exchange
      obtain ⟨h3, hrun, s3, fr3, hv3⟩ := Queue.sortScan_spec last seg b tail h (some c)
        sw fuel _ hrest hnd1 hlast hf1 hnb
      have r3c : h3.read c = some n := by
        rw [fr3 c hcseg, hn]
      refine ⟨h3, ?_, s3, ?_, ?_⟩
      · rw [Queue.sortScan_keep sw fuel hn hnx1 hne hnb hgt, bubble_cons_le _ hgt, hrun]
      · intro x hx
        exact fr3 x (fun hm => hx (List.mem_cons_of_mem _ hm))
      · rw [vals_cons_of_read r3c, hv3, bubble_cons_le _ hgt]

theorem vals_append (h : Heap) (as bs : List Nat) :
    vals h (as ++ bs) = vals h as ++ vals h bs := by
  simp [vals]

/-- One pass of the outer loop of `sort` over the unsorted part `c :: seg`. -/
theorem Queue.sortPass_spec {h : Heap} {c : Nat} {seg tail : List Nat} {fuel : Nat}
    (hl : Links h none (c :: seg ++ tail)) (hnd : (c :: seg ++ tail).Nodup)
    (hf : seg.length + 1 ≤ fuel) :
    ∃ h1 sw, Queue.sortScan tail.head? fuel h (some c) false = .ok (h1, (c :: seg).getLast?, sw) ∧
      SameLinks h h1 ∧ (∀ b, b ∉ c :: seg → h1.read b = h.read b) ∧
      (vals h1 (c :: seg)).Perm (vals h (c :: seg)) ∧
      (∃ init m, vals h1 (c :: seg) = init ++ [m] ∧ ∀ y ∈ init, y ≤ m) ∧
      (sw = false → (vals h1 (c :: seg)).Sorted (· ≤ ·)) ∧
      (sw = true → seg ≠ []) := by
  obtain ⟨n, hn⟩ := hl.live c (by simp)
  obtain ⟨h1, hrun, s1, fr1, hv1⟩ :=
    Queue.sortScan_spec tail.head? seg c tail h none false fuel n hl hnd rfl hf hn
  refine ⟨h1, _, hrun, s1, fr1, ?_, ?_, ?_, ?_⟩
  · rw [hv1, vals_cons_of_read hn]
    exact bubble_perm _ _
  · obtain ⟨init, m, e, -, hi⟩ := bubble_last (vals h seg) n.data
    exact ⟨init, m, by rw [hv1, e], hi⟩
  · intro hsw
    have hsw1 : (bubble n.data (vals h seg)).2 = false := by simpa using hsw
    obtain ⟨e, hc⟩ := bubble_noswap _ _ hsw1
    rw [hv1, e]
    exact List.chain_iff_pairwise.1 hc
  · intro hsw hseg
    subst hseg
    simp [vals, bubble] at hsw

theorem Queue.sortLoop_spec (fuel : Nat) (as : List Nat) : ∀ (passes : Nat) (seg tail : List Nat)
    (h : Heap), as = seg ++ tail → seg ≠ [] → Links h none as → as.Nodup →
    (vals h tail).Sorted (· ≤ ·) → (∀ x ∈ vals h seg, ∀ y ∈ vals h tail, x ≤ y) →
    seg.length ≤ passes → seg.length ≤ fuel →
    ∃ h1, Queue.sortLoop fuel as.head? passes h tail.head? = .ok h1 ∧ SameLinks h h1 ∧
      (∀ b, b ∉ as → h1.read b = h.read b) ∧ (vals h1 as).Sorted (· ≤ ·) ∧
      (vals h1 as).Perm (vals h as)
  | 0, seg, _, _, _, hne, _, _, _, _, hp, _ => by
    cases seg with
    | nil => exact absurd rfl hne
    | cons c seg => simp at hp
  | passes + 1, [], _, _, _, hne, _, _, _, _, _, _ => absurd rfl hne
  | passes + 1, c :: seg, tail, h, has, _, hl, hnd, hst, hcross, hp, hf => by
    subst has
    obtain ⟨h1, sw, hrun, s1, fr1, hperm, ⟨init, m, hinit, hmax⟩, hsorted, hswap⟩ :=
      Queue.sortPass_spec hl hnd (by simpa using hf)
    have hdisj : ∀ b ∈ tail, b ∉ c :: seg := by
      intro b hb hm
      exact (List.nodup_append.1 hnd).2.2 hm hb
    have hvt : vals h1 tail = vals h tail := vals_frame (fun b hb => fr1 b (hdisj b hb))
    have hperm_all : (vals h1 (c :: seg ++ tail)).Perm (vals h (c :: seg ++ tail)) := by
      rw [vals_append, vals_append, hvt]
      exact hperm.append_right _
    have hfr_all : ∀ b, b ∉ c :: seg ++ tail → h1.read b = h.read b := fun b hb =>
      fr1 b (fun hm => hb (List.mem_append_left _ hm))
    have hhead : (c :: seg ++ tail).head? = some c := rfl
    cases sw with
    | false =>
      refine ⟨h1, ?_, s1, hfr_all, ?_, hperm_all⟩
      · rw [hhead, Queue.sortLoop]
        simp [hrun, bind, Except.bind, pure, Except.pure]
      · rw [vals_append, hvt]
        refine List.pairwise_append.2 ⟨hsorted rfl, hst, ?_⟩
        intro x hx y hy
        exact hcross x ((hperm.mem_iff).1 hx) y hy
    | true =>
      have hseg : seg ≠ [] := hswap rfl
      rcases List.eq_nil_or_concat (c :: seg) with hnil | ⟨seg1, r, hcat⟩
      · simp at hnil
      rw [List.concat_eq_append] at hcat
      have hseg1 : seg1 ≠ [] := by
        intro e
        subst e
        have := congrArg List.length hcat
        simp at this
        exact hseg this
      have hlen1 : seg1.length = seg.length := by
        have := congrArg List.length hcat
        simp at this
        omega
      have has1 : c :: seg ++ tail = seg1 ++ (r :: tail) := by
        rw [hcat]; simp
      have hlastr : (c :: seg).getLast? = some r := by rw [hcat]; simp
      rw [hcat, vals_append] at hinit
      have hsplit : vals h1 seg1 = init ∧ vals h1 [r] = [m] :=
        List.append_inj' hinit (by simp [vals])
      have hmem_seg : ∀ x ∈ vals h1 (seg1 ++ [r]), ∀ y ∈ vals h tail, x ≤ y := by
        intro x hx y hy
        rw [← hcat] at hx
        exact hcross x ((hperm.mem_iff).1 hx) y hy
      have hst1 : (vals h1 (r :: tail)).Sorted (· ≤ ·) := by
        rw [vals_cons, hvt, hsplit.2]
        refine List.pairwise_cons.2 ⟨?_, hst⟩
        intro y hy
        refine hmem_seg m ?_ y hy
        rw [vals_append, hsplit.2]
        simp
      have hcross1 : ∀ x ∈ vals h1 seg1, ∀ y ∈ vals h1 (r :: tail), x ≤ y := by
        intro x hx y hy
        rw [vals_cons, hvt, hsplit.2] at hy
        rcases List.mem_cons.1 hy with rfl | hy
        · exact hmax x (hsplit.1 ▸ hx)
        · refine hmem_seg x ?_ y hy
          rw [vals_append]
          exact List.mem_append_left _ hx
      obtain ⟨h2, hrun2, s2, fr2, hsorted2, hperm2⟩ :=
        Queue.sortLoop_spec fuel (c :: seg ++ tail) passes seg1 (r :: tail) h1 has1
          hseg1 (s1.links hl) hnd hst1 hcross1 (by simp at hp; omega) (by simp at hf; omega)
      refine ⟨h2, ?_, s1.trans s2, ?_, hsorted2, hperm2.trans hperm_all⟩
      · rw [hhead, Queue.sortLoop]
        simp only [hrun, bind, Except.bind, hlastr]
        simpa [hhead] using hrun2
      · intro b hb
        rw [fr2 b hb, hfr_all b hb]

theorem Queue.sort_spec {h : Heap} {Q : Queue} {as : List Nat} {fuel : Nat} (hr : Rep h Q as)
    (hf : as.length ≤ fuel) :
    ∃ h1, Queue.sort fuel h Q = .ok h1 ∧ SameLinks h h1 ∧ (∀ b, b ∉ as → h1.read b = h.read b) ∧
      (vals h1 as).Sorted (· ≤ ·) ∧ (vals h1 as).Perm (vals h as) := by
  by_cases hguard : (Q.isEmpty || Q.size == 1) = true
  · refine ⟨h, by simp [Queue.sort, hguard], SameLinks.refl h, fun _ _ => rfl, ?_, List.Perm.refl _⟩
    have hlen : as.length ≤ 1 := by
      rcases Bool.or_eq_true _ _ ▸ hguard with he | hs
      · have : as.head? = none := by
          rw [← hr.front]; simpa [Queue.isEmpty] using he
        cases as with
        | nil => simp
        | cons a as => simp at this
      · have h1 : Q.size = 1 := by simpa using hs
        have := hr.size
        omega
    have hlen2 : (vals h as).length ≤ 1 := by rw [vals_length]; exact hlen
    match hv : vals h as, hlen2 with
    | [], _ => exact List.sorted_nil
    | [x], _ => exact List.sorted_singleton x
  · have hne : as ≠ [] := by
      intro e
      subst e
      have : Q.front = none := hr.front
      simp [Queue.isEmpty, this] at hguard
    obtain ⟨h1, hrun, rest⟩ := Queue.sortLoop_spec fuel as fuel as [] h
      (by simp) hne hr.links hr.nodup (by simp [vals]) (by simp [vals]) hf hf
    refine ⟨h1, ?_, rest⟩
    rw [Queue.sort, if_neg hguard, hr.front]
    exact hrun

/-! ## Worlds described by an ownership map -/

theorem Rep.frame_heap {h h1 : Heap} {Q : Queue} {as : List Nat} (hr : Rep h Q as)
    (hs : ∀ a ∈ as, h1.read a = h.read a) : Rep h1 Q as :=
  ⟨hr.nodup, hr.front, hr.rear, hr.size, hr.links.frame hs⟩

theorem World.queue_ok {w : World} {q : Nat} {Q : Queue} (hq : w.queues[q]? = some Q) :
    w.queue q = .ok Q := by
  simp [World.queue, hq]

theorem World.queue_of_ok {w : World} {q : Nat} {Q : Queue} (hq : w.queue q = .ok Q) :
    w.queues[q]? = some Q := by
  unfold World.queue at hq
  split at hq
  · cases hq
  · rename_i Q1 e
    cases hq
    exact e

theorem World.lt_of_queue {w : World} {q : Nat} {Q : Queue} (hq : w.queues[q]? = some Q) :
    q < w.queues.length := by
  by_contra hge
  rw [List.getElem?_eq_none (by omega)] at hq
  cases hq

theorem Owns.lt_heap {w : World} {owns : Nat → List Nat} (ho : Owns w owns) {i : Nat} {Q : Queue}
    (hq : w.queues[i]? = some Q) : ∀ a ∈ owns i, a < w.heap.length :=
  (ho.rep i Q hq).links.lt

theorem Owns.contents_eq {w : World} {owns : Nat → List Nat} (ho : Owns w owns) {q : Nat} {Q : Queue}
    (hq : w.queues[q]? = some Q) : contents w q = some (vals w.heap (owns q)) := by
  have hr := ho.rep q Q hq
  unfold contents
  rw [hq]
  show walk w.heap w.heap.length Q.front = _
  rw [hr.front]
  exact walk_links hr.links (hr.links.length_le hr.nodup)

theorem Owns.init : Owns World.init (fun _ => []) :=
  ⟨fun i Q hq => by simp [World.init] at hq, fun i j hi => by simp [World.init] at hi,
   fun a n hn => by simp [World.init, Heap.read] at hn⟩

theorem Owns.newQueue {w : World} {owns : Nat → List Nat} (ho : Owns w owns) :
    Owns w.newQueue (Function.update owns w.queues.length []) := by
  refine ⟨?_, ?_, ?_⟩
  · intro i Q hq
    by_cases hi : i = w.queues.length
    · subst hi
      have : Q = Queue.new := by simpa [World.newQueue] using hq.symm
      subst this
      rw [Function.update_same]
      exact ⟨List.nodup_nil, rfl, rfl, rfl, trivial⟩
    · rw [Function.update_noteq hi]
      have hlt : i < w.queues.length := by
        have := World.lt_of_queue hq
        simp [World.newQueue] at this
        omega
      have : w.queues[i]? = some Q := by
        simpa [World.newQueue, List.getElem?_append_left hlt] using hq
      exact ho.rep i Q this
  · intro i j hi hj hij
    simp [World.newQueue] at hi hj
    by_cases hi1 : i = w.queues.length
    · rw [hi1, Function.update_same]; exact List.disjoint_nil_left _
    · by_cases hj1 : j = w.queues.length
      · rw [hj1, Function.update_same]; exact List.disjoint_nil_right _
      · rw [Function.update_noteq hi1, Function.update_noteq hj1]
        exact ho.disjoint i j (by omega) (by omega) hij
  · intro a n hn
    obtain ⟨i, hi, ha⟩ := ho.covered a n hn
    refine ⟨i, by simp [World.newQueue]; omega, ?_⟩
    rw [Function.update_noteq (Nat.ne_of_lt hi)]
    exact ha

/-- A call on queue `q` that only touches nodes of `q` and fresh cells keeps the world
described by an ownership map. -/
theorem Owns.step {w : World} {owns : Nat → List Nat} {q : Nat} (ho : Owns w owns)
    (hq : q < w.queues.length) {h1 : Heap} {qs1 : List Queue} {Q1 : Queue} {as1 : List Nat}
    (hlen : qs1.length = w.queues.length) (hq1 : qs1[q]? = some Q1)
    (hother : ∀ i, i ≠ q → qs1[i]? = w.queues[i]?)
    (hrep : Rep h1 Q1 as1)
    (hframe : ∀ b, b ∉ owns q → b < w.heap.length → h1.read b = w.heap.read b)
    (hnew : ∀ a ∈ as1, a ∈ owns q ∨ w.heap.length ≤ a)
    (hcov : ∀ a n, h1.read a = some n → a ∈ as1 ∨ (a ∉ owns q ∧ a < w.heap.length)) :
    Owns { heap := h1, queues := qs1 } (Function.update owns q as1) := by
  have hdis : ∀ j, j < w.queues.length → j ≠ q → List.Disjoint as1 (owns j) := by
    intro j hj hjq a ha1 haj
    obtain ⟨Qj, hQj⟩ : ∃ Qj, w.queues[j]? = some Qj := ⟨_, List.getElem?_eq_getElem hj⟩
    rcases hnew a ha1 with ha | ha
    · exact ho.disjoint q j hq hj (Ne.symm hjq) ha haj
    · have := ho.lt_heap hQj a haj
      omega
  refine ⟨?_, ?_, ?_⟩
  · intro i Q hi
    by_cases hiq : i = q
    · subst hiq
      rw [Function.update_same]
      have : Q = Q1 := by
        have hi1 : qs1[i]? = some Q := hi
        rw [hq1] at hi1
        exact (Option.some.inj hi1).symm
      subst this
      exact hrep
    · rw [Function.update_noteq hiq]
      have hi1 : w.queues[i]? = some Q := by
        rw [← hother i hiq]; exact hi
      refine (ho.rep i Q hi1).frame_heap ?_
      intro a ha
      exact hframe a (fun hm => ho.disjoint i q (World.lt_of_queue hi1) hq hiq ha hm)
        (ho.lt_heap hi1 a ha)
  · intro i j hi hj hij
    have hi1 : i < w.queues.length := by simpa [hlen] using hi
    have hj1 : j < w.queues.length := by simpa [hlen] using hj
    by_cases hiq : i = q
    · subst hiq
      rw [Function.update_same, Function.update_noteq (Ne.symm hij)]
      exact hdis j hj1 (Ne.symm hij)
    · by_cases hjq : j = q
      · subst hjq
        rw [Function.update_same, Function.update_noteq hiq]
        exact (hdis i hi1 hiq).symm
      · rw [Function.update_noteq hiq, Function.update_noteq hjq]
        exact ho.disjoint i j hi1 hj1 hij
  · intro a n hn
    rcases hcov a n hn with ha | ⟨ha, hlt⟩
    · exact ⟨q, by simpa [hlen] using hq, by rw [Function.update_same]; exact ha⟩
    · have hn1 : w.heap.read a = some n := by rw [← hframe a ha hlt]; exact hn
      obtain ⟨i, hi, hai⟩ := ho.covered a n hn1
      have hiq : i ≠ q := fun e => ha (e ▸ hai)
      exact ⟨i, by simpa [hlen] using hi, by rw [Function.update_noteq hiq]; exact hai⟩

theorem getElem?_set_other {qs : List Queue} {q : Nat} (Q1 : Queue) :
    ∀ i, i ≠ q → (qs.set q Q1)[i]? = qs[i]? :=
  fun _ hi => List.getElem?_set_ne (Ne.symm hi)

theorem getElem?_set_this {qs : List Queue} {q : Nat} (Q1 : Queue) (hq : q < qs.length) :
    (qs.set q Q1)[q]? = some Q1 := by
  simp [hq]

/-! ### `enqueue`, `dequeue` and `sort` in a world -/

theorem enqueue_owns {w : World} {owns : Nat → List Nat} {q : Nat} {Q : Queue}
    (ho : Owns w owns) (hq : w.queues[q]? = some Q) (v : Int) :
    ∃ h1 Q1, enqueue w q v = .ok { heap := h1, queues := w.queues.set q Q1 } ∧
      EnqueuePost w.heap Q (owns q) v h1 Q1 ∧
      Owns { heap := h1, queues := w.queues.set q Q1 }
        (Function.update owns q (owns q ++ [w.heap.length])) := by
  obtain ⟨h1, Q1, hrun, hpost⟩ := Queue.enqueue_spec (ho.rep q Q hq) v
  have hpost1 := hpost
  obtain ⟨hrep, -, -, hlen, hfr⟩ := hpost1
  have hqlt := World.lt_of_queue hq
  refine ⟨h1, Q1, ?_, hpost, ?_⟩
  · simp [enqueue, World.queue_ok hq, hrun, bind, Except.bind, pure, Except.pure]
  · refine ho.step hqlt (by simp) (getElem?_set_this Q1 hqlt) (getElem?_set_other Q1) hrep ?_ ?_ ?_
    · intro b hb hlt
      exact hfr b hb (Nat.ne_of_lt hlt)
    · intro a ha
      rcases List.mem_append.1 ha with ha | ha
      · exact Or.inl ha
      · right
        have : a = w.heap.length := by simpa using ha
        omega
    · intro a n hn
      by_cases ha : a ∈ owns q ++ [w.heap.length]
      · exact Or.inl ha
      · right
        have ha1 : a ∉ owns q := fun hm => ha (List.mem_append_left _ hm)
        have ha2 : a ≠ w.heap.length := fun e => ha (by simp [e])
        refine ⟨ha1, ?_⟩
        rw [hfr a ha1 ha2] at hn
        exact Heap.read_lt hn

theorem dequeue_owns {w : World} {owns : Nat → List Nat} {q : Nat} {Q : Queue} {a : Nat}
    {rest : List Nat} (ho : Owns w owns) (hq : w.queues[q]? = some Q) (has : owns q = a :: rest) :
    ∃ r, dequeue w q = .ok { world := { heap := r.heap, queues := w.queues.set q r.queue },
                             value := r.value, printed := r.printed } ∧
      DequeuePost w.heap Q a rest r ∧
      Owns { heap := r.heap, queues := w.queues.set q r.queue } (Function.update owns q rest) := by
  have hrep0 := ho.rep q Q hq
  rw [has] at hrep0
  obtain ⟨r, hrun, hpost⟩ := Queue.dequeue_spec hrep0
  have hpost1 := hpost
  obtain ⟨hrep, -, -, -, -, hlen, hdead, hfr⟩ := hpost1
  have hqlt := World.lt_of_queue hq
  refine ⟨r, ?_, hpost, ?_⟩
  · simp [dequeue, World.queue_ok hq, hrun, bind, Except.bind, pure, Except.pure]
  · refine ho.step hqlt (by simp) (getElem?_set_this _ hqlt) (getElem?_set_other _) hrep ?_ ?_ ?_
    · intro b hb _
      rw [has] at hb
      exact hfr b hb
    · intro b hb
      left
      rw [has]
      exact List.mem_cons_of_mem _ hb
    · intro b n hn
      by_cases hb : b ∈ rest
      · exact Or.inl hb
      · right
        have hba : b ≠ a := by
          intro e
          subst e
          rw [hdead] at hn
          cases hn
        have hb1 : b ∉ a :: rest := by
          intro hm
          rcases List.mem_cons.1 hm with e | hm
          · exact hba e
          · exact hb hm
        refine ⟨by rw [has]; exact hb1, ?_⟩
        rw [hfr b hb1] at hn
        exact Heap.read_lt hn

theorem sort_owns {w : World} {owns : Nat → List Nat} {q : Nat} {Q : Queue} {fuel : Nat}
    (ho : Owns w owns) (hq : w.queues[q]? = some Q) (hf : (owns q).length ≤ fuel) :
    ∃ h1, sort fuel w q = .ok { w with heap := h1 } ∧ Owns { w with heap := h1 } owns ∧
      SameLinks w.heap h1 ∧ (∀ b, b ∉ owns q → h1.read b = w.heap.read b) ∧
      (vals h1 (owns q)).Sorted (· ≤ ·) ∧ (vals h1 (owns q)).Perm (vals w.heap (owns q)) := by
  obtain ⟨h1, hrun, hs, hfr, hsorted, hperm⟩ := Queue.sort_spec (ho.rep q Q hq) hf
  refine ⟨h1, ?_, ?_, hs, hfr, hsorted, hperm⟩
  · simp [sort, World.queue_ok hq, hrun, bind, Except.bind, pure, Except.pure]
  · refine ⟨?_, ho.disjoint, ?_⟩
    · intro i Qi hi
      have hr := ho.rep i Qi hi
      exact ⟨hr.nodup, hr.front, hr.rear, hr.size, hs.links hr.links⟩
    · intro a n hn
      have := hs.2 a
      rw [hn] at this
      cases hr : w.heap.read a with
      | none => simp [hr] at this
      | some m => exact ho.covered a m hr

/-! ### `merge` in a world -/

theorem mergeCopy_spec {self other : Nat} (hne : self ≠ other) : ∀ (rem : List Nat) (w : World)
    (owns : Nat → List Nat) (p : Option Nat) (fuel : Nat) (S O : Queue),
    Owns w owns → w.queues[self]? = some S → w.queues[other]? = some O →
    Links w.heap p rem → (∀ a ∈ rem, a ∈ owns other) → rem.length ≤ fuel →
    ∃ w1 owns1 S1, mergeCopy self fuel w rem.head? = .ok w1 ∧ Owns w1 owns1 ∧
      (∀ i, i ≠ self → owns1 i = owns i) ∧
      vals w1.heap (owns1 self) = vals w.heap (owns self) ++ vals w.heap rem ∧
      (∀ i, i ≠ self → w1.queues[i]? = w.queues[i]?) ∧
      w1.queues[self]? = some S1 ∧ S1.size = S.size + rem.length ∧
      (∀ b, b ∉ owns self → b < w.heap.length → w1.heap.read b = w.heap.read b) ∧
      w.heap.length ≤ w1.heap.length
  | [], w, owns, _, fuel, S, _, ho, hS, _, _, _, _ => by
    refine ⟨w, owns, S, ?_, ho, fun _ _ => rfl, by simp [vals], fun _ _ => rfl, hS, by simp,
      fun _ _ _ => rfl, le_refl _⟩
    cases fuel <;> simp [mergeCopy]
  | a :: rem, w, owns, _, 0, _, _, _, _, _, _, _, hf => by simp at hf
  | a :: rem, w, owns, p, fuel + 1, S, O, ho, hS, hO, hl, hmem, hf => by
    obtain ⟨⟨n, hn, hnx, -⟩, hrest⟩ := hl
    obtain ⟨h1, Q1, hrun, ⟨hrep1, hv1, hsz1, hlen1, hfr1⟩, ho1⟩ := enqueue_owns ho hS n.data
    have hSlt := World.lt_of_queue hS
    have hOlt := World.lt_of_queue hO
    have hother : ∀ b, b ∈ owns other → h1.read b = w.heap.read b := by
      intro b hb
      exact hfr1 b (fun hm => ho.disjoint self other hSlt hOlt hne hm hb)
        (Nat.ne_of_lt (ho.lt_heap hO b hb))
    have hn1 : h1.read a = some n := by
      rw [hother a (hmem a (List.mem_cons_self _ _)), hn]
    have hmem1 : ∀ b ∈ rem, b ∈ Function.update owns self (owns self ++ [w.heap.length]) other := by
      intro b hb
      rw [Function.update_noteq (Ne.symm hne)]
      exact hmem b (List.mem_cons_of_mem _ hb)
    have hrest1 : Links h1 (some a) rem :=
      hrest.frame (fun b hb => hother b (hmem b (List.mem_cons_of_mem _ hb)))
    obtain ⟨w2, owns2, S2, hrun2, ho2, hsame2, hv2, hq2, hS2, hsz2, hfr2, hlen2⟩ :=
      mergeCopy_spec hne rem { heap := h1, queues := w.queues.set self Q1 } _ (some a) fuel Q1 O
        ho1 (getElem?_set_this Q1 hSlt) (by rw [getElem?_set_other Q1 other (Ne.symm hne)]; exact hO)
        hrest1 hmem1 (by simpa using hf)
    refine ⟨w2, owns2, S2, ?_, ho2, ?_, ?_, ?_, hS2, ?_, ?_, ?_⟩
    · simp only [List.head?_cons, mergeCopy, Heap.deref, hn, bind, Except.bind, hrun, hn1]
      rw [hnx]
      exact hrun2
    · intro i hi
      rw [hsame2 i hi, Function.update_noteq hi]
    · rw [hv2, Function.update_same]
      show vals h1 _ ++ vals h1 rem = _
      rw [hv1, vals_cons_of_read hn,
        vals_frame (fun b hb => hother b (hmem b (List.mem_cons_of_mem _ hb)))]
      simp
    · intro i hi
      rw [hq2 i hi]
      exact getElem?_set_other Q1 i hi
    · rw [hsz2, hsz1]
      simp
      ring
    · intro b hb hlt
      have hb1 : b ∉ Function.update owns self (owns self ++ [w.heap.length]) self := by
        rw [Function.update_same]
        intro hm
        rcases List.mem_append.1 hm with hm | hm
        · exact hb hm
        · have : b = w.heap.length := by simpa using hm
          omega
      have : h1.length = w.heap.length + 1 := hlen1
      rw [hfr2 b hb1 (by show b < h1.length; omega)]
      exact hfr1 b hb (Nat.ne_of_lt hlt)
    · have : h1.length = w.heap.length + 1 := hlen1
      have : h1.length ≤ w2.heap.length := hlen2
      omega

theorem mergeDrain_spec {other : Nat} : ∀ (as : List Nat) (w : World) (owns : Nat → List Nat)
    (fuel : Nat) (O : Queue), Owns w owns → w.queues[other]? = some O → owns other = as →
    as.length ≤ fuel →
    ∃ w1, mergeDrain other fuel w = .ok w1 ∧ Owns w1 (Function.update owns other []) ∧
      (∀ i, i ≠ other → w1.queues[i]? = w.queues[i]?) ∧
      w1.queues.length = w.queues.length ∧
      (∀ b, b ∉ as → w1.heap.read b = w.heap.read b)
  | [], w, owns, fuel, O, ho, hO, has, _ => by
    have hf : O.front = none := by
      have := (ho.rep other O hO).front
      rw [has] at this
      exact this
    refine ⟨w, ?_, ?_, fun _ _ => rfl, rfl, fun _ _ => rfl⟩
    · unfold mergeDrain
      simp [World.queue_ok hO, Queue.isEmpty, hf, bind, Except.bind, pure, Except.pure]
    · rw [← has, Function.update_eq_self]
      exact ho
  | a :: rest, w, owns, 0, _, _, _, _, hf => by simp at hf
  | a :: rest, w, owns, fuel + 1, O, ho, hO, has, hf => by
    have hfront : O.front = some a := by
      have := (ho.rep other O hO).front
      rw [has] at this
      exact this
    obtain ⟨r, hrun, ⟨-, -, -, -, -, -, -, hfr⟩, ho1⟩ := dequeue_owns ho hO has
    have hOlt := World.lt_of_queue hO
    obtain ⟨w2, hrun2, ho2, hq2, hlen2, hfr2⟩ :=
      mergeDrain_spec rest { heap := r.heap, queues := w.queues.set other r.queue } _ fuel r.queue
        ho1 (getElem?_set_this _ hOlt) (Function.update_same _ _ _) (by simpa using hf)
    refine ⟨w2, ?_, ?_, ?_, ?_, ?_⟩
    · unfold mergeDrain
      simp only [World.queue_ok hO, Queue.isEmpty, hfront, bind, Except.bind, hrun]
      simpa using hrun2
    · rw [Function.update_idem] at ho2
      exact ho2
    · intro i hi
      rw [hq2 i hi]
      exact getElem?_set_other _ i hi
    · rw [hlen2]
      simp
    · intro b hb
      rw [hfr2 b (fun hm => hb (List.mem_cons_of_mem _ hm))]
      exact hfr b hb

theorem merge_owns {w : World} {owns : Nat → List Nat} {self other : Nat} {S O : Queue}
    {fuel : Nat} (hne : self ≠ other) (ho : Owns w owns) (hS : w.queues[self]? = some S)
    (hO : w.queues[other]? = some O) (hf : (owns other).length ≤ fuel) :
    ∃ w1 owns1 S1, merge fuel w self other = .ok w1 ∧ Owns w1 owns1 ∧ owns1 other = [] ∧
      (∀ i, i ≠ self → i ≠ other → owns1 i = owns i) ∧
      vals w1.heap (owns1 self) = vals w.heap (owns self) ++ vals w.heap (owns other) ∧
      w1.queues[self]? = some S1 ∧ S1.size = S.size + (owns other).length ∧
      (∀ i, i ≠ self → i ≠ other → w1.queues[i]? = w.queues[i]?) ∧
      w1.queues.length = w.queues.length ∧
      (∀ b, b ∉ owns self → b ∉ owns other → b < w.heap.length →
        w1.heap.read b = w.heap.read b) := by
  have hrO := ho.rep other O hO
  by_cases hemp : O.isEmpty = true
  · have hnil : owns other = [] := by
      have : (owns other).head? = none := by
        rw [← hrO.front]; simpa [Queue.isEmpty] using hemp
      cases hoo : owns other with
      | nil => rfl
      | cons a as => simp [hoo] at this
    refine ⟨w, owns, S, ?_, ho, hnil, fun _ _ _ => rfl, by simp [hnil, vals], hS, by simp [hnil],
      fun _ _ _ => rfl, rfl, fun _ _ _ _ => rfl⟩
    simp [merge, World.queue_ok hO, hemp, bind, Except.bind, pure, Except.pure]
  · obtain ⟨w1, owns1, S1, hrun1, ho1, hsame1, hv1, hq1, hS1, hsz1, hfr1, hlen1⟩ :=
      mergeCopy_spec hne (owns other) w owns none fuel S O ho hS hO hrO.links (fun _ h => h) hf
    have hO1 : w1.queues[other]? = some O := by rw [hq1 other (Ne.symm hne)]; exact hO
    have hoo1 : owns1 other = owns other := hsame1 other (Ne.symm hne)
    obtain ⟨w2, hrun2, ho2, hq2, hlen2, hfr2⟩ :=
      mergeDrain_spec (owns other) w1 owns1 fuel O ho1 hO1 hoo1 hf
    have hSlt1 := World.lt_of_queue hS1
    have hOlt1 := World.lt_of_queue hO1
    refine ⟨w2, Function.update owns1 other [], S1, ?_, ho2, Function.update_same _ _ _, ?_, ?_, ?_,
      hsz1, ?_, ?_, ?_⟩
    · have hcopy : mergeCopy self fuel w O.front = .ok w1 := by
        rw [hrO.front]; exact hrun1
      simp only [merge, World.queue_ok hO, World.queue_ok hS, hemp, bind, Except.bind, ite_self,
        hcopy]
      simpa using hrun2
    · intro i hi1 hi2
      rw [Function.update_noteq hi2, hsame1 i hi1]
    · rw [Function.update_noteq hne, ← hv1]
      apply vals_frame
      intro b hb
      refine hfr2 b (fun hm => ?_)
      rw [← hoo1] at hm
      exact ho1.disjoint self other hSlt1 hOlt1 hne hb hm
    · rw [hq2 self hne]; exact hS1
    · intro i hi1 hi2
      rw [hq2 i hi2, hq1 i hi1]
    · rw [hlen2]
      have h1 := World.lt_of_queue hS
      by_contra hcon
      -- the queue list keeps its length: every index is valid on both sides
      rcases Nat.lt_or_gt_of_ne hcon with hlt | hgt
      · have hx := hq1 w1.queues.length (fun e => by omega)
        rw [List.getElem?_eq_none (le_refl _), List.getElem?_eq_getElem hlt] at hx
        cases hx
      · have hx := hq1 w.queues.length (fun e => by omega)
        rw [List.getElem?_eq_none (le_refl _), List.getElem?_eq_getElem hgt] at hx
        cases hx
    · intro b hb1 hb2 hlt
      rw [hfr2 b hb2]
      exact hfr1 b hb1 hlt

/-! ## More fuel never changes a result -/

theorem Queue.sortScan_mono (last : Option Nat) : ∀ (fuel fuel1 : Nat) (h : Heap)
    (cur : Option Nat) (sw : Bool) (r : Heap × Option Nat × Bool), fuel ≤ fuel1 →
    Queue.sortScan last fuel h cur sw = .ok r → Queue.sortScan last fuel1 h cur sw = .ok r
  | 0, _, _, _, _, _, _, hrun => by simp [Queue.sortScan] at hrun
  | fuel + 1, 0, _, _, _, _, hle, _ => by omega
  | fuel + 1, fuel1 + 1, h, cur, sw, r, hle, hrun => by
    have ih := fun h cur sw r => Queue.sortScan_mono last fuel fuel1 h cur sw r (by omega)
    rw [Queue.sortScan] at hrun ⊢
    cases hc : h.deref cur with
    | error e => simp [hc, bind, Except.bind] at hrun
    | ok c =>
      simp only [hc, bind, Except.bind] at hrun ⊢
      by_cases h1 : c.next = last
      · simpa [h1] using hrun
      · simp only [h1, if_false] at hrun ⊢
        cases hn : h.deref c.next with
        | error e => simp [hn] at hrun
        | ok n =>
          simp only [hn] at hrun ⊢
          by_cases h2 : c.data > n.data
          · simp only [h2, if_true] at hrun ⊢
            cases hu1 : h.update cur (fun x => { x with data := n.data }) with
            | error e => simp [hu1] at hrun
            | ok h1 =>
              simp only [hu1] at hrun ⊢
              cases hc1 : h1.deref cur with
              | error e => simp [hc1] at hrun
              | ok c1 =>
                simp only [hc1] at hrun ⊢
                cases hu2 : h1.update c1.next (fun x => { x with data := c.data }) with
                | error e => simp [hu2] at hrun
                | ok h2 =>
                  simp only [hu2] at hrun ⊢
                  cases hc2 : h2.deref cur with
                  | error e => simp [hc2] at hrun
                  | ok c2 =>
                    simp only [hc2] at hrun ⊢
                    exact ih _ _ _ _ hrun
          · simp only [h2, if_false] at hrun ⊢
            exact ih _ _ _ _ hrun

theorem Queue.sortLoop_mono (front : Option Nat) : ∀ (passes passes1 fuel fuel1 : Nat) (h : Heap)
    (last : Option Nat) (r : Heap), passes ≤ passes1 → fuel ≤ fuel1 →
    Queue.sortLoop fuel front passes h last = .ok r →
    Queue.sortLoop fuel1 front passes1 h last = .ok r
  | 0, _, _, _, _, _, _, _, _, hrun => by simp [Queue.sortLoop] at hrun
  | passes + 1, 0, _, _, _, _, _, hle, _, _ => by omega
  | passes + 1, passes1 + 1, fuel, fuel1, h, last, r, hle, hf, hrun => by
    have ih := fun h last r =>
      Queue.sortLoop_mono front passes passes1 fuel fuel1 h last r (by omega) hf
    rw [Queue.sortLoop] at hrun ⊢
    cases hs : Queue.sortScan last fuel h front false with
    | error e => simp [hs, bind, Except.bind] at hrun
    | ok x =>
      obtain ⟨h1, current, swapped⟩ := x
      have hs1 := Queue.sortScan_mono last fuel fuel1 h front false _ hf hs
      simp only [hs, hs1, bind, Except.bind] at hrun ⊢
      cases swapped with
      | true => simpa using ih _ _ _ (by simpa using hrun)
      | false => simpa using hrun

theorem Queue.sort_fuel_mono {fuel fuel1 : Nat} {h r : Heap} {Q : Queue} (hle : fuel ≤ fuel1)
    (hrun : Queue.sort fuel h Q = .ok r) : Queue.sort fuel1 h Q = .ok r := by
  unfold Queue.sort at hrun ⊢
  split
  · rename_i hg; simpa [hg] using hrun
  · rename_i hg
    rw [if_neg hg] at hrun
    exact Queue.sortLoop_mono Q.front fuel fuel1 fuel fuel1 h none r hle hle hrun

theorem sort_mono {fuel fuel1 : Nat} {w w1 : World} {q : Nat} (hle : fuel ≤ fuel1)
    (hrun : sort fuel w q = .ok w1) : sort fuel1 w q = .ok w1 := by
  unfold sort at hrun ⊢
  cases hq : w.queue q with
  | error e => simp [hq, bind, Except.bind] at hrun
  | ok Q =>
    simp only [hq, bind, Except.bind] at hrun ⊢
    cases hs : Queue.sort fuel w.heap Q with
    | error e => simp [hs] at hrun
    | ok h1 =>
      rw [Queue.sort_fuel_mono hle hs]
      simpa [hs] using hrun

theorem mergeCopy_mono (self : Nat) : ∀ (fuel fuel1 : Nat) (w : World) (cur : Option Nat)
    (r : World), fuel ≤ fuel1 → mergeCopy self fuel w cur = .ok r →
    mergeCopy self fuel1 w cur = .ok r
  | fuel, fuel1, w, none, r, _, hrun => by
    cases fuel <;> cases fuel1 <;> simpa [mergeCopy] using hrun
  | 0, _, _, some a, _, _, hrun => by simp [mergeCopy] at hrun
  | fuel + 1, 0, _, some a, _, hle, _ => by omega
  | fuel + 1, fuel1 + 1, w, some a, r, hle, hrun => by
    have ih := fun w cur r => mergeCopy_mono self fuel fuel1 w cur r (by omega)
    rw [mergeCopy] at hrun ⊢
    cases hc : w.heap.deref (some a) with
    | error e => simp [hc, bind, Except.bind] at hrun
    | ok c =>
      simp only [hc, bind, Except.bind] at hrun ⊢
      cases he : enqueue w self c.data with
      | error e => simp [he] at hrun
      | ok w1 =>
        simp only [he] at hrun ⊢
        cases hc1 : w1.heap.deref (some a) with
        | error e => simp [hc1] at hrun
        | ok c1 =>
          simp only [hc1] at hrun ⊢
          exact ih _ _ _ hrun

theorem mergeDrain_mono {other : Nat} : ∀ (fuel fuel1 : Nat) (w r : World), fuel ≤ fuel1 →
    mergeDrain other fuel w = .ok r → mergeDrain other fuel1 w = .ok r
  | fuel, fuel1, w, r, hle, hrun => by
    unfold mergeDrain at hrun ⊢
    cases hq : w.queue other with
    | error e => simp [hq, bind, Except.bind] at hrun
    | ok O =>
      simp only [hq, bind, Except.bind] at hrun ⊢
      by_cases hemp : O.isEmpty = true
      · simpa [hemp] using hrun
      · simp only [hemp] at hrun ⊢
        match fuel, fuel1, hle, hrun with
        | 0, _, _, hrun => simp at hrun
        | fuel + 1, 0, hle, _ => omega
        | fuel + 1, fuel1 + 1, hle, hrun =>
          simp only [Bool.false_eq_true, if_false] at hrun ⊢
          cases hd : dequeue w other with
          | error e => simp [hd] at hrun
          | ok x =>
            simp only [hd] at hrun ⊢
            exact mergeDrain_mono fuel fuel1 _ _ (by omega) hrun

theorem merge_mono {fuel fuel1 : Nat} {w w1 : World} {self other : Nat} (hle : fuel ≤ fuel1)
    (hrun : merge fuel w self other = .ok w1) : merge fuel1 w self other = .ok w1 := by
  unfold merge at hrun ⊢
  cases hq : w.queue other with
  | error e => simp [hq, bind, Except.bind] at hrun
  | ok O =>
    simp only [hq, bind, Except.bind] at hrun ⊢
    by_cases hemp : O.isEmpty = true
    · simpa [hemp] using hrun
    · simp only [hemp, ite_self] at hrun ⊢
      cases hs : w.queue self with
      | error e => simp [hs] at hrun
      | ok S =>
        simp only [hs, Bool.false_eq_true, if_false] at hrun ⊢
        cases hc : mergeCopy self fuel w O.front with
        | error e => simp [hc] at hrun
        | ok w2 =>
          rw [mergeCopy_mono self fuel fuel1 w _ _ hle hc]
          simp only [hc] at hrun ⊢
          exact mergeDrain_mono fuel fuel1 _ _ hle hrun

/-! ## Every reachable world is well formed -/

theorem World.queue_valid {w : World} {q : Nat} {α : Type} {f : Queue → Except Stop α} {r : α}
    (hrun : (w.queue q >>= f) = .ok r) : ∃ Q, w.queues[q]? = some Q := by
  cases hq : w.queue q with
  | error e => simp [hq, bind, Except.bind] at hrun
  | ok Q => exact ⟨Q, World.queue_of_ok hq⟩

theorem set_queue_self {qs : List Queue} {q : Nat} {Q : Queue} (hq : qs[q]? = some Q) :
    qs.set q Q = qs := by
  apply List.ext_getElem?
  intro i
  by_cases hi : q = i
  · subst hi
    rw [hq]
    exact getElem?_set_this Q (by
      by_contra hge
      rw [List.getElem?_eq_none (by omega)] at hq
      cases hq)
  · exact List.getElem?_set_ne hi

theorem dequeue_empty_world {w : World} {q : Nat} {Q : Queue} (hq : w.queues[q]? = some Q)
    (he : Q.isEmpty = true) :
    dequeue w q = .ok { world := w, value := -1, printed := [Line.underflow] } := by
  simp [dequeue, World.queue_ok hq, Queue.dequeue_empty he, bind, Except.bind, pure, Except.pure,
    set_queue_self hq]

theorem Rep.isEmpty_iff {h : Heap} {Q : Queue} {as : List Nat} (hr : Rep h Q as) :
    Q.isEmpty = true ↔ as = [] := by
  have := hr.front
  cases as with
  | nil => simp [Queue.isEmpty, this]
  | cons a as => simp [Queue.isEmpty, this]

theorem enqueue_wf {w w1 : World} {q : Nat} {v : Int} (hw : WF w)
    (hrun : enqueue w q v = .ok w1) : WF w1 := by
  obtain ⟨owns, ho⟩ := hw
  obtain ⟨Q, hq⟩ := World.queue_valid hrun
  obtain ⟨h1, Q1, hrun1, -, ho1⟩ := enqueue_owns ho hq v
  rw [hrun1] at hrun
  cases hrun
  exact ⟨_, ho1⟩

theorem dequeue_wf {w : World} {q : Nat} {r : Popped} (hw : WF w)
    (hrun : dequeue w q = .ok r) : WF r.world := by
  obtain ⟨owns, ho⟩ := hw
  obtain ⟨Q, hq⟩ := World.queue_valid hrun
  cases has : owns q with
  | nil =>
    have he : Q.isEmpty = true := by
      rw [(ho.rep q Q hq).isEmpty_iff]; exact has
    rw [dequeue_empty_world hq he] at hrun
    cases hrun
    exact ⟨owns, ho⟩
  | cons a rest =>
    obtain ⟨d, hrun1, -, ho1⟩ := dequeue_owns ho hq has
    rw [hrun1] at hrun
    cases hrun
    exact ⟨_, ho1⟩

theorem sort_wf {w w1 : World} {q fuel : Nat} (hw : WF w) (hrun : sort fuel w q = .ok w1) :
    WF w1 := by
  obtain ⟨owns, ho⟩ := hw
  obtain ⟨Q, hq⟩ := World.queue_valid hrun
  obtain ⟨h1, hrun1, ho1, -⟩ := sort_owns ho hq (le_max_right fuel (owns q).length)
  rw [sort_mono (le_max_left _ _) hrun] at hrun1
  cases hrun1
  exact ⟨owns, ho1⟩

theorem merge_wf {w w1 : World} {self other fuel : Nat} (hw : WF w) (hne : self ≠ other)
    (hrun : merge fuel w self other = .ok w1) : WF w1 := by
  obtain ⟨owns, ho⟩ := hw
  obtain ⟨O, hO⟩ := World.queue_valid hrun
  by_cases hemp : O.isEmpty = true
  · simp [merge, World.queue_ok hO, hemp, bind, Except.bind, pure, Except.pure] at hrun
    subst hrun
    exact ⟨owns, ho⟩
  · have hrun0 := hrun
    simp only [merge, World.queue_ok hO, hemp, bind, Except.bind] at hrun0
    obtain ⟨S, hS⟩ : ∃ S, w.queues[self]? = some S := by
      cases hs : w.queue self with
      | error e => simp [hs] at hrun0
      | ok S => exact ⟨S, World.queue_of_ok hs⟩
    obtain ⟨w2, owns2, S2, hrun1, ho1, -⟩ :=
      merge_owns hne ho hS hO (le_max_right fuel (owns other).length)
    rw [merge_mono (le_max_left _ _) hrun] at hrun1
    cases hrun1
    exact ⟨owns2, ho1⟩

theorem Reachable.wf {w : World} (hr : Reachable w) : WF w := by
  induction hr with
  | init => exact ⟨_, Owns.init⟩
  | newQueue _ ih =>
    obtain ⟨owns, ho⟩ := ih
    exact ⟨_, ho.newQueue⟩
  | enqueue _ hrun ih => exact enqueue_wf ih hrun
  | dequeue _ hrun ih => exact dequeue_wf ih hrun
  | sort _ hrun ih => exact sort_wf ih hrun
  | merge _ hne hrun ih => exact merge_wf ih hne hrun

/-! ## Observations of a described world -/

theorem contents_valid {w : World} {q : Nat} {s : List Int} (hc : contents w q = some s) :
    ∃ Q, w.queues[q]? = some Q := by
  unfold contents at hc
  cases hq : w.queues[q]? with
  | none => simp [hq] at hc
  | some Q => exact ⟨Q, rfl⟩

theorem Owns.contents_inv {w : World} {owns : Nat → List Nat} (ho : Owns w owns) {q : Nat}
    {s : List Int} (hc : contents w q = some s) :
    ∃ Q, w.queues[q]? = some Q ∧ vals w.heap (owns q) = s ∧ Q.size = s.length := by
  obtain ⟨Q, hq⟩ := contents_valid hc
  rw [ho.contents_eq hq] at hc
  have hv := Option.some.inj hc
  refine ⟨Q, hq, hv, ?_⟩
  rw [(ho.rep q Q hq).size, ← hv, vals_length]

theorem getSize_eq {w : World} {q : Nat} {Q : Queue} (hq : w.queues[q]? = some Q) :
    getSize w q = .ok Q.size := by
  simp [getSize, World.queue_ok hq, Queue.getSize, bind, Except.bind, pure, Except.pure]

theorem isEmpty_eq {w : World} {q : Nat} {Q : Queue} (hq : w.queues[q]? = some Q) :
    isEmpty w q = .ok Q.isEmpty := by
  simp [isEmpty, World.queue_ok hq, bind, Except.bind, pure, Except.pure]

theorem isEmpty_inv {w : World} {q : Nat} {b : Bool} (he : isEmpty w q = .ok b) :
    ∃ Q, w.queues[q]? = some Q ∧ Q.isEmpty = b := by
  obtain ⟨Q, hq⟩ := World.queue_valid he
  rw [isEmpty_eq hq] at he
  cases he
  exact ⟨Q, hq, rfl⟩

/-! ## Sequences of calls -/

theorem enqueueAll_owns {q : Nat} : ∀ (vs : List Int) (w : World) (owns : Nat → List Nat)
    (Q : Queue), Owns w owns → w.queues[q]? = some Q →
    ∃ w1 owns1 Q1, enqueueAll q vs w = .ok w1 ∧ Owns w1 owns1 ∧ w1.queues[q]? = some Q1 ∧
      vals w1.heap (owns1 q) = vals w.heap (owns q) ++ vs
  | [], w, owns, Q, ho, hq => ⟨w, owns, Q, rfl, ho, hq, by simp⟩
  | v :: vs, w, owns, Q, ho, hq => by
    obtain ⟨h1, Q1, hrun, ⟨-, hv, -⟩, ho1⟩ := enqueue_owns ho hq v
    have hq1 : (w.queues.set q Q1)[q]? = some Q1 := getElem?_set_this Q1 (World.lt_of_queue hq)
    obtain ⟨w2, owns2, Q2, hrun2, ho2, hq2, hv2⟩ :=
      enqueueAll_owns vs { heap := h1, queues := w.queues.set q Q1 } _ Q1 ho1 hq1
    refine ⟨w2, owns2, Q2, ?_, ho2, hq2, ?_⟩
    · simp only [enqueueAll, hrun, bind, Except.bind]
      exact hrun2
    · rw [hv2, Function.update_same]
      show vals h1 _ ++ vs = _
      rw [hv]
      simp

theorem dequeueTimes_owns {q : Nat} : ∀ (as : List Nat) (w : World) (owns : Nat → List Nat)
    (Q : Queue), Owns w owns → w.queues[q]? = some Q → owns q = as →
    ∃ w1, dequeueTimes q as.length w
        = .ok (w1, (vals w.heap as).map (fun v => (v, []))) ∧
      Owns w1 (Function.update owns q []) ∧ ∃ Q1, w1.queues[q]? = some Q1
  | [], w, owns, Q, ho, hq, has => by
    refine ⟨w, rfl, ?_, Q, hq⟩
    rw [← has, Function.update_eq_self]
    exact ho
  | a :: rest, w, owns, Q, ho, hq, has => by
    obtain ⟨r, hrun, ⟨-, hvr, hva, hpr, -⟩, ho1⟩ := dequeue_owns ho hq has
    have hq1 : (w.queues.set q r.queue)[q]? = some r.queue :=
      getElem?_set_this _ (World.lt_of_queue hq)
    obtain ⟨w2, hrun2, ho2, hQ2⟩ :=
      dequeueTimes_owns rest { heap := r.heap, queues := w.queues.set q r.queue } _ r.queue ho1 hq1
        (Function.update_same _ _ _)
    refine ⟨w2, ?_, ?_, hQ2⟩
    · simp only [List.length_cons, dequeueTimes, hrun, bind, Except.bind, hrun2, pure, Except.pure]
      rw [vals_cons, hva, hpr]
      show _ = Except.ok (w2, List.map _ ([r.value] ++ vals w.heap rest))
      rw [← hvr]
      rfl
    · rw [Function.update_idem] at ho2
      exact ho2

/-! ## The concrete worlds are reachable -/

theorem enqueueAll_reachable {q : Nat} : ∀ (vs : List Int) (w w1 : World), Reachable w →
    enqueueAll q vs w = .ok w1 → Reachable w1
  | [], w, w1, hr, hrun => by
    cases hrun
    exact hr
  | v :: vs, w, w1, hr, hrun => by
    rw [enqueueAll] at hrun
    cases he : enqueue w q v with
    | error e => simp [he, bind, Except.bind] at hrun
    | ok w2 =>
      simp only [he, bind, Except.bind] at hrun
      exact enqueueAll_reachable vs w2 w1 (Reachable.enqueue hr he) hrun

theorem oneEmpty_reachable : Reachable oneEmpty :=
  Reachable.newQueue Reachable.init

theorem oneFour_reachable : Reachable oneFour :=
  enqueueAll_reachable (q := 0) [30, 10, 20, 10] oneEmpty oneFour oneEmpty_reachable rfl

theorem oneMinusOne_reachable : Reachable oneMinusOne :=
  @Reachable.enqueue oneEmpty oneMinusOne 0 (-1) oneEmpty_reachable rfl

theorem twoQueues_reachable : Reachable twoQueues := by
  have e1 : enqueueAll 0 [30, 40, 50] oneEmpty.newQueue
      = .ok { heap := [some { data := 30, next := some 1, prev := none },
                       some { data := 40, next := some 2, prev := some 0 },
                       some { data := 50, next := none, prev := some 1 }],
              queues := [{ front := some 0, rear := some 2, size := 3 }, Queue.new] } := rfl
  have r1 := enqueueAll_reachable _ _ _ (Reachable.newQueue oneEmpty_reachable) e1
  exact enqueueAll_reachable (q := 1) [5, 15, 25] _ twoQueues r1 rfl

/-! ## The claims -/

/-- C1 (FIFO law): in a reachable world, starting from an empty queue `q`, enqueueing
the values `vs` in order and then calling `dequeue` exactly `vs.length` times succeeds;
the queue holds `vs` in between, the calls return the values of `vs` in the same order,
one per call, and none of them prints the underflow line. -/
theorem fifo_law (w : World) (q : Nat) (vs : List Int) (hr : Reachable w)
    (he : isEmpty w q = .ok true) :
    ∃ w1 w2, enqueueAll q vs w = .ok w1 ∧ contents w1 q = some vs ∧
      dequeueTimes q vs.length w1 = .ok (w2, vs.map (fun v => (v, []))) := by
  obtain ⟨owns, ho⟩ := hr.wf
  obtain ⟨Q, hq, hQ⟩ := isEmpty_inv he
  have hnil : owns q = [] := (ho.rep q Q hq).isEmpty_iff.1 hQ
  obtain ⟨w1, owns1, Q1, hrun1, ho1, hq1, hv1⟩ := enqueueAll_owns vs w owns Q ho hq
  rw [hnil] at hv1
  have hv : vals w1.heap (owns1 q) = vs := by simpa [vals] using hv1
  obtain ⟨w2, hrun2, -, -⟩ := dequeueTimes_owns (owns1 q) w1 owns1 Q1 ho1 hq1 rfl
  refine ⟨w1, w2, hrun1, ?_, ?_⟩
  · rw [ho1.contents_eq hq1, hv]
  · rw [hv, ← vals_length w1.heap, hv] at hrun2
    exact hrun2

theorem fifo_law_witness :
    ∃ w1 w2, enqueueAll 0 [10, 20, 30, 40, 50] oneEmpty = .ok w1 ∧
      contents w1 0 = some [10, 20, 30, 40, 50] ∧
      dequeueTimes 0 [10, 20, 30, 40, 50].length w1
        = .ok (w2, [10, 20, 30, 40, 50].map (fun v => (v, []))) :=
  fifo_law oneEmpty 0 [10, 20, 30, 40, 50] oneEmpty_reachable rfl

/-- C2: `dequeue` on an empty queue returns -1 after printing the underflow line and
leaves the world exactly as it was (heap and every queue object, so front, rear, count
and all nodes); in a reachable world the size of that queue is 0 before and after. -/
theorem dequeue_empty_no_mutation (w : World) (q : Nat) (hr : Reachable w)
    (he : isEmpty w q = .ok true) :
    ∃ r, dequeue w q = .ok r ∧ r.printed = [Line.underflow] ∧ r.value = -1 ∧ r.world = w ∧
      getSize w q = .ok 0 ∧ getSize r.world q = .ok 0 := by
  obtain ⟨owns, ho⟩ := hr.wf
  obtain ⟨Q, hq, hQ⟩ := isEmpty_inv he
  have hnil : owns q = [] := (ho.rep q Q hq).isEmpty_iff.1 hQ
  have hsz : Q.size = 0 := by
    rw [(ho.rep q Q hq).size, hnil]; rfl
  have hg : getSize w q = .ok 0 := by rw [getSize_eq hq, hsz]
  exact ⟨_, dequeue_empty_world hq hQ, rfl, rfl, rfl, hg, hg⟩

theorem dequeue_empty_no_mutation_witness :
    ∃ r, dequeue oneEmpty 0 = .ok r ∧ r.printed = [Line.underflow] ∧ r.value = -1 ∧
      r.world = oneEmpty ∧ getSize oneEmpty 0 = .ok 0 ∧ getSize r.world 0 = .ok 0 :=
  dequeue_empty_no_mutation oneEmpty 0 oneEmpty_reachable rfl

/-- C3, counterexample: the queue holding the single value -1 is reachable and not
empty, and `dequeue` returns on it the very value it returns on an empty queue. -/
theorem dequeue_sentinel_is_data :
    Reachable oneMinusOne ∧ isEmpty oneMinusOne 0 = .ok false ∧
      isEmpty oneEmpty 0 = .ok true ∧
      ∃ r r0, dequeue oneMinusOne 0 = .ok r ∧ dequeue oneEmpty 0 = .ok r0 ∧
        r.value = r0.value :=
  ⟨oneMinusOne_reachable, rfl, rfl, _, _, rfl, rfl, rfl⟩

/-- C3, amended: on an empty queue `dequeue` returns the value -1 and prints the
underflow line; on a non-empty reachable queue with front value `v` it returns `v` and
prints nothing.  So the returned value differs from the one returned on an empty queue
exactly when `v` is not -1, and the printed lines differ always. -/
theorem dequeue_failure_indication (w : World) (q : Nat) (v : Int) (rest : List Int)
    (w0 : World) (q0 : Nat) (hr : Reachable w) (hc : contents w q = some (v :: rest))
    (he : isEmpty w0 q0 = .ok true) :
    ∃ r r0, dequeue w q = .ok r ∧ dequeue w0 q0 = .ok r0 ∧ r.value = v ∧ r0.value = -1 ∧
      r.printed = [] ∧ r0.printed = [Line.underflow] ∧ (r.value ≠ r0.value ↔ v ≠ -1) ∧
      r.printed ≠ r0.printed := by
  obtain ⟨owns, ho⟩ := hr.wf
  obtain ⟨Q, hq, hv, -⟩ := ho.contents_inv hc
  obtain ⟨Q0, hq0, hQ0⟩ := isEmpty_inv he
  cases has : owns q with
  | nil => simp [has, vals] at hv
  | cons a as =>
    obtain ⟨d, hrun, ⟨-, -, hva, hpr, -⟩, -⟩ := dequeue_owns ho hq has
    have hval : d.value = v := by
      rw [has, vals_cons, hva] at hv
      exact (List.cons.inj hv).1
    refine ⟨_, _, hrun, dequeue_empty_world hq0 hQ0, hval, rfl, hpr, rfl, ?_, ?_⟩
    · show d.value ≠ -1 ↔ v ≠ -1
      rw [hval]
    · show d.printed ≠ [Line.underflow]
      rw [hpr]
      simp

theorem dequeue_failure_indication_witness :
    ∃ r r0, dequeue oneFour 0 = .ok r ∧ dequeue oneEmpty 0 = .ok r0 ∧ r.value = 30 ∧
      r0.value = -1 ∧ r.printed = [] ∧ r0.printed = [Line.underflow] ∧
      (r.value ≠ r0.value ↔ (30 : Int) ≠ -1) ∧ r.printed ≠ r0.printed :=
  dequeue_failure_indication oneFour 0 30 [10, 20, 10] oneEmpty 0 oneFour_reachable rfl rfl

theorem vals_eq_nil {h : Heap} {as : List Nat} (hv : vals h as = []) : as = [] := by
  have := vals_length h as
  rw [hv] at this
  exact List.length_eq_zero.1 this.symm

/-- C4: in a reachable world, on a queue whose front-to-rear sequence is `v :: rest`,
`dequeue` returns `v` without printing, leaves the sequence `rest`, and takes the count
from `rest.length + 1` to `rest.length`; when `rest` is empty, front and rear are both
null afterwards. -/
theorem dequeue_front (w : World) (q : Nat) (v : Int) (rest : List Int) (hr : Reachable w)
    (hc : contents w q = some (v :: rest)) :
    ∃ r Q1, dequeue w q = .ok r ∧ r.value = v ∧ r.printed = [] ∧
      contents r.world q = some rest ∧
      getSize w q = .ok ((rest.length : Int) + 1) ∧ getSize r.world q = .ok (rest.length : Int) ∧
      r.world.queue q = .ok Q1 ∧ (rest = [] → Q1.front = none ∧ Q1.rear = none) := by
  obtain ⟨owns, ho⟩ := hr.wf
  obtain ⟨Q, hq, hv, hsz⟩ := ho.contents_inv hc
  cases has : owns q with
  | nil => simp [has, vals] at hv
  | cons a as =>
    obtain ⟨d, hrun, ⟨hrep, hvr, hva, hpr, hsz1, -⟩, ho1⟩ := dequeue_owns ho hq has
    rw [has, vals_cons, hva] at hv
    have hval : d.value = v := (List.cons.inj hv).1
    have hrest : vals w.heap as = rest := (List.cons.inj hv).2
    have hq1 : (w.queues.set q d.queue)[q]? = some d.queue :=
      getElem?_set_this _ (World.lt_of_queue hq)
    have hsz0 : Q.size = (rest.length : Int) + 1 := by rw [hsz]; simp
    refine ⟨_, d.queue, hrun, hval, hpr, ?_, ?_, ?_, World.queue_ok hq1, ?_⟩
    · rw [ho1.contents_eq hq1, Function.update_same]
      show some (vals d.heap as) = _
      rw [hvr, hrest]
    · rw [getSize_eq hq, hsz0]
    · rw [getSize_eq hq1, hsz1, hsz0]
      simp
    · intro hnil
      have : as = [] := vals_eq_nil (hnil ▸ hrest)
      subst this
      exact ⟨hrep.front, hrep.rear⟩

theorem dequeue_front_witness :
    ∃ r Q1, dequeue oneFour 0 = .ok r ∧ r.value = 30 ∧ r.printed = [] ∧
      contents r.world 0 = some [10, 20, 10] ∧
      getSize oneFour 0 = .ok (([10, 20, 10] : List Int).length + 1 : Int) ∧
      getSize r.world 0 = .ok (([10, 20, 10] : List Int).length : Int) ∧
      r.world.queue 0 = .ok Q1 ∧
      (([10, 20, 10] : List Int) = [] → Q1.front = none ∧ Q1.rear = none) :=
  dequeue_front oneFour 0 30 [10, 20, 10] oneFour_reachable rfl

/-- C5: in a reachable world, on a queue whose front-to-rear sequence is `s`,
`enqueue(v)` succeeds, makes the sequence `s ++ [v]` and takes the count from
`s.length` to `s.length + 1`; the node it allocates holds `v`, is the rear, and is
also the front when `s` is empty. -/
theorem enqueue_appends (w : World) (q : Nat) (s : List Int) (v : Int) (hr : Reachable w)
    (hc : contents w q = some s) :
    ∃ w1 Q1 n, enqueue w q v = .ok w1 ∧ contents w1 q = some (s ++ [v]) ∧
      getSize w q = .ok (s.length : Int) ∧ getSize w1 q = .ok ((s.length : Int) + 1) ∧
      w1.queue q = .ok Q1 ∧ Q1.rear = some w.heap.length ∧
      w.heap.read w.heap.length = none ∧ w1.heap.read w.heap.length = some n ∧
      n.data = v ∧ n.next = none ∧ (s = [] → Q1.front = Q1.rear) := by
  obtain ⟨owns, ho⟩ := hr.wf
  obtain ⟨Q, hq, hv, hsz⟩ := ho.contents_inv hc
  obtain ⟨h1, Q1, hrun, ⟨hrep, hv1, hsz1, -, -⟩, ho1⟩ := enqueue_owns ho hq v
  have hq1 : (w.queues.set q Q1)[q]? = some Q1 := getElem?_set_this _ (World.lt_of_queue hq)
  have hlinks := hrep.links
  obtain ⟨n, hn⟩ := hlinks.live w.heap.length (by simp)
  have hdata : n.data = v := by
    have hv2 := hv1
    rw [vals_append] at hv2
    have h3 := (List.append_inj' hv2 (by simp [vals])).2
    simpa [vals, hn] using h3
  have hnext : n.next = none := by
    have : ∀ (as : List Nat) (p : Option Nat), Links h1 p (as ++ [w.heap.length]) →
        n.next = none := by
      intro as
      induction as with
      | nil =>
        intro p hl
        obtain ⟨⟨m, hm, hmx, -⟩, -⟩ := hl
        rw [hn] at hm
        cases hm
        exact hmx
      | cons a as ih =>
        intro p hl
        exact ih _ hl.2
    exact this _ _ hlinks
  refine ⟨_, Q1, n, hrun, ?_, ?_, ?_, World.queue_ok hq1, ?_, ?_, hn, hdata, hnext, ?_⟩
  · rw [ho1.contents_eq hq1, Function.update_same]
    show some (vals h1 _) = _
    rw [hv1, hv]
  · rw [getSize_eq hq, hsz]
  · rw [getSize_eq hq1, hsz1, hsz]
  · rw [hrep.rear]; simp
  · rw [Heap.read_eq, List.getElem?_eq_none (le_refl _)]
    rfl
  · intro hnil
    have : owns q = [] := vals_eq_nil (hnil ▸ hv)
    rw [hrep.front, hrep.rear, this]
    rfl

theorem enqueue_appends_witness :
    ∃ w1 Q1 n, enqueue oneFour 0 7 = .ok w1 ∧ contents w1 0 = some ([30, 10, 20, 10] ++ [7]) ∧
      getSize oneFour 0 = .ok (([30, 10, 20, 10] : List Int).length : Int) ∧
      getSize w1 0 = .ok ((([30, 10, 20, 10] : List Int).length : Int) + 1) ∧
      w1.queue 0 = .ok Q1 ∧ Q1.rear = some oneFour.heap.length ∧
      oneFour.heap.read oneFour.heap.length = none ∧
      w1.heap.read oneFour.heap.length = some n ∧
      n.data = 7 ∧ n.next = none ∧ (([30, 10, 20, 10] : List Int) = [] → Q1.front = Q1.rear) :=
  enqueue_appends oneFour 0 [30, 10, 20, 10] 7 oneFour_reachable rfl

/-- What `sort` does to the front-to-rear sequence of a queue, given enough fuel. -/
theorem sort_contents {w : World} {q : Nat} {s : List Int} {fuel : Nat} (hr : Reachable w)
    (hc : contents w q = some s) (hf : s.length ≤ fuel) :
    ∃ h1 s1, sort fuel w q = .ok { w with heap := h1 } ∧
      contents { w with heap := h1 } q = some s1 ∧ s1.Sorted (· ≤ ·) ∧ s1.Perm s := by
  obtain ⟨owns, ho⟩ := hr.wf
  obtain ⟨Q, hq, hv, -⟩ := ho.contents_inv hc
  have hf1 : (owns q).length ≤ fuel := by
    rw [← vals_length w.heap, hv]; exact hf
  obtain ⟨h1, hrun, ho1, -, -, hsorted, hperm⟩ := sort_owns ho hq hf1
  have hq1 : ({ w with heap := h1 } : World).queues[q]? = some Q := hq
  refine ⟨h1, vals h1 (owns q), hrun, ho1.contents_eq hq1, hsorted, ?_⟩
  rw [← hv]
  exact hperm

/-- C6: in a reachable world, `sort` on a queue holding `s` returns when given at least
`s.length` fuel, and the front-to-rear sequence it leaves is ascending: every adjacent
pair satisfies `a[i] ≤ a[i+1]` (indeed every pair in order does). -/
theorem sort_ascending (w : World) (q : Nat) (s : List Int) (fuel : Nat) (hr : Reachable w)
    (hc : contents w q = some s) (hf : s.length ≤ fuel) :
    ∃ w1 s1, sort fuel w q = .ok w1 ∧ contents w1 q = some s1 ∧
      (∀ i, ∀ hi : i + 1 < s1.length, s1[i] ≤ s1[i + 1]) ∧ s1.Sorted (· ≤ ·) := by
  obtain ⟨h1, s1, hrun, hc1, hsorted, -⟩ := sort_contents hr hc hf
  refine ⟨_, s1, hrun, hc1, ?_, hsorted⟩
  intro i hi
  exact List.pairwise_iff_getElem.1 hsorted i (i + 1) (by omega) hi (by omega)

theorem sort_ascending_witness :
    ∃ w1 s1, sort 4 oneFour 0 = .ok w1 ∧ contents w1 0 = some s1 ∧
      (∀ i, ∀ hi : i + 1 < s1.length, s1[i] ≤ s1[i + 1]) ∧ s1.Sorted (· ≤ ·) :=
  sort_ascending oneFour 0 [30, 10, 20, 10] 4 oneFour_reachable rfl (by decide)

/-- C7: in a reachable world, `sort` on a queue holding `s` returns when given at least
`s.length` fuel; the sequence it leaves is a permutation of `s` (the same multiset of
values) and the count is unchanged. -/
theorem sort_permutation (w : World) (q : Nat) (s : List Int) (fuel : Nat) (hr : Reachable w)
    (hc : contents w q = some s) (hf : s.length ≤ fuel) :
    ∃ w1 s1, sort fuel w q = .ok w1 ∧ contents w1 q = some s1 ∧ s1.Perm s ∧
      (s1 : Multiset Int) = (s : Multiset Int) ∧
      getSize w q = .ok (s.length : Int) ∧ getSize w1 q = .ok (s.length : Int) := by
  obtain ⟨h1, s1, hrun, hc1, -, hperm⟩ := sort_contents hr hc hf
  obtain ⟨owns, ho⟩ := hr.wf
  obtain ⟨Q, hq, -, hsz⟩ := ho.contents_inv hc
  have hq1 : ({ w with heap := h1 } : World).queues[q]? = some Q := hq
  refine ⟨_, s1, hrun, hc1, hperm, Multiset.coe_eq_coe.2 hperm, ?_, ?_⟩
  · rw [getSize_eq hq, hsz]
  · rw [getSize_eq hq1, hsz]

theorem sort_permutation_witness :
    ∃ w1 s1, sort 4 oneFour 0 = .ok w1 ∧ contents w1 0 = some s1 ∧ s1.Perm [30, 10, 20, 10] ∧
      (s1 : Multiset Int) = (([30, 10, 20, 10] : List Int) : Multiset Int) ∧
      getSize oneFour 0 = .ok (([30, 10, 20, 10] : List Int).length : Int) ∧
      getSize w1 0 = .ok (([30, 10, 20, 10] : List Int).length : Int) :=
  sort_permutation oneFour 0 [30, 10, 20, 10] 4 oneFour_reachable rfl (by decide)

/-- What `merge` does to both queues, given enough fuel. -/
theorem merge_contents {w : World} {self other : Nat} {s1 s2 : List Int} {fuel : Nat}
    (hr : Reachable w) (hne : self ≠ other) (hc1 : contents w self = some s1)
    (hc2 : contents w other = some s2) (hf : s2.length ≤ fuel) :
    ∃ w1 S1 O1, merge fuel w self other = .ok w1 ∧ w1.queues[self]? = some S1 ∧
      w1.queues[other]? = some O1 ∧ contents w1 self = some (s1 ++ s2) ∧
      contents w1 other = some [] ∧ S1.size = (s1.length : Int) + s2.length ∧
      O1.front = none ∧ O1.rear = none ∧ O1.size = 0 := by
  obtain ⟨owns, ho⟩ := hr.wf
  obtain ⟨S, hS, hvS, hszS⟩ := ho.contents_inv hc1
  obtain ⟨O, hO, hvO, -⟩ := ho.contents_inv hc2
  have hlenO : (owns other).length = s2.length := by rw [← vals_length w.heap, hvO]
  obtain ⟨w1, owns1, S1, hrun, ho1, hnil, -, hv1, hS1, hsz1, -, hlen, -⟩ :=
    merge_owns hne ho hS hO (hlenO ▸ hf)
  have hOlt : other < w1.queues.length := by rw [hlen]; exact World.lt_of_queue hO
  have hO1 : w1.queues[other]? = some w1.queues[other] := List.getElem?_eq_getElem hOlt
  have hrepO := ho1.rep other _ hO1
  rw [hnil] at hrepO
  refine ⟨w1, S1, _, hrun, hS1, hO1, ?_, ?_, ?_, hrepO.front, hrepO.rear, hrepO.size⟩
  · rw [ho1.contents_eq hS1, hv1, hvS, hvO]
  · rw [ho1.contents_eq hO1, hnil]
    rfl
  · rw [hsz1, hszS, hlenO]

/-- C8: in a reachable world, for two different queues holding `s1` and `s2`,
`self.merge(other)` returns when given at least `s2.length` fuel; afterwards `self`
holds `s1 ++ s2` from front to rear and its count is `s1.length + s2.length`. -/
theorem merge_appends (w : World) (self other : Nat) (s1 s2 : List Int) (fuel : Nat)
    (hr : Reachable w) (hne : self ≠ other) (hc1 : contents w self = some s1)
    (hc2 : contents w other = some s2) (hf : s2.length ≤ fuel) :
    ∃ w1, merge fuel w self other = .ok w1 ∧ contents w1 self = some (s1 ++ s2) ∧
      getSize w1 self = .ok ((s1.length : Int) + s2.length) := by
  obtain ⟨w1, S1, O1, hrun, hS1, -, hcs, -, hsz, -⟩ := merge_contents hr hne hc1 hc2 hf
  exact ⟨w1, hrun, hcs, by rw [getSize_eq hS1, hsz]⟩

theorem merge_appends_witness :
    ∃ w1, merge 3 twoQueues 0 1 = .ok w1 ∧ contents w1 0 = some ([30, 40, 50] ++ [5, 15, 25]) ∧
      getSize w1 0
        = .ok ((([30, 40, 50] : List Int).length : Int) + ([5, 15, 25] : List Int).length) :=
  merge_appends twoQueues 0 1 [30, 40, 50] [5, 15, 25] 3 twoQueues_reachable (by decide) rfl rfl
    (by decide)

/-- C9: in a reachable world, for two different queues, `self.merge(other)` returns
when given at least as much fuel as `other` has elements, and leaves `other` empty:
its size is 0, `isEmpty` is true, front and rear are both null and it holds no value.
This includes the case that `other` was empty before. -/
theorem merge_empties_source (w : World) (self other : Nat) (s1 s2 : List Int) (fuel : Nat)
    (hr : Reachable w) (hne : self ≠ other) (hc1 : contents w self = some s1)
    (hc2 : contents w other = some s2) (hf : s2.length ≤ fuel) :
    ∃ w1 O1, merge fuel w self other = .ok w1 ∧ getSize w1 other = .ok 0 ∧
      isEmpty w1 other = .ok true ∧ w1.queue other = .ok O1 ∧ O1.front = none ∧
      O1.rear = none ∧ contents w1 other = some [] := by
  obtain ⟨w1, S1, O1, hrun, -, hO1, -, hco, -, hfront, hrear, hsz⟩ :=
    merge_contents hr hne hc1 hc2 hf
  refine ⟨w1, O1, hrun, ?_, ?_, World.queue_ok hO1, hfront, hrear, hco⟩
  · rw [getSize_eq hO1, hsz]
  · rw [isEmpty_eq hO1]
    simp [Queue.isEmpty, hfront]

theorem merge_empties_source_witness :
    ∃ w1 O1, merge 3 twoQueues 0 1 = .ok w1 ∧ getSize w1 1 = .ok 0 ∧
      isEmpty w1 1 = .ok true ∧ w1.queue 1 = .ok O1 ∧ O1.front = none ∧
      O1.rear = none ∧ contents w1 1 = some [] :=
  merge_empties_source twoQueues 0 1 [30, 40, 50] [5, 15, 25] 3 twoQueues_reachable (by decide)
    rfl rfl (by decide)

theorem first_occurrence {v : Int} : ∀ {s : List Int}, v ∈ s →
    ∃ pre post, s = pre ++ v :: post ∧ v ∉ pre
  | [], hm => by simp at hm
  | x :: s, hm => by
    by_cases hx : x = v
    · exact ⟨[], s, by simp [hx], by simp⟩
    · have hm1 : v ∈ s := by
        rcases List.mem_cons.1 hm with e | hm
        · exact absurd e.symm hx
        · exact hm
      obtain ⟨pre, post, e, hpre⟩ := first_occurrence hm1
      refine ⟨x :: pre, post, by simp [e], ?_⟩
      intro hm2
      rcases List.mem_cons.1 hm2 with e2 | hm2
      · exact hx e2.symm
      · exact hpre hm2

/-- C10: in a reachable world, on a queue holding `s`, `search(v)` returns when given
at least `s.length` fuel.  It returns true exactly when `v` occurs in `s`; then the
position it prints is the zero-based index of the first occurrence of `v` (the element
there is `v`, every earlier element is not).  When `v` does not occur it returns false
and prints the not-found line. -/
theorem search_first_occurrence (w : World) (q : Nat) (s : List Int) (v : Int) (fuel : Nat)
    (hr : Reachable w) (hc : contents w q = some s) (hf : s.length ≤ fuel) :
    ∃ r, search fuel w q v = .ok r ∧ (r.found = true ↔ v ∈ s) ∧
      (v ∈ s → ∃ i, r.printed = Line.found v i ∧ s[i]? = some v ∧
        ∀ j, j < i → s[j]? ≠ some v) ∧
      (v ∉ s → r.found = false ∧ r.printed = Line.notFound v) := by
  obtain ⟨owns, ho⟩ := hr.wf
  obtain ⟨Q, hq, hv, -⟩ := ho.contents_inv hc
  have hrep := ho.rep q Q hq
  have hf1 : (owns q).length ≤ fuel := by
    rw [← vals_length w.heap, hv]; exact hf
  have hsearch : search fuel w q v = Queue.searchLoop w.heap v fuel (owns q).head? 0 := by
    simp [search, World.queue_ok hq, Queue.search, hrep.front, bind, Except.bind]
  by_cases hmem : v ∈ s
  · obtain ⟨pre, post, hs, hpre⟩ := first_occurrence hmem
    have hrun := Queue.searchLoop_present fuel 0 pre post hrep.links hf1 (hv.trans hs) hpre
    refine ⟨_, hsearch.trans hrun, by simp [hmem], ?_, fun h => absurd hmem h⟩
    intro _
    refine ⟨pre.length, by simp, ?_, ?_⟩
    · rw [hs, List.getElem?_append_right (le_refl _)]
      simp
    intro j hj
    rw [hs, List.getElem?_append_left hj, List.getElem?_eq_getElem hj]
    intro e
    exact hpre (by rw [← Option.some.inj e]; exact List.getElem_mem _)
  · have hrun := Queue.searchLoop_absent fuel 0 hrep.links hf1 (hv ▸ hmem)
    exact ⟨_, hsearch.trans hrun, by simp [hmem], fun h => absurd h hmem, fun _ => ⟨rfl, rfl⟩⟩

theorem search_first_occurrence_witness :
    ∃ r, search 4 oneFour 0 10 = .ok r ∧ (r.found = true ↔ (10 : Int) ∈ [30, 10, 20, 10]) ∧
      ((10 : Int) ∈ [30, 10, 20, 10] → ∃ i, r.printed = Line.found 10 i ∧
        ([30, 10, 20, 10] : List Int)[i]? = some 10 ∧
        ∀ j, j < i → ([30, 10, 20, 10] : List Int)[j]? ≠ some 10) ∧
      ((10 : Int) ∉ [30, 10, 20, 10] → r.found = false ∧ r.printed = Line.notFound 10) :=
  search_first_occurrence oneFour 0 [30, 10, 20, 10] 10 4 oneFour_reachable rfl (by decide)

/-! ## Shape of the chains of a reachable world -/

/-- The node at every position of a chain, with both its pointers. -/
theorem Links.node_at {h : Heap} : ∀ {as : List Nat} {p : Option Nat}, Links h p as →
    ∀ i, i < as.length → ∃ a n, as[i]? = some a ∧ h.read a = some n ∧ n.next = as[i + 1]? ∧
      n.prev = if i = 0 then p else as[i - 1]?
  | [], _, _, i, hi => by simp at hi
  | a :: rest, p, hl, 0, _ => by
    obtain ⟨⟨n, hn, hnx, hpv⟩, -⟩ := hl
    refine ⟨a, n, by simp, hn, ?_, by simpa using hpv⟩
    rw [hnx]
    cases rest <;> simp
  | a :: rest, p, hl, i + 1, hi => by
    obtain ⟨-, hrest⟩ := hl
    obtain ⟨b, n, hb, hn, hnx, hpv⟩ := Links.node_at hrest i (by simpa using hi)
    refine ⟨b, n, by simpa using hb, hn, by simpa using hnx, ?_⟩
    rw [hpv]
    cases i with
    | zero => simp
    | succ j => simp

theorem Heap.nextOf_iterate_none (h : Heap) (k : Nat) : (h.nextOf)^[k] none = none := by
  induction k with
  | zero => rfl
  | succ k ih => rw [Function.iterate_succ_apply]; exact ih

theorem Heap.prevOf_iterate_none (h : Heap) (k : Nat) : (h.prevOf)^[k] none = none := by
  induction k with
  | zero => rfl
  | succ k ih => rw [Function.iterate_succ_apply]; exact ih

/-- Following `next` `k` times from the first node of a chain leads to its `k`-th node. -/
theorem Links.iterate_next {h : Heap} {as : List Nat} {p : Option Nat} (hl : Links h p as) :
    ∀ k, (h.nextOf)^[k] as.head? = as[k]? := by
  intro k
  induction k with
  | zero => cases as <;> simp
  | succ k ih =>
    rw [Function.iterate_succ_apply', ih]
    by_cases hk : k < as.length
    · obtain ⟨a, n, ha, hn, hnx, -⟩ := hl.node_at k hk
      rw [ha]
      simp [Heap.nextOf, hn, hnx]
    · rw [List.getElem?_eq_none (by omega), List.getElem?_eq_none (by omega)]
      rfl

/-- Following `prev` `k` times from the last node of a chain leads back by `k` nodes. -/
theorem Links.iterate_prev {h : Heap} {as : List Nat} (hl : Links h none as) :
    ∀ k, k < as.length → (h.prevOf)^[k] as.getLast? = as[as.length - 1 - k]? := by
  intro k
  induction k with
  | zero =>
    intro _
    simp [List.getLast?_eq_getElem?]
  | succ k ih =>
    intro hk
    rw [Function.iterate_succ_apply', ih (by omega)]
    obtain ⟨a, n, ha, hn, -, hpv⟩ := hl.node_at (as.length - 1 - k) (by omega)
    rw [ha]
    have hne : as.length - 1 - k ≠ 0 := by omega
    simp only [Heap.prevOf, hn, Option.bind, hpv, hne, if_false]
    congr 1

/-- The node after a node of a chain points back to it. -/
theorem Links.next_back {h : Heap} : ∀ {as : List Nat} {p : Option Nat}, Links h p as →
    ∀ a n b, a ∈ as → h.read a = some n → n.next = some b →
      ∃ m, h.read b = some m ∧ m.prev = some a
  | [], _, _, a, _, _, ha, _, _ => by simp at ha
  | x :: rest, p, hl, a, n, b, ha, hn, hnx => by
    obtain ⟨⟨nx, hx, hxn, -⟩, hrest⟩ := hl
    by_cases hax : a = x
    · subst hax
      rw [hn] at hx
      cases hx
      rw [hnx] at hxn
      cases rest with
      | nil => simp at hxn
      | cons y rest =>
        have hy : b = y := by simpa using hxn
        subst hy
        obtain ⟨⟨m, hm, -, hmp⟩, -⟩ := hrest
        exact ⟨m, hm, hmp⟩
    · have ha1 : a ∈ rest := by
        rcases List.mem_cons.1 ha with e | hm
        · exact absurd e hax
        · exact hm
      exact Links.next_back hrest a n b ha1 hn hnx

/-- The node before a node of a chain points forward to it, unless the node is the first
one, whose `prev` is the pointer given for the chain. -/
theorem Links.prev_forth {h : Heap} : ∀ {as : List Nat} {p : Option Nat}, Links h p as →
    as.Nodup → ∀ a n b, a ∈ as → h.read a = some n → n.prev = some b →
      (p = some b ∧ as.head? = some a) ∨ ∃ m, h.read b = some m ∧ m.next = some a
  | [], _, _, _, a, _, _, ha, _, _ => by simp at ha
  | x :: rest, p, hl, hnd, a, n, b, ha, hn, hpv => by
    obtain ⟨⟨nx, hx, hxn, hxp⟩, hrest⟩ := hl
    by_cases hax : a = x
    · subst hax
      rw [hn] at hx
      cases hx
      left
      exact ⟨by rw [← hxp, hpv], rfl⟩
    · have ha1 : a ∈ rest := by
        rcases List.mem_cons.1 ha with e | hm
        · exact absurd e hax
        · exact hm
      rcases Links.prev_forth hrest (List.nodup_cons.1 hnd).2 a n b ha1 hn hpv with ⟨hb, hhead⟩ | hm
      · right
        have hbx : x = b := Option.some.inj hb
        subst hbx
        exact ⟨nx, hx, by rw [hxn, hhead]⟩
      · exact Or.inr hm

/-! ## Claims on the invariants -/

/-- C11: for every queue object of a reachable world, front is null iff rear is null
iff the count is 0; so `isEmpty()` is true iff `getSize()` is 0, and the count is never
negative. -/
theorem empty_iff_count_zero (w : World) (q : Nat) (Q : Queue) (hr : Reachable w)
    (hq : w.queue q = .ok Q) :
    (Q.front = none ↔ Q.rear = none) ∧ (Q.rear = none ↔ Q.size = 0) ∧
      (Q.front = none ↔ Q.size = 0) ∧ (Q.isEmpty = true ↔ Q.getSize = 0) ∧
      (isEmpty w q = .ok true ↔ getSize w q = .ok 0) ∧ 0 ≤ Q.size := by
  obtain ⟨owns, ho⟩ := hr.wf
  have hq1 := World.queue_of_ok hq
  have hrep := ho.rep q Q hq1
  have hf : Q.front = none ↔ owns q = [] := by
    rw [hrep.front]; cases owns q <;> simp
  have hre : Q.rear = none ↔ owns q = [] := by
    rw [hrep.rear]; exact List.getLast?_eq_none_iff
  have hs : Q.size = 0 ↔ owns q = [] := by
    rw [hrep.size]
    constructor
    · intro e
      exact List.length_eq_zero.1 (by exact_mod_cast e)
    · intro e
      rw [e]; rfl
  have he : Q.isEmpty = true ↔ Q.front = none := by simp [Queue.isEmpty]
  refine ⟨hf.trans hre.symm, hre.trans hs.symm, hf.trans hs.symm, ?_, ?_, ?_⟩
  · rw [he, Queue.getSize]
    exact hf.trans hs.symm
  · rw [isEmpty_eq hq1, getSize_eq hq1]
    constructor
    · intro e
      have e1 : Q.isEmpty = true := by simpa using e
      rw [(hs.2 (hf.1 (he.1 e1)))]
    · intro e
      have e1 : Q.size = 0 := by simpa using e
      rw [he.2 (hf.2 (hs.1 e1))]
  · rw [hrep.size]
    exact Int.natCast_nonneg _

theorem empty_iff_count_zero_witness :
    ((⟨some 0, some 3, 4⟩ : Queue).front = none ↔ (⟨some 0, some 3, 4⟩ : Queue).rear = none) ∧
      ((⟨some 0, some 3, 4⟩ : Queue).rear = none ↔ (⟨some 0, some 3, 4⟩ : Queue).size = 0) ∧
      ((⟨some 0, some 3, 4⟩ : Queue).front = none ↔ (⟨some 0, some 3, 4⟩ : Queue).size = 0) ∧
      ((⟨some 0, some 3, 4⟩ : Queue).isEmpty = true ↔
        (⟨some 0, some 3, 4⟩ : Queue).getSize = 0) ∧
      (isEmpty oneFour 0 = .ok true ↔ getSize oneFour 0 = .ok 0) ∧
      0 ≤ (⟨some 0, some 3, 4⟩ : Queue).size :=
  empty_iff_count_zero oneFour 0 ⟨some 0, some 3, 4⟩ oneFour_reachable rfl

theorem Rep.toNat_size {h : Heap} {Q : Queue} {as : List Nat} (hr : Rep h Q as) :
    (Q.size - 1).toNat = as.length - 1 := by
  rw [hr.size]
  omega

/-- C13: in every reachable world each queue object satisfies the doubly linked
well-formedness invariant: the front node has a null `prev` and the rear node a null
`next`; for every live node, its `next` node (when there is one) points back to it and
its `prev` node (when there is one) points forward to it; following `next` from front
reaches rear after exactly `count - 1` steps and not earlier, and following `prev` from
rear reaches front after the same number of steps and not earlier.  Reachable worlds are
closed under `enqueue`, `dequeue`, `sort` and `merge`, so these calls preserve it. -/
theorem doubly_linked_invariant (w : World) (q : Nat) (Q : Queue) (hr : Reachable w)
    (hq : w.queue q = .ok Q) :
    (∀ f, Q.front = some f → ∃ n, w.heap.read f = some n ∧ n.prev = none) ∧
      (∀ r, Q.rear = some r → ∃ n, w.heap.read r = some n ∧ n.next = none) ∧
      (∀ a n b, w.heap.read a = some n → n.next = some b →
        ∃ m, w.heap.read b = some m ∧ m.prev = some a) ∧
      (∀ a n b, w.heap.read a = some n → n.prev = some b →
        ∃ m, w.heap.read b = some m ∧ m.next = some a) ∧
      (w.heap.nextOf)^[(Q.size - 1).toNat] Q.front = Q.rear ∧
      (w.heap.prevOf)^[(Q.size - 1).toNat] Q.rear = Q.front ∧
      (∀ k, k < (Q.size - 1).toNat →
        (w.heap.nextOf)^[k] Q.front ≠ Q.rear ∧ (w.heap.prevOf)^[k] Q.rear ≠ Q.front) := by
  obtain ⟨owns, ho⟩ := hr.wf
  have hq1 := World.queue_of_ok hq
  have hrep := ho.rep q Q hq1
  have hl := hrep.links
  have hchain : ∀ a n, w.heap.read a = some n →
      ∃ i Qi, w.queues[i]? = some Qi ∧ a ∈ owns i := by
    intro a n hn
    obtain ⟨i, hi, ha⟩ := ho.covered a n hn
    exact ⟨i, _, List.getElem?_eq_getElem hi, ha⟩
  have hlast : (owns q).getLast? = (owns q)[(owns q).length - 1]? :=
    List.getLast?_eq_getElem? _
  refine ⟨?_, ?_, ?_, ?_, ?_, ?_, ?_⟩
  · intro f hf
    rw [hrep.front] at hf
    cases has : owns q with
    | nil => simp [has] at hf
    | cons a rest =>
      rw [has] at hf hl
      obtain ⟨⟨n, hn, -, hpv⟩, -⟩ := hl
      have : a = f := by simpa using hf
      subst this
      exact ⟨n, hn, hpv⟩
  · intro r hre
    rw [hrep.rear, hlast] at hre
    have hpos : (owns q).length - 1 < (owns q).length := by
      by_contra hcon
      rw [List.getElem?_eq_none (by omega)] at hre
      cases hre
    obtain ⟨a, n, ha, hn, hnx, -⟩ := hl.node_at _ hpos
    rw [ha] at hre
    cases hre
    refine ⟨n, hn, ?_⟩
    rw [hnx, List.getElem?_eq_none (by omega)]
  · intro a n b hn hnx
    obtain ⟨i, Qi, hQi, ha⟩ := hchain a n hn
    exact (ho.rep i Qi hQi).links.next_back a n b ha hn hnx
  · intro a n b hn hpv
    obtain ⟨i, Qi, hQi, ha⟩ := hchain a n hn
    rcases (ho.rep i Qi hQi).links.prev_forth (ho.rep i Qi hQi).nodup a n b ha hn hpv with
      ⟨hb, -⟩ | hm
    · cases hb
    · exact hm
  · rw [hrep.toNat_size, hrep.front, hrep.rear, hl.iterate_next, hlast]
  · rw [hrep.toNat_size, hrep.front, hrep.rear]
    by_cases hpos : 0 < (owns q).length
    · rw [hl.iterate_prev _ (by omega)]
      have : (owns q).length - 1 - ((owns q).length - 1) = 0 := by omega
      rw [this]
      cases owns q <;> simp
    · have : owns q = [] := List.length_eq_zero.1 (by omega)
      rw [this]
      rfl
  · intro k hk
    rw [hrep.toNat_size] at hk
    rw [hrep.front, hrep.rear]
    have hne := List.nodup_iff_getElem?_ne_getElem?.1 hrep.nodup
    constructor
    · rw [hl.iterate_next, hlast]
      exact hne k ((owns q).length - 1) hk (by omega)
    · rw [hl.iterate_prev _ (by omega)]
      have h0 : (owns q).head? = (owns q)[0]? := by cases owns q <;> simp
      rw [h0]
      exact (hne 0 ((owns q).length - 1 - k) (by omega) (by omega)).symm

theorem doubly_linked_invariant_witness :
    (∀ f, (⟨some 0, some 3, 4⟩ : Queue).front = some f →
        ∃ n, oneFour.heap.read f = some n ∧ n.prev = none) ∧
      (∀ r, (⟨some 0, some 3, 4⟩ : Queue).rear = some r →
        ∃ n, oneFour.heap.read r = some n ∧ n.next = none) ∧
      (∀ a n b, oneFour.heap.read a = some n → n.next = some b →
        ∃ m, oneFour.heap.read b = some m ∧ m.prev = some a) ∧
      (∀ a n b, oneFour.heap.read a = some n → n.prev = some b →
        ∃ m, oneFour.heap.read b = some m ∧ m.next = some a) ∧
      (oneFour.heap.nextOf)^[((⟨some 0, some 3, 4⟩ : Queue).size - 1).toNat]
        (⟨some 0, some 3, 4⟩ : Queue).front = (⟨some 0, some 3, 4⟩ : Queue).rear ∧
      (oneFour.heap.prevOf)^[((⟨some 0, some 3, 4⟩ : Queue).size - 1).toNat]
        (⟨some 0, some 3, 4⟩ : Queue).rear = (⟨some 0, some 3, 4⟩ : Queue).front ∧
      (∀ k, k < ((⟨some 0, some 3, 4⟩ : Queue).size - 1).toNat →
        (oneFour.heap.nextOf)^[k] (⟨some 0, some 3, 4⟩ : Queue).front
            ≠ (⟨some 0, some 3, 4⟩ : Queue).rear ∧
          (oneFour.heap.prevOf)^[k] (⟨some 0, some 3, 4⟩ : Queue).rear
            ≠ (⟨some 0, some 3, 4⟩ : Queue).front) :=
  doubly_linked_invariant oneFour 0 ⟨some 0, some 3, 4⟩ oneFour_reachable rfl

/-- C14: `sort` exchanges only stored values.  In a reachable world, with fuel at least
the number of elements, `sort` returns a world with the same queue objects (front, rear
and count of every queue), the same heap size, and in every cell the same liveness and
the same `next` and `prev`; cells that do not belong to the sorted queue are unchanged
altogether. -/
theorem sort_keeps_links (w : World) (q : Nat) (s : List Int) (fuel : Nat) (hr : Reachable w)
    (hc : contents w q = some s) (hf : s.length ≤ fuel) :
    ∃ w1, sort fuel w q = .ok w1 ∧ w1.queues = w.queues ∧
      w1.heap.length = w.heap.length ∧
      (∀ a, (w1.heap.read a).map Node.links = (w.heap.read a).map Node.links) ∧
      (∀ a n, w.heap.read a = some n → ∃ d, w1.heap.read a = some { n with data := d }) ∧
      (∀ j sj, j ≠ q → contents w j = some sj → contents w1 j = some sj) := by
  obtain ⟨owns, ho⟩ := hr.wf
  obtain ⟨Q, hq, hv, -⟩ := ho.contents_inv hc
  have hf1 : (owns q).length ≤ fuel := by
    rw [← vals_length w.heap, hv]; exact hf
  obtain ⟨h1, hrun, ho1, hs, hfr, -, -⟩ := sort_owns ho hq hf1
  refine ⟨_, hrun, rfl, hs.1, hs.2, ?_, ?_⟩
  · intro a n hn
    have := hs.2 a
    rw [hn] at this
    cases hm : h1.read a with
    | none => simp [hm] at this
    | some m =>
      simp [hm, Node.links] at this
      refine ⟨m.data, ?_⟩
      show some m = _
      rw [← this.1, ← this.2]
  · intro j sj hj hcj
    obtain ⟨Qj, hqj, hvj, -⟩ := ho.contents_inv hcj
    have hqj1 : ({ w with heap := h1 } : World).queues[j]? = some Qj := hqj
    rw [ho1.contents_eq hqj1, ← hvj]
    congr 1
    apply vals_frame
    intro a ha
    exact hfr a (fun hm => ho.disjoint j q (World.lt_of_queue hqj) (World.lt_of_queue hq) hj ha hm)

theorem sort_keeps_links_witness :
    ∃ w1, sort 4 oneFour 0 = .ok w1 ∧ w1.queues = oneFour.queues ∧
      w1.heap.length = oneFour.heap.length ∧
      (∀ a, (w1.heap.read a).map Node.links = (oneFour.heap.read a).map Node.links) ∧
      (∀ a n, oneFour.heap.read a = some n → ∃ d, w1.heap.read a = some { n with data := d }) ∧
      (∀ j sj, j ≠ 0 → contents oneFour j = some sj → contents w1 j = some sj) :=
  sort_keeps_links oneFour 0 [30, 10, 20, 10] 4 oneFour_reachable rfl (by decide)

/-! ## The passes of `sort` on the heap and on values -/

theorem bubble_eq_bubbleBy : ∀ (rest : List Int) (x : Int), bubble x rest = bubbleBy id x rest
  | [], _ => rfl
  | y :: rest, x => by
    rw [bubble, bubbleBy, bubble_eq_bubbleBy rest x, bubble_eq_bubbleBy rest y]
    rfl

theorem bubbleBy_ne_nil {α : Type} (key : α → Int) : ∀ (rest : List α) (x : α),
    (bubbleBy key x rest).1 ≠ []
  | [], x => by simp [bubbleBy]
  | y :: rest, x => by
    rw [bubbleBy]
    split <;> simp

theorem dropLast_append_getLast?_toList {α : Type} (l : List α) :
    l.dropLast ++ l.getLast?.toList = l := by
  rcases List.eq_nil_or_concat l with rfl | ⟨init, a, rfl⟩
  · rfl
  · simp

/-- The state `sortPasses` reaches is the one `passesBy` computes on the values. -/
theorem Queue.sortPasses_vals (fuel : Nat) (as : List Nat) : ∀ (k : Nat) (seg tail : List Nat)
    (h : Heap), as = seg ++ tail → seg ≠ [] → Links h none as → as.Nodup → seg.length ≤ fuel →
    ∃ h1 last1, Queue.sortPasses fuel as.head? k h tail.head?
        = .ok (h1, last1, (passesBy id k (vals h seg) (vals h tail)).2.2) ∧
      SameLinks h h1 ∧ (∀ b, b ∉ as → h1.read b = h.read b) ∧
      vals h1 as = (passesBy id k (vals h seg) (vals h tail)).1
        ++ (passesBy id k (vals h seg) (vals h tail)).2.1
  | 0, seg, tail, h, has, _, _, _, _ => by
    refine ⟨h, tail.head?, rfl, SameLinks.refl h, fun _ _ => rfl, ?_⟩
    rw [has, vals_append]
    rfl
  | k + 1, [], _, _, _, hne, _, _, _ => absurd rfl hne
  | k + 1, c :: seg, tail, h, has, _, hl, hnd, hf => by
    subst has
    obtain ⟨n, hn⟩ := hl.live c (by simp)
    obtain ⟨h1, hrun, s1, fr1, hv1⟩ :=
      Queue.sortScan_spec tail.head? seg c tail h none false fuel n hl hnd rfl (by simpa using hf) hn
    rw [bubble_eq_bubbleBy] at hrun hv1
    have hdisj : ∀ b ∈ tail, b ∉ c :: seg := by
      intro b hb hm
      exact (List.nodup_append.1 hnd).2.2 hm hb
    have hvt : vals h1 tail = vals h tail := vals_frame (fun b hb => fr1 b (hdisj b hb))
    have hfr_all : ∀ b, b ∉ c :: seg ++ tail → h1.read b = h.read b := fun b hb =>
      fr1 b (fun hm => hb (List.mem_append_left _ hm))
    have hhead : (c :: seg ++ tail).head? = some c := rfl
    rw [vals_cons_of_read hn, passesBy]
    cases hsw : (bubbleBy id n.data (vals h seg)).2 with
    | false =>
      refine ⟨h1, (c :: seg).getLast?, ?_, s1, hfr_all, ?_⟩
      · rw [hhead, Queue.sortPasses]
        simp [hrun, hsw, bind, Except.bind, pure, Except.pure]
      · simp only [Bool.false_eq_true, if_false]
        rw [vals_append, hvt, hv1, ← List.append_assoc, dropLast_append_getLast?_toList]
    | true =>
      have hseg : seg ≠ [] := by
        intro e
        subst e
        simp [vals, bubbleBy] at hsw
      rcases List.eq_nil_or_concat (c :: seg) with hnil | ⟨seg1, r, hcat⟩
      · simp at hnil
      rw [List.concat_eq_append] at hcat
      have hlen1 : seg1.length = seg.length := by
        have := congrArg List.length hcat
        simp at this
        omega
      have hseg1 : seg1 ≠ [] := by
        intro e
        rw [e] at hlen1
        exact hseg (List.length_eq_zero.1 hlen1.symm)
      have has1 : c :: seg ++ tail = seg1 ++ (r :: tail) := by
        rw [hcat]; simp
      have hlastr : (c :: seg).getLast? = some r := by rw [hcat]; simp
      obtain ⟨h2, last2, hrun2, s2, fr2, hv2⟩ :=
        Queue.sortPasses_vals fuel (c :: seg ++ tail) k seg1 (r :: tail) h1 has1 hseg1
          (s1.links hl) hnd (by simp at hf; omega)
      have hsplit : vals h1 seg1 ++ vals h1 [r] = (bubbleBy id n.data (vals h seg)).1 := by
        rw [← hv1, hcat, vals_append]
      have hdl : (bubbleBy id n.data (vals h seg)).1.dropLast = vals h1 seg1 := by
        rw [← hsplit]
        simp [vals]
      have hgl : (bubbleBy id n.data (vals h seg)).1.getLast?.toList ++ vals h tail
          = vals h1 (r :: tail) := by
        have hrt : vals h1 (r :: tail) = vals h1 [r] ++ vals h tail := by
          rw [vals_cons, hvt]
        rw [← hsplit, hrt]
        simp [vals]
      refine ⟨h2, last2, ?_, s1.trans s2, ?_, ?_⟩
      · rw [hhead, Queue.sortPasses]
        simp only [hrun, hsw, bind, Except.bind, hlastr, Bool.false_or, if_true, hdl, hgl]
        simpa [hhead] using hrun2
      · intro b hb
        rw [fr2 b hb, hfr_all b hb]
      · simp only [if_true, hdl, hgl]
        exact hv2

/-- When the first `k` passes end the loop, `sortLoop` with a budget of `k` passes
returns the heap they leave. -/
theorem Queue.sortLoop_of_sortPasses (fuel : Nat) (front : Option Nat) : ∀ (k : Nat) (h : Heap)
    (last : Option Nat) (h1 : Heap) (last1 : Option Nat),
    Queue.sortPasses fuel front k h last = .ok (h1, last1, false) →
    Queue.sortLoop fuel front k h last = .ok h1
  | 0, _, _, _, _, hrun => by simp [Queue.sortPasses] at hrun
  | k + 1, h, last, h1, last1, hrun => by
    rw [Queue.sortPasses] at hrun
    rw [Queue.sortLoop]
    cases hs : Queue.sortScan last fuel h front false with
    | error e => simp [hs, bind, Except.bind] at hrun
    | ok x =>
      obtain ⟨h2, current, swapped⟩ := x
      simp only [hs, bind, Except.bind] at hrun ⊢
      cases swapped with
      | true =>
        simp only [if_true] at hrun ⊢
        exact Queue.sortLoop_of_sortPasses fuel front k h2 current h1 last1 hrun
      | false =>
        simp only [Bool.false_eq_true, if_false, pure, Except.pure] at hrun ⊢
        cases hrun
        rfl

/-! ## Properties of the passes on values -/

section Passes

variable {α : Type} (key : α → Int)

theorem bubbleBy_length : ∀ (rest : List α) (x : α),
    (bubbleBy key x rest).1.length = rest.length + 1
  | [], _ => rfl
  | y :: rest, x => by
    rw [bubbleBy]
    split <;> simp [bubbleBy_length rest]

theorem bubbleBy_perm : ∀ (rest : List α) (x : α), (bubbleBy key x rest).1.Perm (x :: rest)
  | [], _ => List.Perm.refl _
  | y :: rest, x => by
    rw [bubbleBy]
    split
    · exact ((bubbleBy_perm rest x).cons y).trans (List.Perm.swap x y rest)
    · exact (bubbleBy_perm rest y).cons x

/-- After a pass an element of largest value is last. -/
theorem bubbleBy_last : ∀ (rest : List α) (x : α),
    ∃ init m, (bubbleBy key x rest).1 = init ++ [m] ∧ key x ≤ key m ∧ ∀ y ∈ init, key y ≤ key m
  | [], x => ⟨[], x, rfl, le_refl _, by simp⟩
  | y :: rest, x => by
    rw [bubbleBy]
    split
    · rename_i hxy
      obtain ⟨init, m, e, hxm, hinit⟩ := bubbleBy_last rest x
      refine ⟨y :: init, m, by simp [e], hxm, ?_⟩
      intro z hz
      rcases List.mem_cons.1 hz with rfl | hz
      · omega
      · exact hinit z hz
    · rename_i hxy
      obtain ⟨init, m, e, hym, hinit⟩ := bubbleBy_last rest y
      refine ⟨x :: init, m, by simp [e], by omega, ?_⟩
      intro z hz
      rcases List.mem_cons.1 hz with rfl | hz
      · omega
      · exact hinit z hz

/-- A pass without exchange leaves the sequence as it was, and it was ascending. -/
theorem bubbleBy_noswap : ∀ (rest : List α) (x : α), (bubbleBy key x rest).2 = false →
    (bubbleBy key x rest).1 = x :: rest ∧ List.Chain (fun a b => key a ≤ key b) x rest
  | [], _, _ => ⟨rfl, List.Chain.nil⟩
  | y :: rest, x, hf => by
    rw [bubbleBy] at hf ⊢
    split at hf
    · simp at hf
    · rename_i hxy
      obtain ⟨e, hc⟩ := bubbleBy_noswap rest y hf
      rw [if_neg hxy]
      exact ⟨by simp [e], List.Chain.cons (by omega) hc⟩

/-- A pass keeps the elements of any one value in their order: an exchange concerns two
elements of different values. -/
theorem bubbleBy_filter (v : Int) : ∀ (rest : List α) (x : α),
    (bubbleBy key x rest).1.filter (fun e => decide (key e = v))
      = (x :: rest).filter (fun e => decide (key e = v))
  | [], _ => rfl
  | y :: rest, x => by
    rw [bubbleBy]
    split
    · rename_i hxy
      simp only [List.filter_cons, bubbleBy_filter v rest x]
      by_cases hx : key x = v
      · have hy : key y ≠ v := by omega
        simp [hx, hy]
      · simp [hx]
    · simp only [List.filter_cons, bubbleBy_filter v rest y]

/-- An adjacent pair of equal values is not exchanged. -/
theorem bubbleBy_equal_pair (x y : α) (rest : List α) (hxy : key x = key y) :
    bubbleBy key x (y :: rest) = (x :: (bubbleBy key y rest).1, (bubbleBy key y rest).2) := by
  rw [bubbleBy, if_neg (by omega)]

theorem bubbleBy_map : ∀ (rest : List α) (x : α),
    bubbleBy id (key x) (rest.map key)
      = ((bubbleBy key x rest).1.map key, (bubbleBy key x rest).2)
  | [], _ => rfl
  | y :: rest, x => by
    rw [List.map_cons, bubbleBy, bubbleBy, bubbleBy_map rest x, bubbleBy_map rest y]
    simp only [id]
    split <;> rfl

theorem passesBy_map : ∀ (k : Nat) (seg tail : List α),
    passesBy id k (seg.map key) (tail.map key)
      = ((passesBy key k seg tail).1.map key, (passesBy key k seg tail).2.1.map key,
          (passesBy key k seg tail).2.2)
  | 0, _, _ => rfl
  | _ + 1, [], _ => rfl
  | k + 1, x :: rest, tail => by
    rw [List.map_cons, passesBy, passesBy, bubbleBy_map]
    have hgl : ((bubbleBy key x rest).1.map key).getLast?.toList ++ tail.map key
        = ((bubbleBy key x rest).1.getLast?.toList ++ tail).map key := by
      rw [List.getLast?_map]
      cases (bubbleBy key x rest).1.getLast? <;> simp
    simp only [← List.map_dropLast, hgl]
    split
    · exact passesBy_map k _ _
    · simp

theorem passesBy_perm : ∀ (k : Nat) (seg tail : List α),
    ((passesBy key k seg tail).1 ++ (passesBy key k seg tail).2.1).Perm (seg ++ tail)
  | 0, _, _ => List.Perm.refl _
  | _ + 1, [], _ => List.Perm.refl _
  | k + 1, x :: rest, tail => by
    have hp : ((bubbleBy key x rest).1.dropLast
        ++ ((bubbleBy key x rest).1.getLast?.toList ++ tail)).Perm (x :: rest ++ tail) := by
      rw [← List.append_assoc, dropLast_append_getLast?_toList]
      exact (bubbleBy_perm key rest x).append_right tail
    rw [passesBy]
    split
    · exact (passesBy_perm k _ _).trans hp
    · exact hp

/-- The passes keep the elements of any one value in their order. -/
theorem passesBy_filter (v : Int) : ∀ (k : Nat) (seg tail : List α),
    ((passesBy key k seg tail).1 ++ (passesBy key k seg tail).2.1).filter
        (fun e => decide (key e = v))
      = (seg ++ tail).filter (fun e => decide (key e = v))
  | 0, _, _ => rfl
  | _ + 1, [], _ => rfl
  | k + 1, x :: rest, tail => by
    have hp : ((bubbleBy key x rest).1.dropLast
        ++ ((bubbleBy key x rest).1.getLast?.toList ++ tail)).filter (fun e => decide (key e = v))
        = (x :: rest ++ tail).filter (fun e => decide (key e = v)) := by
      rw [← List.append_assoc, dropLast_append_getLast?_toList, List.filter_append,
        bubbleBy_filter, List.filter_append]
    rw [passesBy]
    split
    · exact (passesBy_filter v k _ _).trans hp
    · exact hp

/-- The invariant of the outer loop: behind the boundary the values ascend and are no
smaller than any value before it.  When the loop is over the whole sequence ascends;
while it goes on, every pass so far has moved the boundary by one. -/
theorem passesBy_invariant : ∀ (k : Nat) (seg tail : List α), seg ≠ [] →
    tail.Pairwise (fun a b => key a ≤ key b) → (∀ x ∈ seg, ∀ y ∈ tail, key x ≤ key y) →
    (passesBy key k seg tail).2.1.Pairwise (fun a b => key a ≤ key b) ∧
      (∀ x ∈ (passesBy key k seg tail).1, ∀ y ∈ (passesBy key k seg tail).2.1,
        key x ≤ key y) ∧
      ((passesBy key k seg tail).2.2 = false →
        ((passesBy key k seg tail).1 ++ (passesBy key k seg tail).2.1).Pairwise
          (fun a b => key a ≤ key b)) ∧
      ((passesBy key k seg tail).2.2 = true →
        k < seg.length ∧ (passesBy key k seg tail).2.1.length = tail.length + k)
  | 0, seg, tail, hne, ht, hc => by
    refine ⟨ht, hc, fun h => by simp [passesBy] at h, fun _ => ⟨?_, rfl⟩⟩
    exact List.length_pos.2 hne
  | _ + 1, [], _, hne, _, _ => absurd rfl hne
  | k + 1, x :: rest, tail, _, ht, hc => by
    obtain ⟨init, m, hr, -, hinit⟩ := bubbleBy_last key rest x
    have hperm := bubbleBy_perm key rest x
    have hlen := bubbleBy_length key rest x
    have hmem : ∀ z ∈ (bubbleBy key x rest).1, ∀ y ∈ tail, key z ≤ key y := fun z hz y hy =>
      hc z ((hperm.mem_iff).1 hz) y hy
    have hdl : (bubbleBy key x rest).1.dropLast = init := by rw [hr]; simp
    have hgl : (bubbleBy key x rest).1.getLast?.toList = [m] := by rw [hr]; simp
    have ht1 : (m :: tail).Pairwise (fun a b => key a ≤ key b) :=
      List.pairwise_cons.2 ⟨fun y hy => hmem m (by rw [hr]; simp) y hy, ht⟩
    have hc1 : ∀ z ∈ init, ∀ y ∈ m :: tail, key z ≤ key y := by
      intro z hz y hy
      rcases List.mem_cons.1 hy with rfl | hy
      · exact hinit z hz
      · exact hmem z (by rw [hr]; exact List.mem_append_left _ hz) y hy
    rw [passesBy, hdl, hgl]
    cases hsw : (bubbleBy key x rest).2 with
    | true =>
      simp only [if_true, List.singleton_append]
      have hinit_ne : init ≠ [] := by
        intro e
        subst e
        rw [hr] at hlen
        have hrest : rest = [] := List.length_eq_zero.1 (by simpa using hlen.symm)
        subst hrest
        simp [bubbleBy] at hsw
      obtain ⟨h1, h2, h3, h4⟩ := passesBy_invariant k init (m :: tail) hinit_ne ht1 hc1
      refine ⟨h1, h2, h3, fun hrun => ?_⟩
      obtain ⟨hk, hl⟩ := h4 hrun
      rw [hr] at hlen
      simp at hlen hl ⊢
      omega
    | false =>
      simp only [Bool.false_eq_true, if_false, List.singleton_append]
      refine ⟨ht1, hc1, fun _ => ?_, fun h => by simp at h⟩
      obtain ⟨e, hch⟩ := bubbleBy_noswap key rest x hsw
      have hsorted : (x :: rest).Pairwise (fun a b => key a ≤ key b) := by
        haveI : IsTrans α (fun a b => key a ≤ key b) := ⟨fun a b c h1 h2 => le_trans h1 h2⟩
        exact List.chain_iff_pairwise.1 hch
      have : init ++ m :: tail = x :: rest ++ tail := by
        rw [← e, hr]; simp
      rw [this]
      exact List.pairwise_append.2 ⟨hsorted, ht, fun a ha b hb => hc a ha b hb⟩

end Passes

/-! ## The passes of `sort` in a world -/

theorem Owns.same_links {w : World} {owns : Nat → List Nat} (ho : Owns w owns) {h1 : Heap}
    (hs : SameLinks w.heap h1) : Owns { w with heap := h1 } owns := by
  refine ⟨?_, ho.disjoint, ?_⟩
  · intro i Qi hi
    have hr := ho.rep i Qi hi
    exact ⟨hr.nodup, hr.front, hr.rear, hr.size, hs.links hr.links⟩
  · intro a n hn
    have := hs.2 a
    rw [hn] at this
    cases hr : w.heap.read a with
    | none => simp [hr] at this
    | some m => exact ho.covered a m hr

/-- The first `k` passes of `sort` on a non-empty queue holding `s`, in terms of the
passes on values. -/
theorem sortPasses_contents {w : World} {q : Nat} {s : List Int} {fuel : Nat} (hr : Reachable w)
    (hc : contents w q = some s) (hne : s ≠ []) (hf : s.length ≤ fuel) (k : Nat) :
    ∃ h1 last1 Q, w.queues[q]? = some Q ∧
      Queue.sortPasses fuel Q.front k w.heap none = .ok (h1, last1, (passesBy id k s []).2.2) ∧
      sortPasses fuel k w q = .ok ({ w with heap := h1 }, (passesBy id k s []).2.2) ∧
      contents { w with heap := h1 } q
        = some ((passesBy id k s []).1 ++ (passesBy id k s []).2.1) := by
  obtain ⟨owns, ho⟩ := hr.wf
  obtain ⟨Q, hq, hv, -⟩ := ho.contents_inv hc
  have hrep := ho.rep q Q hq
  have hlen : (owns q).length = s.length := by rw [← vals_length w.heap, hv]
  have hone : owns q ≠ [] := by
    intro e
    rw [e] at hv
    exact hne hv.symm
  obtain ⟨h1, last1, hrun, hs, -, hv1⟩ := Queue.sortPasses_vals fuel (owns q) k (owns q) []
    w.heap (by simp) hone hrep.links hrep.nodup (by omega)
  rw [hv] at hrun hv1
  have hvn : vals w.heap [] = [] := rfl
  rw [hvn] at hrun hv1
  rw [← hrep.front] at hrun
  have hrun2 : Queue.sortPasses fuel Q.front k w.heap none
      = .ok (h1, last1, (passesBy id k s []).2.2) := hrun
  have hq1 : ({ w with heap := h1 } : World).queues[q]? = some Q := hq
  refine ⟨h1, last1, Q, hq, hrun2, ?_, ?_⟩
  · simp [sortPasses, World.queue_ok hq, hrun2, bind, Except.bind, pure, Except.pure]
  · rw [(ho.same_links hs).contents_eq hq1]
    exact congrArg some hv1

/-- After as many passes as the queue has elements, the loop is over. -/
theorem passesBy_done {s : List Int} (hne : s ≠ []) : (passesBy id s.length s []).2.2 = false := by
  have h4 := (passesBy_invariant id s.length s [] hne List.Pairwise.nil (by simp)).2.2.2
  cases hrun : (passesBy id s.length s []).2.2 with
  | false => rfl
  | true => exact absurd (h4 hrun).1 (lt_irrefl _)

/-- In a reachable world `sort` returns, given enough fuel, and leaves the sequence that
the passes on values compute. -/
theorem sort_eq_sortBy {w : World} {q : Nat} {s : List Int} {fuel : Nat} (hr : Reachable w)
    (hc : contents w q = some s) (hf : s.length ≤ fuel) :
    ∃ w1, sort fuel w q = .ok w1 ∧ contents w1 q = some (sortBy id s) ∧
      (2 ≤ s.length → sortPasses fuel s.length w q = .ok (w1, false)) := by
  obtain ⟨owns, ho⟩ := hr.wf
  obtain ⟨Q, hq, hv, hsz⟩ := ho.contents_inv hc
  have hrep := ho.rep q Q hq
  by_cases hguard : (Q.isEmpty || Q.size == 1) = true
  · have hlen : s.length ≤ 1 := by
      rcases Bool.or_eq_true _ _ ▸ hguard with he | hs
      · have : owns q = [] := hrep.isEmpty_iff.1 he
        rw [this] at hv
        rw [← hv]
        simp [vals]
      · have h1 : Q.size = 1 := by simpa using hs
        omega
    refine ⟨w, ?_, ?_, fun h2 => by omega⟩
    · simp [sort, World.queue_ok hq, Queue.sort, hguard, bind, Except.bind, pure, Except.pure]
    · rw [hc]
      match s, hlen with
      | [], _ => rfl
      | [x], _ => rfl
  · have hne : s ≠ [] := by
      intro e
      subst e
      have : owns q = [] := vals_eq_nil hv
      have hemp : Q.isEmpty = true := hrep.isEmpty_iff.2 this
      simp [hemp] at hguard
    have h2 : 2 ≤ s.length := by
      have hpos : 0 < s.length := List.length_pos.2 hne
      by_contra hcon
      have h1 : s.length = 1 := by omega
      rw [h1] at hsz
      simp [hsz] at hguard
    obtain ⟨h1, last1, Q1, hq1, hrun, hrunw, hc1⟩ := sortPasses_contents hr hc hne hf s.length
    rw [hq] at hq1
    cases hq1
    rw [passesBy_done hne] at hrun hrunw
    have hloop := Queue.sortLoop_of_sortPasses fuel Q.front s.length w.heap none h1 last1 hrun
    have hloop1 := Queue.sortLoop_mono Q.front s.length fuel fuel fuel w.heap none h1 hf
      (le_refl _) hloop
    refine ⟨{ w with heap := h1 }, ?_, hc1, fun _ => hrunw⟩
    simp [sort, World.queue_ok hq, Queue.sort, hguard, hloop1, bind, Except.bind, pure,
      Except.pure]

/-! ## Claims on `sort` -/

theorem sortBy_map {α : Type} (key : α → Int) (l : List α) :
    (sortBy key l).map key = sortBy id (l.map key) := by
  have h := passesBy_map key l.length l []
  simp only [List.map_nil] at h
  rw [sortBy, sortBy, List.length_map, h, List.map_append]

theorem sortBy_filter {α : Type} (key : α → Int) (l : List α) (v : Int) :
    (sortBy key l).filter (fun e => decide (key e = v)) = l.filter (fun e => decide (key e = v)) := by
  rw [sortBy, passesBy_filter, List.append_nil]

/-- C15: `sort` terminates on every reachable queue.  With fuel at least the number `n`
of elements it returns; when the loop is entered (`n ≥ 2`) it is over after at most `n`
passes, in the state `sort` returns; and whenever the first `k` passes end the loop, which
is at the first pass that leaves `swapped` false, `sort` returns the state they left. -/
theorem sort_terminates (w : World) (q : Nat) (s : List Int) (fuel : Nat) (hr : Reachable w)
    (hc : contents w q = some s) (hf : s.length ≤ fuel) :
    ∃ w1, sort fuel w q = .ok w1 ∧
      (2 ≤ s.length → sortPasses fuel s.length w q = .ok (w1, false)) ∧
      (2 ≤ s.length → ∀ k w2, sortPasses fuel k w q = .ok (w2, false) → w2 = w1) := by
  obtain ⟨w1, hrun, -, hpass⟩ := sort_eq_sortBy hr hc hf
  refine ⟨w1, hrun, hpass, ?_⟩
  intro h2 k w2 hk
  obtain ⟨owns, ho⟩ := hr.wf
  obtain ⟨Q, hq, hv, hsz⟩ := ho.contents_inv hc
  have hguard : ¬ ((Q.isEmpty || Q.size == 1) = true) := by
    have hne : owns q ≠ [] := by
      intro e
      rw [e] at hv
      rw [← hv] at h2
      simp [vals] at h2
    have hemp : Q.isEmpty = false := by
      cases he : Q.isEmpty with
      | false => rfl
      | true => exact absurd ((ho.rep q Q hq).isEmpty_iff.1 he) hne
    have hs1 : Q.size ≠ 1 := by omega
    simp [hemp, hs1]
  -- the heap that the first `k` passes leave
  simp only [sortPasses, World.queue_ok hq, bind, Except.bind] at hk
  cases hp : Queue.sortPasses fuel Q.front k w.heap none with
  | error e => simp [hp] at hk
  | ok x =>
    obtain ⟨h2, last2, running⟩ := x
    simp only [hp, pure, Except.pure] at hk
    have hkw : w2 = { w with heap := h2 } ∧ running = false := by
      have := Except.ok.inj hk
      exact ⟨(congrArg Prod.fst this).symm, congrArg Prod.snd this⟩
    obtain ⟨hw2, hrn⟩ := hkw
    subst hrn
    have hloop := Queue.sortLoop_of_sortPasses fuel Q.front k w.heap none h2 last2 hp
    have hloop1 := Queue.sortLoop_mono Q.front k (max k fuel) fuel fuel w.heap none h2
      (le_max_left _ _) (le_refl _) hloop
    -- the heap that `sort` returns
    simp only [sort, World.queue_ok hq, Queue.sort, hguard, bind, Except.bind] at hrun
    cases hl : Queue.sortLoop fuel Q.front fuel w.heap none with
    | error e => simp [hl] at hrun
    | ok h1 =>
      simp only [hl, pure, Except.pure] at hrun
      have hloop2 := Queue.sortLoop_mono Q.front fuel (max k fuel) fuel fuel w.heap none h1
        (le_max_right _ _) (le_refl _) hl
      rw [hloop1] at hloop2
      have : h2 = h1 := Except.ok.inj hloop2
      subst this
      rw [hw2]
      simpa using hrun

theorem sort_terminates_witness :
    ∃ w1, sort 4 oneFour 0 = .ok w1 ∧
      (2 ≤ ([30, 10, 20, 10] : List Int).length →
        sortPasses 4 ([30, 10, 20, 10] : List Int).length oneFour 0 = .ok (w1, false)) ∧
      (2 ≤ ([30, 10, 20, 10] : List Int).length →
        ∀ k w2, sortPasses 4 k oneFour 0 = .ok (w2, false) → w2 = w1) :=
  sort_terminates oneFour 0 [30, 10, 20, 10] 4 oneFour_reachable rfl (by decide)

/-- C19: the invariant behind the shrinking scan range.  In a reachable world, for a
queue of `n` elements, `1 ≤ k ≤ n` and fuel at least `n`: the first `k` passes of the
loop of `sort` leave a sequence whose last `k` values ascend and are no smaller than any
value before them, the whole being a permutation of the values of the queue; so the last
`k` positions hold the `k` largest values in ascending order. -/
theorem sort_pass_invariant (w : World) (q : Nat) (s : List Int) (fuel k : Nat)
    (hr : Reachable w) (hc : contents w q = some s) (hf : s.length ≤ fuel) (hk1 : 1 ≤ k)
    (hk : k ≤ s.length) :
    ∃ w1 running pre suf, sortPasses fuel k w q = .ok (w1, running) ∧
      contents w1 q = some (pre ++ suf) ∧ suf.length = k ∧ suf.Sorted (· ≤ ·) ∧
      (∀ x ∈ pre, ∀ y ∈ suf, x ≤ y) ∧ (pre ++ suf).Perm s := by
  have hne : s ≠ [] := by
    intro e
    subst e
    simp at hk
    omega
  obtain ⟨h1, last1, Q, hq, -, hrunw, hc1⟩ := sortPasses_contents hr hc hne hf k
  obtain ⟨i1, i2, i3, i4⟩ := passesBy_invariant id k s [] hne List.Pairwise.nil (by simp)
  have hperm := passesBy_perm id k s []
  rw [List.append_nil] at hperm
  cases hrn : (passesBy id k s []).2.2 with
  | true =>
    refine ⟨_, _, (passesBy id k s []).1, (passesBy id k s []).2.1, hrunw, hc1, ?_, i1, i2, hperm⟩
    simpa using (i4 hrn).2
  | false =>
    have hsorted := i3 hrn
    have hlen : ((passesBy id k s []).1 ++ (passesBy id k s []).2.1).length = s.length :=
      hperm.length_eq
    generalize (passesBy id k s []).1 ++ (passesBy id k s []).2.1 = l at hsorted hlen hperm hc1
    have hsplit : l.take (s.length - k) ++ l.drop (s.length - k) = l := List.take_append_drop _ _
    have hpw : (l.take (s.length - k) ++ l.drop (s.length - k)).Pairwise
        (fun a b => id a ≤ id b) := by rw [hsplit]; exact hsorted
    obtain ⟨-, hs2, hs3⟩ := List.pairwise_append.1 hpw
    refine ⟨_, _, l.take (s.length - k), l.drop (s.length - k), hrunw, ?_, ?_, hs2, hs3, ?_⟩
    · rw [hsplit]; exact hc1
    · rw [List.length_drop]; omega
    · rw [hsplit]; exact hperm

theorem sort_pass_invariant_witness :
    ∃ w1 running pre suf, sortPasses 4 2 oneFour 0 = .ok (w1, running) ∧
      contents w1 0 = some (pre ++ suf) ∧ suf.length = 2 ∧ suf.Sorted (· ≤ ·) ∧
      (∀ x ∈ pre, ∀ y ∈ suf, x ≤ y) ∧ (pre ++ suf).Perm [30, 10, 20, 10] :=
  sort_pass_invariant oneFour 0 [30, 10, 20, 10] 4 2 oneFour_reachable rfl (by decide)
    (by decide) (by decide)

/-! ## A run that stops for another reason than fuel stops the same way with more fuel -/

theorem Queue.sortScan_settled (last : Option Nat) : ∀ (fuel fuel1 : Nat) (h : Heap)
    (cur : Option Nat) (sw : Bool), fuel ≤ fuel1 →
    Queue.sortScan last fuel h cur sw ≠ .error .timeout →
    Queue.sortScan last fuel1 h cur sw = Queue.sortScan last fuel h cur sw
  | 0, _, _, _, _, _, hne => by simp [Queue.sortScan] at hne
  | fuel + 1, 0, _, _, _, hle, _ => by omega
  | fuel + 1, fuel1 + 1, h, cur, sw, hle, hne => by
    have ih := fun h cur sw => Queue.sortScan_settled last fuel fuel1 h cur sw (by omega)
    rw [Queue.sortScan] at hne ⊢
    rw [Queue.sortScan]
    cases hc : h.deref cur with
    | error e => simp [hc, bind, Except.bind]
    | ok c =>
      simp only [hc, bind, Except.bind] at hne ⊢
      by_cases h1 : c.next = last
      · simp [h1]
      · simp only [h1, if_false] at hne ⊢
        cases hn : h.deref c.next with
        | error e => simp [hn]
        | ok n =>
          simp only [hn] at hne ⊢
          by_cases h2 : c.data > n.data
          · simp only [h2, if_true] at hne ⊢
            cases hu1 : h.update cur (fun x => { x with data := n.data }) with
            | error e => simp [hu1]
            | ok h1 =>
              simp only [hu1] at hne ⊢
              cases hc1 : h1.deref cur with
              | error e => simp [hc1]
              | ok c1 =>
                simp only [hc1] at hne ⊢
                cases hu2 : h1.update c1.next (fun x => { x with data := c.data }) with
                | error e => simp [hu2]
                | ok h2 =>
                  simp only [hu2] at hne ⊢
                  cases hc2 : h2.deref cur with
                  | error e => simp [hc2]
                  | ok c2 =>
                    simp only [hc2] at hne ⊢
                    exact ih _ _ _ hne
          · simp only [h2, if_false] at hne ⊢
            exact ih _ _ _ hne

theorem Queue.sortLoop_settled (front : Option Nat) : ∀ (passes passes1 fuel fuel1 : Nat)
    (h : Heap) (last : Option Nat), passes ≤ passes1 → fuel ≤ fuel1 →
    Queue.sortLoop fuel front passes h last ≠ .error .timeout →
    Queue.sortLoop fuel1 front passes1 h last = Queue.sortLoop fuel front passes h last
  | 0, _, _, _, _, _, _, _, hne => by simp [Queue.sortLoop] at hne
  | passes + 1, 0, _, _, _, _, hle, _, _ => by omega
  | passes + 1, passes1 + 1, fuel, fuel1, h, last, hle, hf, hne => by
    have ih := fun h last =>
      Queue.sortLoop_settled front passes passes1 fuel fuel1 h last (by omega) hf
    rw [Queue.sortLoop] at hne ⊢
    rw [Queue.sortLoop]
    have hscan : Queue.sortScan last fuel h front false ≠ .error .timeout := by
      intro e
      simp [e, bind, Except.bind] at hne
    rw [Queue.sortScan_settled last fuel fuel1 h front false hf hscan]
    cases hs : Queue.sortScan last fuel h front false with
    | error e => simp [bind, Except.bind]
    | ok x =>
      obtain ⟨h1, current, swapped⟩ := x
      simp only [hs, bind, Except.bind] at hne ⊢
      cases swapped with
      | true =>
        simp only [if_true] at hne ⊢
        exact ih _ _ hne
      | false => simp

theorem sort_settled {fuel fuel1 : Nat} {w : World} {q : Nat} (hle : fuel ≤ fuel1)
    (hne : sort fuel w q ≠ .error .timeout) : sort fuel1 w q = sort fuel w q := by
  unfold sort at hne ⊢
  cases hq : w.queue q with
  | error e => simp [bind, Except.bind]
  | ok Q =>
    simp only [hq, bind, Except.bind] at hne ⊢
    unfold Queue.sort at hne ⊢
    by_cases hg : (Q.isEmpty || Q.size == 1) = true
    · simp [hg]
    · simp only [hg] at hne ⊢
      have hl : Queue.sortLoop fuel Q.front fuel w.heap none ≠ .error .timeout := by
        intro e
        simp [e] at hne
      rw [Queue.sortLoop_settled Q.front fuel fuel1 fuel fuel1 w.heap none hle hle hl]

/-- C18: `sort` never follows a null link.  In a reachable world, on any queue (empty,
single-element or longer) no run of `sort` stops at a null or dead pointer, whatever the
fuel: each `current->next` and `current->next->data` of the inner loop is read through a
live node.  With fuel at least the count `sort` returns, and on an empty queue the guard
returns at once, before any pointer is read. -/
theorem sort_never_faults (w : World) (q : Nat) (Q : Queue) (hr : Reachable w)
    (hq : w.queue q = .ok Q) :
    (∀ fuel, sort fuel w q ≠ .error .fault) ∧
      (∀ fuel : Nat, Q.size ≤ (fuel : Int) → ∃ w1, sort fuel w q = .ok w1) ∧
      (Q.isEmpty = true → ∀ fuel, sort fuel w q = .ok w) := by
  obtain ⟨owns, ho⟩ := hr.wf
  have hq1 := World.queue_of_ok hq
  have hrep := ho.rep q Q hq1
  have hc : contents w q = some (vals w.heap (owns q)) := ho.contents_eq hq1
  have hok : ∀ fuel : Nat, Q.size ≤ (fuel : Int) → ∃ w1, sort fuel w q = .ok w1 := by
    intro fuel hf
    have hf1 : (vals w.heap (owns q)).length ≤ fuel := by
      rw [vals_length]
      have := hrep.size
      omega
    obtain ⟨w1, hrun, -⟩ := sort_eq_sortBy hr hc hf1
    exact ⟨w1, hrun⟩
  refine ⟨?_, hok, ?_⟩
  · intro fuel hfault
    obtain ⟨w1, hrun⟩ := hok (max fuel (owns q).length) (by
      rw [hrep.size]
      exact_mod_cast le_max_right _ _)
    have hne : sort fuel w q ≠ .error .timeout := by
      rw [hfault]
      intro e
      cases e
    rw [sort_settled (le_max_left _ _) hne, hfault] at hrun
    cases hrun
  · intro he fuel
    simp [sort, hq, Queue.sort, he, bind, Except.bind, pure, Except.pure]

theorem sort_never_faults_witness :
    (∀ fuel, sort fuel oneFour 0 ≠ .error .fault) ∧
      (∀ fuel : Nat, (⟨some 0, some 3, 4⟩ : Queue).size ≤ (fuel : Int) →
        ∃ w1, sort fuel oneFour 0 = .ok w1) ∧
      ((⟨some 0, some 3, 4⟩ : Queue).isEmpty = true → ∀ fuel, sort fuel oneFour 0 = .ok oneFour) :=
  sort_never_faults oneFour 0 ⟨some 0, some 3, 4⟩ oneFour_reachable rfl

/-! ## The observers change nothing -/

theorem searchLoopRun_eq (value : Int) : ∀ (fuel : Nat) (w : World) (cur : Option Nat)
    (pos : Nat),
    searchLoopRun value fuel w cur pos
      = (Queue.searchLoop w.heap value fuel cur pos).map (fun r => (r, w))
  | 0, _, none, _ => rfl
  | _ + 1, _, none, _ => rfl
  | 0, _, some _, _ => rfl
  | fuel + 1, w, some a, pos => by
    rw [searchLoopRun, Queue.searchLoop]
    cases hc : w.heap.deref (some a) with
    | error e => simp [World.load, hc, bind, Except.bind, Except.map]
    | ok c =>
      simp only [World.load, hc, bind, Except.bind, pure, Except.pure]
      by_cases hd : c.data = value
      · simp [hd, Except.map]
      · simp only [hd, if_false]
        exact searchLoopRun_eq value fuel w c.next (pos + 1)

theorem searchRun_eq (fuel : Nat) (w : World) (q : Nat) (value : Int) :
    searchRun fuel w q value = (search fuel w q value).map (fun r => (r, w)) := by
  unfold searchRun search
  cases hq : w.queue q with
  | error e => simp [World.loadQueue, hq, bind, Except.bind, Except.map]
  | ok Q =>
    simp only [World.loadQueue, hq, bind, Except.bind, pure, Except.pure, Queue.search]
    exact searchLoopRun_eq value fuel w Q.front 0

/-- In a reachable world `search` returns, given enough fuel. -/
theorem search_returns {w : World} {q : Nat} {s : List Int} {fuel : Nat} (v : Int)
    (hr : Reachable w) (hc : contents w q = some s) (hf : s.length ≤ fuel) :
    ∃ r, search fuel w q v = .ok r := by
  obtain ⟨owns, ho⟩ := hr.wf
  obtain ⟨Q, hq, hv, -⟩ := ho.contents_inv hc
  have hrep := ho.rep q Q hq
  have hf1 : (owns q).length ≤ fuel := by
    rw [← vals_length w.heap, hv]; exact hf
  have hsearch : search fuel w q v = Queue.searchLoop w.heap v fuel (owns q).head? 0 := by
    simp [search, World.queue_ok hq, Queue.search, hrep.front, bind, Except.bind]
  by_cases hmem : v ∈ s
  · obtain ⟨pre, post, hs, hpre⟩ := first_occurrence hmem
    exact ⟨_, hsearch.trans
      (Queue.searchLoop_present fuel 0 pre post hrep.links hf1 (hv.trans hs) hpre)⟩
  · exact ⟨_, hsearch.trans (Queue.searchLoop_absent fuel 0 hrep.links hf1 (hv ▸ hmem))⟩

/-- C16: the observers are pure.  In state-passing style, `search(v)`, `isEmpty()` and
`getSize()` hand back the world they were given (heap and queue objects, so front, rear,
count and every node), together with the result of the plain observer; on a reachable
queue holding `s`, `search` does return when given at least `s.length` fuel. -/
theorem observers_pure (w : World) (q : Nat) (s : List Int) (v : Int) (fuel : Nat)
    (hr : Reachable w) (hc : contents w q = some s) (hf : s.length ≤ fuel) :
    (∃ r, searchRun fuel w q v = .ok (r, w) ∧ search fuel w q v = .ok r) ∧
      (∃ b, isEmptyRun w q = .ok (b, w) ∧ isEmpty w q = .ok b) ∧
      (∃ n, getSizeRun w q = .ok (n, w) ∧ getSize w q = .ok n) ∧
      (∀ k r w1, searchRun k w q v = .ok (r, w1) → w1 = w) := by
  obtain ⟨r, hrun⟩ := search_returns v hr hc hf
  obtain ⟨Q, hq⟩ := contents_valid hc
  refine ⟨⟨r, ?_, hrun⟩, ⟨Q.isEmpty, ?_, isEmpty_eq hq⟩, ⟨Q.size, ?_, getSize_eq hq⟩, ?_⟩
  · rw [searchRun_eq, hrun]
    rfl
  · simp [isEmptyRun, World.loadQueue, World.queue_ok hq, Queue.isEmpty, bind, Except.bind, pure,
      Except.pure]
  · simp [getSizeRun, World.loadQueue, World.queue_ok hq, bind, Except.bind, pure, Except.pure]
  · intro k r1 w1 hk
    rw [searchRun_eq] at hk
    cases hs : search k w q v with
    | error e => simp [hs, Except.map] at hk
    | ok x =>
      simp only [hs, Except.map] at hk
      exact (congrArg Prod.snd (Except.ok.inj hk)).symm

theorem observers_pure_witness :
    (∃ r, searchRun 4 oneFour 0 20 = .ok (r, oneFour) ∧ search 4 oneFour 0 20 = .ok r) ∧
      (∃ b, isEmptyRun oneFour 0 = .ok (b, oneFour) ∧ isEmpty oneFour 0 = .ok b) ∧
      (∃ n, getSizeRun oneFour 0 = .ok (n, oneFour) ∧ getSize oneFour 0 = .ok n) ∧
      (∀ k r w1, searchRun k oneFour 0 20 = .ok (r, w1) → w1 = oneFour) :=
  observers_pure oneFour 0 [30, 10, 20, 10] 20 4 oneFour_reachable rfl (by decide)

/-! ## `merge` of a queue into itself -/

/-- One iteration of the copy loop when the cursor is a node of the receiving queue: the
queue grows by one node and the cursor moves to the next node of the grown chain. -/
theorem selfCopy_step {w : World} {owns : Nat → List Nat} {q : Nat} {Q : Queue} {a i : Nat}
    (ho : Owns w owns) (hq : w.queues[q]? = some Q) (ha : (owns q)[i]? = some a) :
    ∃ c w1 owns1 Q1 c1 a1, w.heap.deref (some a) = .ok c ∧ enqueue w q c.data = .ok w1 ∧
      w1.heap.deref (some a) = .ok c1 ∧ c1.next = some a1 ∧ Owns w1 owns1 ∧
      w1.queues[q]? = some Q1 ∧ (owns1 q)[i + 1]? = some a1 ∧
      (owns1 q).length = (owns q).length + 1 ∧ Q1.size = Q.size + 1 := by
  have hi : i < (owns q).length := by
    by_contra hcon
    rw [List.getElem?_eq_none (by omega)] at ha
    cases ha
  have hmem : a ∈ owns q := List.getElem?_mem ha
  obtain ⟨c, hc⟩ := (ho.rep q Q hq).links.live a hmem
  obtain ⟨h1, Q1, hrun, ⟨hrep1, -, hsz1, -, -⟩, ho1⟩ := enqueue_owns ho hq c.data
  obtain ⟨b, c1, hb, hc1, hnx, -⟩ := hrep1.links.node_at i (by simp; omega)
  rw [List.getElem?_append_left hi, ha] at hb
  cases hb
  have hlt : i + 1 < (owns q ++ [w.heap.length]).length := by simp; omega
  have hnext : (owns q ++ [w.heap.length])[i + 1]? = some (owns q ++ [w.heap.length])[i + 1] :=
    List.getElem?_eq_getElem hlt
  refine ⟨c, _, _, Q1, c1, _, ?_, hrun, ?_, hnx.trans hnext, ho1,
    getElem?_set_this Q1 (World.lt_of_queue hq), ?_, ?_, hsz1⟩
  · simp [Heap.deref, hc]
  · simp [Heap.deref, hc1]
  · rw [Function.update_same]; exact hnext
  · rw [Function.update_same]; simp

/-- The copy loop of a queue into itself, iteration by iteration. -/
theorem selfCopy_iter {q : Nat} : ∀ (k : Nat) (w : World) (owns : Nat → List Nat) (Q : Queue)
    (a i : Nat), Owns w owns → w.queues[q]? = some Q → (owns q)[i]? = some a →
    ∃ wk ownsk Qk ak, mergeCopyIter q k w (some a) = .ok (wk, some ak) ∧ Owns wk ownsk ∧
      wk.queues[q]? = some Qk ∧ (ownsk q).length = (owns q).length + k ∧
      Qk.size = Q.size + k
  | 0, w, owns, Q, a, _, ho, hq, _ => ⟨w, owns, Q, a, rfl, ho, hq, rfl, by simp⟩
  | k + 1, w, owns, Q, a, i, ho, hq, ha => by
    obtain ⟨c, w1, owns1, Q1, c1, a1, hc, hen, hc1, hnx, ho1, hq1, ha1, hlen1, hsz1⟩ :=
      selfCopy_step ho hq ha
    obtain ⟨wk, ownsk, Qk, ak, hrun, hok, hqk, hlenk, hszk⟩ :=
      selfCopy_iter k w1 owns1 Q1 a1 (i + 1) ho1 hq1 ha1
    refine ⟨wk, ownsk, Qk, ak, ?_, hok, hqk, by omega, ?_⟩
    · rw [mergeCopyIter]
      simp only [hc, hen, hc1, bind, Except.bind, hnx]
      exact hrun
    · rw [hszk, hsz1]
      push_cast
      ring

/-- The copy loop of a queue into itself exhausts any fuel. -/
theorem selfCopy_timeout {q : Nat} : ∀ (fuel : Nat) (w : World) (owns : Nat → List Nat)
    (Q : Queue) (a i : Nat), Owns w owns → w.queues[q]? = some Q → (owns q)[i]? = some a →
    mergeCopy q fuel w (some a) = .error .timeout
  | 0, _, _, _, _, _, _, _, _ => rfl
  | fuel + 1, w, owns, Q, a, i, ho, hq, ha => by
    obtain ⟨c, w1, owns1, Q1, c1, a1, hc, hen, hc1, hnx, ho1, hq1, ha1, -, -⟩ :=
      selfCopy_step ho hq ha
    rw [mergeCopy]
    simp only [hc, hen, hc1, bind, Except.bind, hnx]
    exact selfCopy_timeout fuel w1 owns1 Q1 a1 (i + 1) ho1 hq1 ha1

/-- C20: self-merge does not terminate.  In a reachable world, when `merge` is called on
a non-empty queue with that same queue as argument, the run exhausts every fuel: the copy
loop never meets a null `next`.  After any number `k` of iterations of the copy loop the
cursor is non-null and the queue holds `k` elements more than before (sequence and
count). -/
theorem self_merge_diverges (w : World) (q : Nat) (s : List Int) (Q : Queue) (hr : Reachable w)
    (hc : contents w q = some s) (hne : s ≠ []) (hq : w.queue q = .ok Q) :
    (∀ fuel, merge fuel w q q = .error .timeout) ∧
      (∀ k, ∃ wk ak sk, mergeCopyIter q k w Q.front = .ok (wk, some ak) ∧
        contents wk q = some sk ∧ sk.length = s.length + k ∧
        getSize wk q = .ok ((s.length : Int) + k)) := by
  obtain ⟨owns, ho⟩ := hr.wf
  obtain ⟨Q0, hq0, hv, hsz⟩ := ho.contents_inv hc
  have hQ : Q0 = Q := by
    rw [World.queue_ok hq0] at hq
    exact Except.ok.inj hq
  subst hQ
  have hrep := ho.rep q Q0 hq0
  obtain ⟨a, rest, has⟩ : ∃ a rest, owns q = a :: rest := by
    cases hoq : owns q with
    | nil =>
      rw [hoq] at hv
      exact absurd hv.symm hne
    | cons a rest => exact ⟨a, rest, rfl⟩
  have hfront : Q0.front = some a := by rw [hrep.front, has]; rfl
  have ha : (owns q)[0]? = some a := by rw [has]; simp
  have hemp : Q0.isEmpty = false := by simp [Queue.isEmpty, hfront]
  refine ⟨?_, ?_⟩
  · intro fuel
    have hcopy := selfCopy_timeout fuel w owns Q0 a 0 ho hq0 ha
    simp [merge, World.queue_ok hq0, hemp, hfront, hcopy, bind, Except.bind]
  · intro k
    obtain ⟨wk, ownsk, Qk, ak, hrun, hok, hqk, hlenk, hszk⟩ :=
      selfCopy_iter k w owns Q0 a 0 ho hq0 ha
    have hlen : (owns q).length = s.length := by rw [← vals_length w.heap, hv]
    refine ⟨wk, ak, vals wk.heap (ownsk q), ?_, hok.contents_eq hqk, ?_, ?_⟩
    · rw [hfront]; exact hrun
    · rw [vals_length, hlenk, hlen]
    · rw [getSize_eq hqk, hszk, hsz]

theorem self_merge_diverges_witness :
    (∀ fuel, merge fuel oneFour 0 0 = .error .timeout) ∧
      (∀ k, ∃ wk ak sk,
        mergeCopyIter 0 k oneFour (⟨some 0, some 3, 4⟩ : Queue).front = .ok (wk, some ak) ∧
        contents wk 0 = some sk ∧ sk.length = ([30, 10, 20, 10] : List Int).length + k ∧
        getSize wk 0 = .ok ((([30, 10, 20, 10] : List Int).length : Int) + k)) :=
  self_merge_diverges oneFour 0 [30, 10, 20, 10] ⟨some 0, some 3, 4⟩ oneFour_reachable rfl
    (by decide) rfl

/-! ## Live nodes -/

theorem Heap.map_read_range (h : Heap) : (List.range h.length).map h.read = h := by
  apply List.ext_getElem
  · simp
  · intro i h1 h2
    simp [Heap.read_eq, List.getElem?_eq_getElem h2]

theorem Heap.liveCount_eq (h : Heap) :
    h.liveCount = ((List.range h.length).filter (fun a => (h.read a).isSome)).length := by
  have e : h.liveCount = ((List.range h.length).map h.read).countP Option.isSome := by
    rw [Heap.map_read_range]; rfl
  rw [e, List.countP_map, List.countP_eq_length_filter]
  rfl

/-- In a described world the live nodes are the owned ones, each counted once. -/
theorem Owns.liveCount_eq_totalSize {w : World} {owns : Nat → List Nat} (ho : Owns w owns) :
    (w.heap.liveCount : Int) = w.totalSize := by
  have hq : ∀ i, i < w.queues.length → ∃ Q, w.queues[i]? = some Q := fun i hi =>
    ⟨_, List.getElem?_eq_getElem hi⟩
  have hnd : ((List.range w.queues.length).flatMap owns).Nodup := by
    rw [List.nodup_flatMap]
    constructor
    · intro i hi
      obtain ⟨Q, hQ⟩ := hq i (List.mem_range.1 hi)
      exact (ho.rep i Q hQ).nodup
    · refine List.Pairwise.imp_of_mem ?_ (List.pairwise_lt_range _)
      intro i j hi hj hij
      exact ho.disjoint i j (List.mem_range.1 hi) (List.mem_range.1 hj) (Nat.ne_of_lt hij)
  have hperm : ((List.range w.heap.length).filter (fun a => (w.heap.read a).isSome)).Perm
      ((List.range w.queues.length).flatMap owns) := by
    rw [List.perm_ext_iff_of_nodup ((List.nodup_range _).filter _) hnd]
    intro a
    simp only [List.mem_filter, List.mem_range, List.mem_flatMap]
    constructor
    · rintro ⟨-, hlive⟩
      obtain ⟨n, hn⟩ := Option.isSome_iff_exists.1 hlive
      exact ho.covered a n hn
    · rintro ⟨i, hi, hai⟩
      obtain ⟨Q, hQ⟩ := hq i hi
      obtain ⟨n, hn⟩ := (ho.rep i Q hQ).links.live a hai
      exact ⟨Heap.read_lt hn, by rw [hn]; rfl⟩
  have hsizes : w.queues.map Queue.size
      = (List.range w.queues.length).map (fun i => (((owns i).length : Nat) : Int)) := by
    apply List.ext_getElem
    · simp
    · intro i h1 h2
      simp only [List.getElem_map, List.getElem_range]
      have hi : i < w.queues.length := by simpa using h1
      exact (ho.rep i _ (List.getElem?_eq_getElem hi)).size
  rw [Heap.liveCount_eq, hperm.length_eq, List.length_flatMap, World.totalSize, hsizes,
    Nat.cast_list_sum, List.map_map]
  rfl

/-- One `enqueue` followed by one `dequeue` on an empty queue leaves the queue objects
as they were and one dead cell more in the heap. -/
theorem pair_on_empty {w : World} {q : Nat} {Q : Queue} (hq : w.queues[q]? = some Q)
    (hf : Q.front = none) (hre : Q.rear = none) (v : Int) :
    ∃ w1, enqueue w q v = .ok w1 ∧
      dequeue w1 q = .ok { world := { w with heap := w.heap ++ [none] }, value := v,
                           printed := [] } := by
  obtain ⟨f, r, sz⟩ := Q
  simp only at hf hre
  subst hf
  subst hre
  have hqlt := World.lt_of_queue hq
  refine ⟨{ heap := w.heap ++ [some ⟨v, none, none⟩],
            queues := w.queues.set q ⟨some w.heap.length, some w.heap.length, sz + 1⟩ }, ?_, ?_⟩
  · simp [enqueue, World.queue_ok hq, Queue.enqueue, Heap.alloc, Queue.isEmpty, bind, Except.bind,
      pure, Except.pure]
  · have hq1 : (w.queues.set q ⟨some w.heap.length, some w.heap.length, sz + 1⟩)[q]?
        = some ⟨some w.heap.length, some w.heap.length, sz + 1⟩ := getElem?_set_this _ hqlt
    have hread : Heap.read (w.heap ++ [some ⟨v, none, none⟩]) w.heap.length
        = some ⟨v, none, none⟩ := Heap.read_append_new _ _
    have hset : (w.heap ++ [some (Node.mk v none none)]).set w.heap.length none
        = w.heap ++ [none] := by
      rw [List.set_append_right _ _ (le_refl _)]
      simp
    have hqk : World.queue (World.mk (w.heap ++ [some (Node.mk v none none)])
        (w.queues.set q ⟨some w.heap.length, some w.heap.length, sz + 1⟩)) q
        = .ok ⟨some w.heap.length, some w.heap.length, sz + 1⟩ := World.queue_ok hq1
    simp [dequeue, hqk, Queue.dequeue, Queue.isEmpty, Heap.deref, Heap.free, hread,
      hset, bind, Except.bind, pure, Except.pure]
    exact set_queue_self hq

theorem enqueueDequeuePairs_on_empty {q : Nat} {Q : Queue} (hf : Q.front = none)
    (hre : Q.rear = none) : ∀ (vs : List Int) (w : World), w.queues[q]? = some Q →
    enqueueDequeuePairs q vs w
      = .ok ({ w with heap := w.heap ++ List.replicate vs.length none },
             vs.map (fun v => (v, [])))
  | [], w, _ => by simp [enqueueDequeuePairs]
  | v :: vs, w, hq => by
    obtain ⟨w1, hen, hde⟩ := pair_on_empty hq hf hre v
    have ih := enqueueDequeuePairs_on_empty hf hre vs { w with heap := w.heap ++ [none] } hq
    rw [enqueueDequeuePairs]
    simp only [hen, hde, ih, bind, Except.bind, pure, Except.pure]
    simp [List.replicate_succ]

theorem Heap.liveCount_append_dead (h : Heap) (k : Nat) :
    Heap.liveCount (h ++ List.replicate k none) = h.liveCount := by
  simp [Heap.liveCount, List.countP_replicate]

/-- C17: repeated enqueue/dequeue pairs leak nothing.  In a reachable world, on an
empty queue, performing `enqueue(v)` then `dequeue()` for each of the `N` values of a
list succeeds, each `dequeue` returning the value just enqueued without underflow.
Afterwards the queue is empty (front and rear null, count 0), all queue objects are as
before, and the heap is the old heap followed by `N` dead cells: each of the `N` nodes
created has been released, so as many nodes are live as before (none, if none was).
In every reachable world the number of live nodes equals the sum of the counts of its
queues. -/
theorem pairs_leak_nothing (w : World) (q : Nat) (vs : List Int) (hr : Reachable w)
    (he : isEmpty w q = .ok true) :
    ∃ w1 Q1, enqueueDequeuePairs q vs w = .ok (w1, vs.map (fun v => (v, []))) ∧
      w1.queue q = .ok Q1 ∧ Q1.front = none ∧ Q1.rear = none ∧ Q1.size = 0 ∧
      w1.queues = w.queues ∧ w1.heap = w.heap ++ List.replicate vs.length none ∧
      w1.heap.liveCount = w.heap.liveCount ∧
      (w.heap.liveCount = 0 → ∀ a, w1.heap.read a = none) ∧
      (∀ u, Reachable u → (u.heap.liveCount : Int) = u.totalSize) := by
  obtain ⟨owns, ho⟩ := hr.wf
  obtain ⟨Q, hq, hQ⟩ := isEmpty_inv he
  have hrep := ho.rep q Q hq
  have hnil : owns q = [] := hrep.isEmpty_iff.1 hQ
  have hf : Q.front = none := by rw [hrep.front, hnil]; rfl
  have hre : Q.rear = none := by rw [hrep.rear, hnil]; rfl
  have hsz : Q.size = 0 := by rw [hrep.size, hnil]; rfl
  have hlive := Heap.liveCount_append_dead w.heap vs.length
  refine ⟨_, Q, enqueueDequeuePairs_on_empty hf hre vs w hq, World.queue_ok hq, hf, hre, hsz,
    rfl, rfl, hlive, ?_, ?_⟩
  · intro h0 a
    show Heap.read (w.heap ++ List.replicate vs.length none) a = none
    cases hread : Heap.read (w.heap ++ List.replicate vs.length none) a with
    | none => rfl
    | some n =>
      exfalso
      have hpos : 0 < Heap.liveCount (w.heap ++ List.replicate vs.length none) := by
        rw [Heap.liveCount, List.countP_pos_iff]
        refine ⟨some n, ?_, rfl⟩
        rw [Heap.read_eq] at hread
        cases hg : (w.heap ++ List.replicate vs.length none)[a]? with
        | none => simp [hg] at hread
        | some x =>
          simp [hg] at hread
          subst hread
          exact List.getElem?_mem hg
      omega
  · intro u hu
    obtain ⟨ownsu, hou⟩ := hu.wf
    exact hou.liveCount_eq_totalSize

theorem pairs_leak_nothing_witness :
    ∃ w1 Q1, enqueueDequeuePairs 0 [100, 7, 100] oneEmpty
        = .ok (w1, [100, 7, 100].map (fun v => (v, []))) ∧
      w1.queue 0 = .ok Q1 ∧ Q1.front = none ∧ Q1.rear = none ∧ Q1.size = 0 ∧
      w1.queues = oneEmpty.queues ∧
      w1.heap = oneEmpty.heap ++ List.replicate ([100, 7, 100] : List Int).length none ∧
      w1.heap.liveCount = oneEmpty.heap.liveCount ∧
      (oneEmpty.heap.liveCount = 0 → ∀ a, w1.heap.read a = none) ∧
      (∀ u, Reachable u → (u.heap.liveCount : Int) = u.totalSize) :=
  pairs_leak_nothing oneEmpty 0 [100, 7, 100] oneEmpty_reachable rfl

/-! ## The run with tags is the run of the code -/

section Tagged

variable {τ : Type}

/-- Dropping the tags from the inner loop run with tags gives the inner loop of the
code: same heap, same final `current`, same `swapped`. -/
theorem Queue.sortScanTagged_erase (last : Option Nat) : ∀ (fuel : Nat) (h : Heap) (g : Nat → τ)
    (cur : Option Nat) (sw : Bool),
    (Queue.sortScanTagged last fuel h g cur sw).map (fun r => (r.1, r.2.2))
      = Queue.sortScan last fuel h cur sw
  | 0, _, _, _, _ => rfl
  | fuel + 1, h, g, cur, sw => by
    have ih := Queue.sortScanTagged_erase last fuel
    rw [Queue.sortScanTagged, Queue.sortScan]
    cases hc : h.deref cur with
    | error e => simp [bind, Except.bind, Except.map]
    | ok c =>
      simp only [bind, Except.bind]
      by_cases h1 : c.next = last
      · simp [h1, Except.map, pure, Except.pure]
      · simp only [h1, if_false]
        cases hn : h.deref c.next with
        | error e => simp [Except.map]
        | ok n =>
          simp only []
          by_cases h2 : c.data > n.data
          · simp only [h2, if_true]
            cases hu1 : h.update cur (fun x => { x with data := n.data }) with
            | error e => simp [Except.map]
            | ok h1 =>
              simp only []
              cases hc1 : h1.deref cur with
              | error e => simp [Except.map]
              | ok c1 =>
                simp only []
                cases hu2 : h1.update c1.next (fun x => { x with data := c.data }) with
                | error e => simp [Except.map]
                | ok h2 =>
                  simp only []
                  cases hc2 : h2.deref cur with
                  | error e => simp [Except.map]
                  | ok c2 =>
                    simp only []
                    exact ih _ _ _ _
          · simp only [h2, if_false]
            exact ih _ _ _ _

/-- Dropping the tags from the outer loop run with tags gives the outer loop of the
code. -/
theorem Queue.sortLoopTagged_erase (fuel : Nat) (front : Option Nat) : ∀ (passes : Nat)
    (h : Heap) (g : Nat → τ) (last : Option Nat),
    (Queue.sortLoopTagged fuel front passes h g last).map Prod.fst
      = Queue.sortLoop fuel front passes h last
  | 0, _, _, _ => rfl
  | passes + 1, h, g, last => by
    rw [Queue.sortLoopTagged, Queue.sortLoop, ← Queue.sortScanTagged_erase last fuel h g front false]
    cases hs : Queue.sortScanTagged last fuel h g front false with
    | error e => simp [bind, Except.bind, Except.map]
    | ok x =>
      obtain ⟨h1, g1, current, swapped⟩ := x
      simp only [bind, Except.bind, Except.map]
      cases swapped with
      | true =>
        simp only [if_true]
        exact Queue.sortLoopTagged_erase fuel front passes h1 g1 current
      | false => simp [pure, Except.pure]

theorem Queue.sortTagged_erase_heap (fuel : Nat) (h : Heap) (g : Nat → τ) (Q : Queue) :
    (Queue.sortTagged fuel h g Q).map Prod.fst = Queue.sort fuel h Q := by
  unfold Queue.sortTagged Queue.sort
  split
  · rfl
  · exact Queue.sortLoopTagged_erase fuel Q.front fuel h g none

/-- Dropping the tags from `sort` run with tags gives `sort`. -/
theorem sortTagged_erase (fuel : Nat) (w : World) (g : Nat → τ) (q : Nat) :
    (sortTagged fuel w g q).map Prod.fst = sort fuel w q := by
  unfold sortTagged sort
  cases hq : w.queue q with
  | error e => simp [bind, Except.bind, Except.map]
  | ok Q =>
    simp only [bind, Except.bind]
    rw [← Queue.sortTagged_erase_heap fuel w.heap g Q]
    cases hs : Queue.sortTagged fuel w.heap g Q with
    | error e => simp [Except.map]
    | ok x => simp [Except.map, pure, Except.pure]

end Tagged

/-! ## What the run with tags does to the tagged values -/

section TaggedSpec

variable {τ : Type}

theorem tagged_fst (h : Heap) (g : Nat → τ) (as : List Nat) :
    (tagged h g as).map Prod.fst = vals h as := by
  simp [tagged, vals]

theorem tagged_length (h : Heap) (g : Nat → τ) (as : List Nat) :
    (tagged h g as).length = as.length := by
  simp [tagged]

theorem tagged_append (h : Heap) (g : Nat → τ) (as bs : List Nat) :
    tagged h g (as ++ bs) = tagged h g as ++ tagged h g bs := by
  simp [tagged]

theorem tagged_cons_of_read {h : Heap} {a : Nat} {n : Node} (hn : h.read a = some n)
    (g : Nat → τ) (as : List Nat) : tagged h g (a :: as) = (n.data, g a) :: tagged h g as := by
  simp [tagged, hn]

theorem tagged_frame {h h1 : Heap} {g g1 : Nat → τ} {as : List Nat}
    (hs : ∀ a ∈ as, h1.read a = h.read a ∧ g1 a = g a) : tagged h1 g1 as = tagged h g as := by
  unfold tagged
  apply List.map_congr_left
  intro a ha
  rw [(hs a ha).1, (hs a ha).2]

theorem walkTagged_links {h : Heap} (g : Nat → τ) : ∀ {as : List Nat} {p : Option Nat}
    {fuel : Nat}, Links h p as → as.length ≤ fuel →
    walkTagged h g fuel as.head? = some (tagged h g as)
  | [], _, fuel, _, _ => by cases fuel <;> simp [walkTagged, tagged]
  | a :: rest, _, 0, _, hf => by simp at hf
  | a :: rest, _, fuel + 1, hl, hf => by
    obtain ⟨⟨n, hn, hnx, -⟩, hrest⟩ := hl
    have ih : walkTagged h g fuel rest.head? = some (tagged h g rest) :=
      walkTagged_links g hrest (by simpa using hf)
    simp [walkTagged, hn, hnx, ih, tagged]

theorem Owns.contentsTagged_eq {w : World} {owns : Nat → List Nat} (ho : Owns w owns)
    (g : Nat → τ) {q : Nat} {Q : Queue} (hq : w.queues[q]? = some Q) :
    contentsTagged w g q = some (tagged w.heap g (owns q)) := by
  have hr := ho.rep q Q hq
  unfold contentsTagged
  rw [hq]
  show walkTagged w.heap g w.heap.length Q.front = _
  rw [hr.front]
  exact walkTagged_links g hr.links (hr.links.length_le hr.nodup)

theorem Queue.sortScanTagged_stop {last : Option Nat} {h : Heap} {c : Nat} {n : Node}
    (g : Nat → τ) (sw : Bool) (fuel : Nat) (hn : h.read c = some n) (hnx : n.next = last) :
    Queue.sortScanTagged last (fuel + 1) h g (some c) sw = .ok (h, g, some c, sw) := by
  simp [Queue.sortScanTagged, Heap.deref, hn, hnx, bind, Except.bind, pure, Except.pure]

theorem Queue.sortScanTagged_keep {last : Option Nat} {h : Heap} {c b : Nat} {n nb : Node}
    (g : Nat → τ) (sw : Bool) (fuel : Nat) (hn : h.read c = some n) (hnx : n.next = some b)
    (hne : ¬ (some b = last)) (hnb : h.read b = some nb) (hle : ¬ n.data > nb.data) :
    Queue.sortScanTagged last (fuel + 1) h g (some c) sw
      = Queue.sortScanTagged last fuel h g (some b) sw := by
  simp [Queue.sortScanTagged, Heap.deref, hn, hnx, hne, hnb, hle, bind, Except.bind]

theorem Queue.sortScanTagged_swap {last : Option Nat} {h : Heap} {c b : Nat} {n nb : Node}
    (g : Nat → τ) (sw : Bool) (fuel : Nat) (hn : h.read c = some n) (hnx : n.next = some b)
    (hne : ¬ (some b = last)) (hnb : h.read b = some nb) (hcb : c ≠ b)
    (hgt : n.data > nb.data) :
    Queue.sortScanTagged last (fuel + 1) h g (some c) sw
      = Queue.sortScanTagged last fuel
          ((h.set c (some { n with data := nb.data })).set b (some { nb with data := n.data }))
          (swapTags g (some c) (some b)) (some b) true := by
  obtain ⟨d, nx, pv⟩ := n
  simp only at hnx hgt
  subst hnx
  have r1c : Heap.read (h.set c (some ⟨nb.data, some b, pv⟩)) c = some ⟨nb.data, some b, pv⟩ :=
    Heap.read_set_same _ (Heap.read_lt hn)
  have r1b : Heap.read (h.set c (some ⟨nb.data, some b, pv⟩)) b = some nb := by
    rw [Heap.read_set_ne _ hcb, hnb]
  have r2c : Heap.read ((h.set c (some ⟨nb.data, some b, pv⟩)).set b
      (some ⟨d, nb.next, nb.prev⟩)) c = some ⟨nb.data, some b, pv⟩ := by
    rw [Heap.read_set_ne _ (Ne.symm hcb), r1c]
  simp [Queue.sortScanTagged, Heap.deref, Heap.update, hn, hne, hnb, hgt, r1c, r1b, r2c, bind,
    Except.bind]

/-- The inner loop run with tags does to the tagged values of the scanned nodes what
`bubbleBy` does to them. -/
theorem Queue.sortScanTagged_spec (last : Option Nat) : ∀ (seg : List Nat) (c : Nat)
    (tail : List Nat) (h : Heap) (g : Nat → τ) (p : Option Nat) (sw : Bool) (fuel : Nat)
    (n : Node),
    Links h p (c :: seg ++ tail) → (c :: seg ++ tail).Nodup → last = tail.head? →
    seg.length + 1 ≤ fuel → h.read c = some n →
    ∃ h1 g1, Queue.sortScanTagged last fuel h g (some c) sw
        = .ok (h1, g1, (c :: seg).getLast?,
            sw || (bubbleBy Prod.fst (n.data, g c) (tagged h g seg)).2) ∧
      SameLinks h h1 ∧ (∀ b, b ∉ c :: seg → h1.read b = h.read b ∧ g1 b = g b) ∧
      tagged h1 g1 (c :: seg) = (bubbleBy Prod.fst (n.data, g c) (tagged h g seg)).1
  | _, _, _, _, _, _, _, 0, _, _, _, _, hf, _ => by simp at hf
  | [], c, tail, h, g, p, sw, fuel + 1, n, hl, _, hlast, _, hn => by
    obtain ⟨⟨n1, hn1, hnx, -⟩, -⟩ := hl
    rw [hn] at hn1
    cases hn1
    have hnx1 : n.next = last := by rw [hlast]; simpa using hnx
    refine ⟨h, g, ?_, SameLinks.refl h, fun _ _ => ⟨rfl, rfl⟩, by simp [tagged, hn, bubbleBy]⟩
    rw [Queue.sortScanTagged_stop g sw fuel hn hnx1]
    simp [tagged, bubbleBy]
  | b :: seg, c, tail, h, g, p, sw, fuel + 1, n, hl, hnd, hlast, hf, hn => by
    obtain ⟨⟨n1, hn1, hnx, -⟩, hrest⟩ := hl
    rw [hn] at hn1
    cases hn1
    have hnx1 : n.next = some b := by simpa using hnx
    have hrest1 := hrest
    obtain ⟨⟨nb, hnb, -, -⟩, -⟩ := hrest1
    have hcb : c ≠ b := fun e => by simp [e] at hnd
    have hnd1 : (b :: seg ++ tail).Nodup := (List.nodup_cons.1 hnd).2
    have hcseg : c ∉ b :: seg := fun hm =>
      (List.nodup_cons.1 hnd).1 (List.mem_append_left tail hm)
    have hne : ¬ (some b = last) := by
      rw [hlast]
      cases tail with
      | nil => simp
      | cons t tail =>
        intro e
        have : b = t := by simpa using e
        subst this
        simp at hnd1
    have hf1 : seg.length + 1 ≤ fuel := by simpa using hf
    have hlast2 : (c :: b :: seg).getLast? = (b :: seg).getLast? := List.getLast?_cons_cons
    rw [hlast2, tagged_cons_of_read hnb]
    by_cases hgt : n.data > nb.data
    · -- exchange: the two values move, each with its tag
      let h1 : Heap := h.set c (some { n with data := nb.data })
      let h2 : Heap := h1.set b (some { nb with data := n.data })
      let g2 : Nat → τ := swapTags g (some c) (some b)
      have r1c : h1.read c = some { n with data := nb.data } :=
        Heap.read_set_same _ (Heap.read_lt hn)
      have r1b : h1.read b = some nb := by rw [Heap.read_set_ne _ hcb, hnb]
      have r2b : h2.read b = some { nb with data := n.data } :=
        Heap.read_set_same _ (Heap.read_lt r1b)
      have r2c : h2.read c = some { n with data := nb.data } := by
        rw [Heap.read_set_ne _ (Ne.symm hcb), r1c]
      have s2 : SameLinks h h2 := (SameLinks.set_data hn _).trans (SameLinks.set_data r1b _)
      have fr2 : ∀ x, x ≠ c → x ≠ b → h2.read x = h.read x ∧ g2 x = g x := by
        intro x hxc hxb
        refine ⟨?_, ?_⟩
        · rw [Heap.read_set_ne _ (Ne.symm hxb), Heap.read_set_ne _ (Ne.symm hxc)]
        · show Function.update (Function.update g c (g b)) b (g c) x = g x
          rw [Function.update_noteq hxb, Function.update_noteq hxc]
      have g2b : g2 b = g c := by
        show Function.update (Function.update g c (g b)) b (g c) b = g c
        rw [Function.update_same]
      have g2c : g2 c = g b := by
        show Function.update (Function.update g c (g b)) b (g c) c = g b
        rw [Function.update_noteq hcb, Function.update_same]
      obtain ⟨h3, g3, hrun, s3, fr3, hv3⟩ := Queue.sortScanTagged_spec last seg b tail h2 g2
        (some c) true fuel _ (s2.links hrest) hnd1 hlast hf1 r2b
      have hv2 : tagged h2 g2 seg = tagged h g seg := by
        apply tagged_frame
        intro x hx
        refine fr2 x (fun e => ?_) (fun e => ?_)
        · subst e; simp [hx] at hnd
        · subst e; simp [hx] at hnd1
      rw [hv2, g2b] at hrun hv3
      have r3c : h3.read c = some { n with data := nb.data } := by
        rw [(fr3 c hcseg).1, r2c]
      have g3c : g3 c = g b := by rw [(fr3 c hcseg).2, g2c]
      have hgt1 : Prod.fst (n.data, g c) > Prod.fst (nb.data, g b) := hgt
      have hbub : bubbleBy Prod.fst (n.data, g c) ((nb.data, g b) :: tagged h g seg)
          = ((nb.data, g b) :: (bubbleBy Prod.fst (n.data, g c) (tagged h g seg)).1, true) := by
        rw [bubbleBy, if_pos hgt1]
      refine ⟨h3, g3, ?_, s2.trans s3, ?_, ?_⟩
      · rw [Queue.sortScanTagged_swap g sw fuel hn hnx1 hne hnb hcb hgt, hbub, hrun]
        simp
      · intro x hx
        have hxc : x ≠ c := fun e => hx (by simp [e])
        have hxb : x ≠ b := fun e => hx (by simp [e])
        have h3x := fr3 x (fun hm => hx (List.mem_cons_of_mem _ hm))
        have h2x := fr2 x hxc hxb
        exact ⟨h3x.1.trans h2x.1, h3x.2.trans h2x.2⟩
      · rw [tagged_cons_of_read r3c, hv3, hbub, g3c]
    · -- no exchange
      obtain ⟨h3, g3, hrun, s3, fr3, hv3⟩ := Queue.sortScanTagged_spec last seg b tail h g
        (some c) sw fuel _ hrest hnd1 hlast hf1 hnb
      have r3c : h3.read c = some n := by
        rw [(fr3 c hcseg).1, hn]
      have g3c : g3 c = g c := (fr3 c hcseg).2
      have hgt1 : ¬ Prod.fst (n.data, g c) > Prod.fst (nb.data, g b) := hgt
      have hbub : bubbleBy Prod.fst (n.data, g c) ((nb.data, g b) :: tagged h g seg)
          = ((n.data, g c) :: (bubbleBy Prod.fst (nb.data, g b) (tagged h g seg)).1,
              (bubbleBy Prod.fst (nb.data, g b) (tagged h g seg)).2) := by
        rw [bubbleBy, if_neg hgt1]
      refine ⟨h3, g3, ?_, s3, ?_, ?_⟩
      · rw [Queue.sortScanTagged_keep g sw fuel hn hnx1 hne hnb hgt, hbub, hrun]
      · intro x hx
        exact fr3 x (fun hm => hx (List.mem_cons_of_mem _ hm))
      · rw [tagged_cons_of_read r3c, hv3, hbub, g3c]

end TaggedSpec

section TaggedLoop

variable {τ : Type}

/-- Whenever the outer loop run with tags returns, the tagged values of any one value
are in the order they had before. -/
theorem Queue.sortLoopTagged_stable (fuel : Nat) (as : List Nat) : ∀ (passes : Nat)
    (seg tail : List Nat) (h : Heap) (g : Nat → τ), as = seg ++ tail → seg ≠ [] →
    Links h none as → as.Nodup → seg.length ≤ fuel → ∀ (h1 : Heap) (g1 : Nat → τ),
    Queue.sortLoopTagged fuel as.head? passes h g tail.head? = .ok (h1, g1) →
    ∀ v : Int, (tagged h1 g1 as).filter (fun e => decide (e.1 = v))
      = (tagged h g as).filter (fun e => decide (e.1 = v))
  | 0, _, _, _, _, _, _, _, _, _, _, _, hrun => by simp [Queue.sortLoopTagged] at hrun
  | _ + 1, [], _, _, _, _, hne, _, _, _, _, _, _ => absurd rfl hne
  | passes + 1, c :: seg, tail, h, g, has, _, hl, hnd, hf, h1, g1, hrun => by
    subst has
    intro v
    obtain ⟨n, hn⟩ := hl.live c (by simp)
    obtain ⟨h2, g2, hscan, s2, fr2, hv2⟩ := Queue.sortScanTagged_spec tail.head? seg c tail h g
      none false fuel n hl hnd rfl (by simpa using hf) hn
    have hdisj : ∀ b ∈ tail, b ∉ c :: seg := by
      intro b hb hm
      exact (List.nodup_append.1 hnd).2.2 hm hb
    have hvt : tagged h2 g2 tail = tagged h g tail := tagged_frame (fun b hb => fr2 b (hdisj b hb))
    have hpass : (tagged h2 g2 (c :: seg ++ tail)).filter (fun e => decide (e.1 = v))
        = (tagged h g (c :: seg ++ tail)).filter (fun e => decide (e.1 = v)) := by
      rw [tagged_append, tagged_append, hvt, List.filter_append, List.filter_append, hv2,
        bubbleBy_filter Prod.fst v, tagged_cons_of_read hn]
    have hhead : (c :: seg ++ tail).head? = some c := rfl
    rw [hhead, Queue.sortLoopTagged] at hrun
    simp only [hscan, bind, Except.bind, Bool.false_or] at hrun
    cases hsw : (bubbleBy Prod.fst (n.data, g c) (tagged h g seg)).2 with
    | false =>
      simp only [hsw, Bool.false_eq_true, if_false, pure, Except.pure] at hrun
      have e := Except.ok.inj hrun
      have e1 : h2 = h1 := congrArg Prod.fst e
      have e2 : g2 = g1 := congrArg Prod.snd e
      subst e1
      subst e2
      exact hpass
    | true =>
      simp only [hsw, if_true] at hrun
      have hseg : seg ≠ [] := by
        intro e
        subst e
        simp [tagged, bubbleBy] at hsw
      rcases List.eq_nil_or_concat (c :: seg) with hnil | ⟨seg1, r, hcat⟩
      · simp at hnil
      rw [List.concat_eq_append] at hcat
      have hlen1 : seg1.length = seg.length := by
        have := congrArg List.length hcat
        simp at this
        omega
      have hseg1 : seg1 ≠ [] := by
        intro e
        rw [e] at hlen1
        exact hseg (List.length_eq_zero.1 hlen1.symm)
      have has1 : c :: seg ++ tail = seg1 ++ (r :: tail) := by
        rw [hcat]; simp
      have hlastr : (c :: seg).getLast? = some r := by rw [hcat]; simp
      rw [hlastr] at hrun
      have hrun1 : Queue.sortLoopTagged fuel (c :: seg ++ tail).head? passes h2 g2
          (r :: tail).head? = .ok (h1, g1) := hrun
      have ih := Queue.sortLoopTagged_stable fuel (c :: seg ++ tail) passes seg1 (r :: tail) h2 g2
        has1 hseg1 (s2.links hl) hnd (by simp at hf; omega) h1 g1 hrun1 v
      exact ih.trans hpass

/-- C12: `sort` is stable.  Stored values are plain integers, so the run of `sort` is
followed with a tag on every stored value (`g a` for the value in the node at `a`); the
run with tags is the code itself, statement by statement, and an exchange of two values
moves their tags with them.  Dropping the tags gives back `sort`, and at every call of
the inner loop the same heap, the same `current` and the same `swapped`.  In a reachable
world, with fuel at least the number of elements and for any tags: the run with tags
returns the world `sort` returns; the tagged sequence it leaves has, for every value, the
elements holding that value in the order they had before, so of two elements with equal
values the one nearer the front before `sort` is nearer the front after it.  A step of the
inner loop at two adjacent nodes holding equal values leaves heap, tags and `swapped` as
they are. -/
theorem sort_stable (w : World) (q : Nat) (fuel : Nat) (τ : Type) (g : Nat → τ)
    (ts : List (Int × τ)) (hr : Reachable w) (hc : contentsTagged w g q = some ts)
    (hf : ts.length ≤ fuel) :
    (∃ w1 g1 ts1, sortTagged fuel w g q = .ok (w1, g1) ∧ sort fuel w q = .ok w1 ∧
        contentsTagged w1 g1 q = some ts1 ∧
        contents w q = some (ts.map Prod.fst) ∧ contents w1 q = some (ts1.map Prod.fst) ∧
        (∀ v : Int, ts1.filter (fun e => decide (e.1 = v))
          = ts.filter (fun e => decide (e.1 = v))) ∧
        (∀ x y : Int × τ, x.1 = y.1 → List.Sublist [x, y] ts → List.Sublist [x, y] ts1)) ∧
      (∀ (k : Nat) (u : World) (t : Nat → τ) (j : Nat),
        (sortTagged k u t j).map Prod.fst = sort k u j) ∧
      (∀ (last : Option Nat) (k : Nat) (h : Heap) (t : Nat → τ) (cur : Option Nat) (sw : Bool),
        (Queue.sortScanTagged last k h t cur sw).map (fun r => (r.1, r.2.2))
          = Queue.sortScan last k h cur sw) ∧
      (∀ (last : Option Nat) (h : Heap) (t : Nat → τ) (c b : Nat) (n nb : Node) (sw : Bool)
        (k : Nat), h.read c = some n → n.next = some b → ¬ (some b = last) →
        h.read b = some nb → n.data = nb.data →
        Queue.sortScanTagged last (k + 1) h t (some c) sw
            = Queue.sortScanTagged last k h t (some b) sw ∧
          Queue.sortScan last (k + 1) h (some c) sw = Queue.sortScan last k h (some b) sw) := by
  refine ⟨?_, sortTagged_erase, fun last k h t cur sw => Queue.sortScanTagged_erase last k h t cur sw,
    ?_⟩
  · obtain ⟨owns, ho⟩ := hr.wf
    obtain ⟨Q, hq⟩ : ∃ Q, w.queues[q]? = some Q := by
      unfold contentsTagged at hc
      cases hq : w.queues[q]? with
      | none => simp [hq] at hc
      | some Q => exact ⟨Q, rfl⟩
    have hrep := ho.rep q Q hq
    have hts : tagged w.heap g (owns q) = ts := by
      rw [ho.contentsTagged_eq g hq] at hc
      exact Option.some.inj hc
    have hf1 : (owns q).length ≤ fuel := by
      rw [← tagged_length w.heap g, hts]; exact hf
    obtain ⟨h1, hrun, ho1, -, -, -, -⟩ := sort_owns ho hq hf1
    have hq1 : ({ w with heap := h1 } : World).queues[q]? = some Q := hq
    -- the run with tags returns, and returns the heap of `sort`
    have herase := sortTagged_erase fuel w g q
    rw [hrun] at herase
    simp only [sortTagged, World.queue_ok hq, bind, Except.bind] at herase
    cases hqs1 : Queue.sortTagged fuel w.heap g Q with
    | error e => simp [hqs1, Except.map] at herase
    | ok x =>
    obtain ⟨hh, g1⟩ := x
    simp only [hqs1, Except.map, pure, Except.pure] at herase
    have hh1 : hh = h1 := congrArg World.heap (Except.ok.inj herase)
    subst hh1
    have hrunT : sortTagged fuel w g q = .ok ({ w with heap := hh }, g1) := by
      simp [sortTagged, World.queue_ok hq, hqs1, bind, Except.bind, pure, Except.pure]
    have hstable : ∀ v : Int, (tagged hh g1 (owns q)).filter (fun e => decide (e.1 = v))
        = (tagged w.heap g (owns q)).filter (fun e => decide (e.1 = v)) := by
      unfold Queue.sortTagged at hqs1
      by_cases hguard : (Q.isEmpty || Q.size == 1) = true
      · rw [if_pos hguard] at hqs1
        have e := Except.ok.inj hqs1
        have e1 : w.heap = hh := congrArg Prod.fst e
        have e2 : g = g1 := congrArg Prod.snd e
        subst e1
        subst e2
        intro v
        rfl
      · rw [if_neg hguard] at hqs1
        have hne : owns q ≠ [] := by
          intro e
          have hemp : Q.isEmpty = true := hrep.isEmpty_iff.2 e
          simp [hemp] at hguard
        rw [hrep.front] at hqs1
        exact Queue.sortLoopTagged_stable fuel (owns q) fuel (owns q) [] w.heap g (by simp) hne
          hrep.links hrep.nodup hf1 hh g1 hqs1
    rw [hts] at hstable
    refine ⟨_, g1, tagged hh g1 (owns q), hrunT, hrun, ho1.contentsTagged_eq g1 hq1, ?_, ?_,
      hstable, ?_⟩
    · rw [ho.contents_eq hq, ← hts, tagged_fst]
    · rw [ho1.contents_eq hq1, tagged_fst]
    · intro x y hxy hsub
      have h1 : List.Sublist ([x, y].filter (fun e => decide (e.1 = x.1)))
          (ts.filter (fun e => decide (e.1 = x.1))) := hsub.filter _
      have h2 : [x, y].filter (fun e => decide (e.1 = x.1)) = [x, y] := by
        simp [hxy]
      rw [h2, ← hstable x.1] at h1
      exact h1.trans (List.filter_sublist _)
  · intro last h t c b n nb sw k hn hnx hne hnb heq
    exact ⟨Queue.sortScanTagged_keep t sw k hn hnx hne hnb (by omega),
      Queue.sortScan_keep sw k hn hnx hne hnb (by omega)⟩

theorem sort_stable_witness :
    (∃ w1 g1 ts1, sortTagged 4 oneFour (fun a => a) 0 = .ok (w1, g1) ∧
        sort 4 oneFour 0 = .ok w1 ∧ contentsTagged w1 g1 0 = some ts1 ∧
        contents oneFour 0 = some ([((30 : Int), 0), (10, 1), (20, 2), (10, 3)].map Prod.fst) ∧
        contents w1 0 = some (ts1.map Prod.fst) ∧
        (∀ v : Int, ts1.filter (fun e => decide (e.1 = v))
          = [((30 : Int), 0), (10, 1), (20, 2), (10, 3)].filter (fun e => decide (e.1 = v))) ∧
        (∀ x y : Int × Nat, x.1 = y.1 →
          List.Sublist [x, y] [((30 : Int), 0), (10, 1), (20, 2), (10, 3)] →
          List.Sublist [x, y] ts1)) ∧
      (∀ (k : Nat) (u : World) (t : Nat → Nat) (j : Nat),
        (sortTagged k u t j).map Prod.fst = sort k u j) ∧
      (∀ (last : Option Nat) (k : Nat) (h : Heap) (t : Nat → Nat) (cur : Option Nat) (sw : Bool),
        (Queue.sortScanTagged last k h t cur sw).map (fun r => (r.1, r.2.2))
          = Queue.sortScan last k h cur sw) ∧
      (∀ (last : Option Nat) (h : Heap) (t : Nat → Nat) (c b : Nat) (n nb : Node) (sw : Bool)
        (k : Nat), h.read c = some n → n.next = some b → ¬ (some b = last) →
        h.read b = some nb → n.data = nb.data →
        Queue.sortScanTagged last (k + 1) h t (some c) sw
            = Queue.sortScanTagged last k h t (some b) sw ∧
          Queue.sortScan last (k + 1) h (some c) sw = Queue.sortScan last k h (some b) sw) :=
  sort_stable oneFour 0 4 Nat (fun a => a) [(30, 0), (10, 1), (20, 2), (10, 3)]
    oneFour_reachable rfl (by decide)

end TaggedLoop

end LinkedQueue
